import Mathlib

/-!
# Paging simulator: FIFO, FIFO with second chance, LRU

Shallow embedding of `sim_pag_fifo.cpp`, `sim_pag_fifo_2c.cpp` and
`sim_pag_lru.c`.  The C state `ssystem` becomes a record that is passed
explicitly; the two tables are lists indexed by `int` values, and every
table access outside the table makes the operation fail (`none`).
`int` and `unsigned` are 32 bits wide: conversions between them are written
out with `% 4294967296`.
-/

namespace SimPaging

/-! ## Machine integers -/

/-- Conversion of an `int` value to `unsigned` (reduction modulo 2^32). -/
def toUnsigned (i : Int) : Nat := (i % 4294967296).toNat

/-- Conversion of an `unsigned` value to `int` (two's complement). -/
def toInt (u : Nat) : Int :=
  if u % 4294967296 < 2147483648 then ((u % 4294967296 : Nat) : Int)
  else ((u % 4294967296 : Nat) : Int) - 4294967296

/-- Range of the values of type `int`. -/
def IsInt (i : Int) : Prop := -2147483648 ≤ i ∧ i < 2147483648

instance (i : Int) : Decidable (IsInt i) := by unfold IsInt; infer_instance

/-! ## Data model -/

/-- Modelled from the spec: the header `sim_paging.h` is not among the sources.
An entry of the page table with the members the spec lists in its data model
(`present`, `frame`, `modified`, `referenced`, `timestamp`), and the member
`clock` that `reference_page` of `sim_pag_lru.c` assigns. -/
structure spage where
  present : Nat
  frame : Int
  modified : Nat
  referenced : Nat
  timestamp : Nat
  clock : Nat
deriving DecidableEq

/-- Modelled from the spec: the header `sim_paging.h` is not among the sources.
An entry of the frames table: the page it holds (`-1` for none) and the link
to the following frame of the ring it belongs to. -/
structure sframe where
  page : Int
  next : Int
deriving DecidableEq

/-- Modelled from the spec: the header `sim_paging.h` is not among the sources.
The state of the simulated system; the members are those the three source
files use.  The statistics counters are natural numbers, `clock` is an
`unsigned` value. -/
structure ssystem where
  pagsz : Int
  numpags : Int
  pgt : List spage
  lru : Int
  clock : Nat
  numframes : Int
  frt : List sframe
  listfree : Int
  listoccupied : Int
  numrefsread : Nat
  numrefswrite : Nat
  numpagefaults : Nat
  numpgwriteback : Nat
  numillegalrefs : Nat
  detailed : Nat
deriving DecidableEq

/-- Read of `t[i]`; fails outside the table. -/
def rd {α : Type} (t : List α) (i : Int) : Option α :=
  if 0 ≤ i then t[i.toNat]? else none

/-- Write of `t[i]`; fails outside the table. -/
def wr {α : Type} (t : List α) (i : Int) (v : α) : Option (List α) :=
  if 0 ≤ i ∧ i.toNat < t.length then some (t.set i.toNat v) else none

/-- Assignment to members of `S->pgt[p]`. -/
def setPg (S : ssystem) (p : Int) (f : spage → spage) : Option ssystem :=
  (rd S.pgt p).bind fun e => (wr S.pgt p (f e)).map fun t => { S with pgt := t }

/-- Assignment to members of `S->frt[i]`. -/
def setFr (S : ssystem) (i : Int) (f : sframe → sframe) : Option ssystem :=
  (rd S.frt i).bind fun e => (wr S.frt i (f e)).map fun t => { S with frt := t }

/-! ## `init_tables` (the same in the three files) -/

/-- The page entry `memset` leaves. -/
def zeroPage : spage :=
  { present := 0, frame := 0, modified := 0, referenced := 0, timestamp := 0, clock := 0 }

/-- The first `c` rounds of
`for (i = 0; i < S->numframes - 1; i++) { frt[i].page = -1; frt[i].next = i + 1; }`. -/
def init_frames (frt : List sframe) : Nat → Option (List sframe)
  | 0 => some frt
  | c + 1 => (init_frames frt c).bind fun t =>
      wr t (c : Int) { page := -1, next := (c : Int) + 1 }

/-- The call `memset(S->pgt, 0, sizeof(spage) * S->numpags)`: the first
`numpags` entries of the table given are zeroed and the entries behind them
stay.  It fails when the table has fewer entries, and for a negative
`numpags`, which makes the size a huge `size_t`. -/
def memset (pgt : List spage) (numpags : Int) : Option (List spage) :=
  if 0 ≤ numpags ∧ numpags.toNat ≤ pgt.length then
    some (List.replicate numpags.toNat zeroPage ++ pgt.drop numpags.toNat)
  else none

/-- Function `init_tables`. -/
def init_tables (S : ssystem) : Option ssystem :=
  (memset S.pgt S.numpags).bind fun pgt =>
  -- the loop runs for i = 0 .. numframes - 2 and leaves i = max 0 (numframes - 1)
  let i : Int := ((S.numframes - 1).toNat : Int)
  (init_frames S.frt (S.numframes - 1).toNat).bind fun t =>
  (wr t i { page := -1, next := 0 }).map fun t1 =>
    { S with pgt := pgt, lru := -1, clock := 0, frt := t1, listfree := i, listoccupied := -1 }

/-! ## The operations a replacement policy provides -/

/-- The four functions in which the three source files differ. -/
structure Policy where
  reference_page : ssystem → Int → Char → Option ssystem
  choose_page_to_be_replaced : ssystem → Option (Int × ssystem)
  replace_page : ssystem → Int → Int → Option ssystem
  occupy_free_frame : ssystem → Int → Int → Option ssystem

/-- Function `handle_page_fault` (the same text in the three files). -/
def handle_page_fault (P : Policy) (S : ssystem) (virtual_address : Nat) : Option ssystem :=
  let S1 := { S with numpagefaults := S.numpagefaults + 1 }
  if toUnsigned S1.pagsz = 0 then none else
  let page := toInt (virtual_address / toUnsigned S1.pagsz)
  if S1.listfree ≠ -1 then
    let last := S1.listfree
    (rd S1.frt last).bind fun el =>
    let frame := el.next
    (if frame = last then some { S1 with listfree := -1 }
     else (rd S1.frt frame).bind fun ef =>
       setFr S1 last fun e => { e with next := ef.next }).bind fun S2 =>
    P.occupy_free_frame S2 frame page
  else
    (P.choose_page_to_be_replaced S1).bind fun r =>
    P.replace_page r.2 r.1 page

/-- Function `sim_mmu` (the same text in the three files).  The result is the
physical address and the state left. -/
def sim_mmu (P : Policy) (S : ssystem) (virtual_addr : Nat) (op : Char) :
    Option (Nat × ssystem) :=
  if toUnsigned S.pagsz = 0 then none else
  let page := toInt (virtual_addr / toUnsigned S.pagsz)
  let offset := toInt (virtual_addr % toUnsigned S.pagsz)
  if page < 0 ∨ page ≥ S.numpags then
    some (4294967295, { S with numillegalrefs := S.numillegalrefs + 1 })
  else
    (rd S.pgt page).bind fun e =>
    (if e.present = 0 then handle_page_fault P S virtual_addr else some S).bind fun S1 =>
    (rd S1.pgt page).bind fun e1 =>
    let frame := e1.frame
    let physical_addr := toUnsigned (frame * S1.pagsz + offset)
    (P.reference_page S1 page op).map fun S2 => (physical_addr, S2)

/-! ## FIFO (`sim_pag_fifo.cpp`) -/

namespace Fifo

/-- Function `reference_page`. -/
def reference_page (S : ssystem) (page : Int) (op : Char) : Option ssystem :=
  if op = 'R' then some { S with numrefsread := S.numrefsread + 1 }
  else if op = 'W' then
    (setPg S page fun e => { e with modified := 1 }).map fun S1 =>
      { S1 with numrefswrite := S1.numrefswrite + 1 }
  else some S

/-- Function `choose_page_to_be_replaced`. -/
def choose_page_to_be_replaced (S : ssystem) : Option (Int × ssystem) :=
  (rd S.frt S.listoccupied).bind fun el =>
  let frame := el.next
  (rd S.frt frame).bind fun ef => some (ef.page, S)

/-- Function `replace_page`. -/
def replace_page (S : ssystem) (victim newpage : Int) : Option ssystem :=
  (rd S.pgt victim).bind fun ev =>
  let frame := ev.frame
  let S1 := if ev.modified ≠ 0 then { S with numpgwriteback := S.numpgwriteback + 1 } else S
  (setPg S1 victim fun e => { e with present := 0 }).bind fun S2 =>
  (setPg S2 newpage fun e =>
    { e with present := 1, frame := frame, modified := 0, referenced := 0 }).bind fun S3 =>
  (setFr S3 frame fun e => { e with page := newpage }).bind fun S4 =>
  (rd S4.frt S4.listoccupied).bind fun el =>
  (setFr S4 frame fun e => { e with next := el.next }).bind fun S5 =>
  (setFr S5 S5.listoccupied fun e => { e with next := frame }).bind fun S6 =>
  some { S6 with listoccupied := frame }

/-- Function `occupy_free_frame`. -/
def occupy_free_frame (S : ssystem) (frame page : Int) : Option ssystem :=
  (setPg S page fun e =>
    { e with frame := frame, present := 1, modified := 0, referenced := 0 }).bind fun S1 =>
  (setFr S1 frame fun e => { e with page := page }).bind fun S2 =>
  if S2.listoccupied = -1 then
    (setFr S2 frame fun e => { e with next := frame }).bind fun S3 =>
    some { S3 with listoccupied := frame }
  else
    (rd S2.frt S2.listoccupied).bind fun el =>
    (setFr S2 frame fun e => { e with next := el.next }).bind fun S3 =>
    (setFr S3 S3.listoccupied fun e => { e with next := frame }).bind fun S4 =>
    some { S4 with listoccupied := frame }

/-- The FIFO policy. -/
def policy : Policy :=
  { reference_page := reference_page
    choose_page_to_be_replaced := choose_page_to_be_replaced
    replace_page := replace_page
    occupy_free_frame := occupy_free_frame }

end Fifo

/-! ## FIFO with second chance (`sim_pag_fifo_2c.cpp`) -/

namespace Fifo2c

/-- Function `reference_page`. -/
def reference_page (S : ssystem) (page : Int) (op : Char) : Option ssystem :=
  if op = 'R' then some { S with numrefsread := S.numrefsread + 1 }
  else if op = 'W' then
    (setPg S page fun e => { e with modified := 1 }).map fun S1 =>
      { S1 with numrefswrite := S1.numrefswrite + 1 }
  else some S

/-- The loop of `choose_page_to_be_replaced` with `c` rounds left to run,
from the frame `current`.  The result is the page returned from inside the
loop (`none` when the loop runs to its end), the state left and the number of
frames probed. -/
def choose_walk : Nat → Int → ssystem → Option (Option Int × ssystem × Nat)
  | 0, _, S => some (none, S, 0)
  | c + 1, current, S =>
    (rd S.frt current).bind fun ec =>
    let frame := ec.next
    (rd S.frt frame).bind fun ef =>
    let page := ef.page
    (rd S.pgt page).bind fun ep =>
    if ep.referenced = 0 then some (some page, S, 1)
    else
      (setPg S page fun e => { e with referenced := 0 }).bind fun S1 =>
      (choose_walk c frame S1).map fun r => (r.1, r.2.1, r.2.2 + 1)

/-- Function `choose_page_to_be_replaced`, with the number of frames probed. -/
def choose_probes (S : ssystem) : Option (Int × ssystem × Nat) :=
  (choose_walk S.numframes.toNat S.listoccupied S).bind fun r =>
  match r.1 with
  | some page => some (page, r.2.1, r.2.2)
  | none => (rd r.2.1.frt r.2.1.listoccupied).map fun el => (el.next, r.2.1, r.2.2)

/-- Function `choose_page_to_be_replaced`. -/
def choose_page_to_be_replaced (S : ssystem) : Option (Int × ssystem) :=
  (choose_probes S).map fun r => (r.1, r.2.1)

/-- Function `replace_page`. -/
def replace_page (S : ssystem) (victim newpage : Int) : Option ssystem :=
  (rd S.pgt victim).bind fun ev =>
  let frame := ev.frame
  let S1 := if ev.modified ≠ 0 then { S with numpgwriteback := S.numpgwriteback + 1 } else S
  (setPg S1 victim fun e => { e with present := 0 }).bind fun S2 =>
  (setPg S2 newpage fun e =>
    { e with present := 1, frame := frame, modified := 0, referenced := 0 }).bind fun S3 =>
  (setFr S3 frame fun e => { e with page := newpage }).bind fun S4 =>
  some { S4 with listoccupied := frame }

/-- Function `occupy_free_frame`. -/
def occupy_free_frame (S : ssystem) (frame page : Int) : Option ssystem :=
  (setPg S page fun e =>
    { e with frame := frame, present := 1, modified := 0, referenced := 0 }).bind fun S1 =>
  (setFr S1 frame fun e => { e with page := page }).bind fun S2 =>
  if S2.listoccupied = -1 then
    (setFr S2 frame fun e => { e with next := frame }).bind fun S3 =>
    some { S3 with listoccupied := frame }
  else
    (rd S2.frt S2.listoccupied).bind fun el =>
    (setFr S2 frame fun e => { e with next := el.next }).bind fun S3 =>
    (setFr S3 S3.listoccupied fun e => { e with next := frame }).bind fun S4 =>
    some { S4 with listoccupied := frame }

/-- The FIFO policy with second chance. -/
def policy : Policy :=
  { reference_page := reference_page
    choose_page_to_be_replaced := choose_page_to_be_replaced
    replace_page := replace_page
    occupy_free_frame := occupy_free_frame }

end Fifo2c

/-! ## LRU (`sim_pag_lru.c`) -/

namespace Lru

/-- Function `reference_page`.  The write branch stores the clock in the
member `clock` of the page entry. -/
def reference_page (S : ssystem) (page : Int) (op : Char) : Option ssystem :=
  if op = 'R' then some { S with numrefsread := S.numrefsread + 1 }
  else if op = 'W' then
    (setPg S page fun e => { e with modified := 1 }).bind fun S1 =>
    let S2 := { S1 with numrefswrite := S1.numrefswrite + 1 }
    (setPg S2 page fun e => { e with clock := S2.clock }).map fun S3 =>
      { S3 with clock := (S3.clock + 1) % 4294967296 }
  else some S

/-- The first `c` rounds of the loop of `choose_page_to_be_replaced`, for
`i = 1 .. c`, on the locals `(victim, frame, lowestTimestamp)`. -/
def choose_scan (S : ssystem) (init : Int × Int × Int) : Nat → Option (Int × Int × Int)
  | 0 => some init
  | c + 1 => (choose_scan S init c).bind fun r =>
    let i : Int := (c : Int) + 1
    (rd S.frt i).bind fun ei =>
    let pageAux := ei.page
    (rd S.pgt pageAux).bind fun ea =>
    if toUnsigned r.2.2 > ea.timestamp then
      some (pageAux, i, toInt ea.timestamp)
    else some r

/-- Function `choose_page_to_be_replaced`, with the local `frame` it prints. -/
def choose_frame (S : ssystem) : Option (Int × Int × Int) :=
  (rd S.frt 0).bind fun e0 =>
  let victim := e0.page
  (rd S.pgt victim).bind fun ev =>
  let lowestTimestamp := toInt ev.timestamp
  choose_scan S (victim, 0, lowestTimestamp) (S.numframes - 1).toNat

/-- Function `choose_page_to_be_replaced`. -/
def choose_page_to_be_replaced (S : ssystem) : Option (Int × ssystem) :=
  (choose_frame S).map fun r => (r.1, S)

/-- Function `replace_page`. -/
def replace_page (S : ssystem) (victim newpage : Int) : Option ssystem :=
  (rd S.pgt victim).bind fun ev =>
  let frame := ev.frame
  let S1 := if ev.modified ≠ 0 then { S with numpgwriteback := S.numpgwriteback + 1 } else S
  (setPg S1 victim fun e => { e with present := 0 }).bind fun S2 =>
  (setPg S2 newpage fun e => { e with present := 1, frame := frame, modified := 0 }).bind fun S3 =>
  setFr S3 frame fun e => { e with page := newpage }

/-- Function `occupy_free_frame`. -/
def occupy_free_frame (S : ssystem) (frame page : Int) : Option ssystem :=
  (setPg S page fun e =>
    { e with frame := frame, present := 1, modified := 0, referenced := 0 }).bind fun S1 =>
  setFr S1 frame fun e => { e with page := page }

/-- The LRU policy. -/
def policy : Policy :=
  { reference_page := reference_page
    choose_page_to_be_replaced := choose_page_to_be_replaced
    replace_page := replace_page
    occupy_free_frame := occupy_free_frame }

end Lru

/-- The three variants of the simulator. -/
def variants : List Policy := [Fifo.policy, Fifo2c.policy, Lru.policy]

/-! ## Reachable states and what they satisfy -/

instance : Inhabited spage := ⟨zeroPage⟩

instance : Inhabited sframe := ⟨{ page := -1, next := -1 }⟩

/-- The entry `t[i]`, or a default entry outside the table. -/
def get {α : Type} [Inhabited α] (t : List α) (i : Int) : α := (rd t i).getD default

/-- The table `t` with `t[i]` replaced. -/
def upd {α : Type} (t : List α) (i : Int) (v : α) : List α :=
  if 0 ≤ i then t.set i.toNat v else t

/-- The configuration is positive and of type `int`, and the two tables have
`numpags` and `numframes` entries. -/
structure Cfg (S : ssystem) : Prop where
  pagsz_pos : 0 < S.pagsz
  pagsz_int : IsInt S.pagsz
  numpags_pos : 0 < S.numpags
  numpags_int : IsInt S.numpags
  numframes_pos : 0 < S.numframes
  numframes_int : IsInt S.numframes
  pgt_len : (S.pgt.length : Int) = S.numpags
  frt_len : (S.frt.length : Int) = S.numframes

/-- The states of variant `P` reached from `init_tables` through calls of
`sim_mmu` on `unsigned` addresses. -/
inductive Reachable (P : Policy) : ssystem → Prop
  | init {S0 S : ssystem} : Cfg S0 → init_tables S0 = some S → Reachable P S
  | step {S S1 : ssystem} {virtual_addr : Nat} {op : Char} {a : Nat} :
      Reachable P S → virtual_addr < 4294967296 →
      sim_mmu P S virtual_addr op = some (a, S1) → Reachable P S1

/-- Pages and frames point at each other: the frames `0 .. k-1` hold present
pages, the frames from `k` on hold none, and no page is marked referenced. -/
structure Mapped (S : ssystem) (k : Int) : Prop where
  k_nonneg : 0 ≤ k
  k_le : k ≤ S.numframes
  bound : ∀ f, 0 ≤ f → f < k →
    0 ≤ (get S.frt f).page ∧ (get S.frt f).page < S.numpags ∧
    (get S.pgt (get S.frt f).page).present = 1 ∧ (get S.pgt (get S.frt f).page).frame = f
  unbound : ∀ f, k ≤ f → f < S.numframes → (get S.frt f).page = -1
  pres : ∀ p, 0 ≤ p → p < S.numpags → (get S.pgt p).present ≠ 0 →
    (get S.pgt p).present = 1 ∧ 0 ≤ (get S.pgt p).frame ∧ (get S.pgt p).frame < k ∧
    (get S.frt (get S.pgt p).frame).page = p
  refd : ∀ p, 0 ≤ p → p < S.numpags → (get S.pgt p).referenced = 0

/-- The free ring holds the frames `k .. numframes-1` in this order. -/
structure FreeFrom (S : ssystem) (k : Int) : Prop where
  some_free : k < S.numframes →
    S.listfree = S.numframes - 1 ∧ (get S.frt (S.numframes - 1)).next = k ∧
    ∀ i, k ≤ i → i < S.numframes - 1 → (get S.frt i).next = i + 1
  none_free : S.numframes ≤ k → S.listfree = -1

/-- The occupied list of the variants that keep one (`ring = true`): it is
empty when no frame is bound; otherwise `listoccupied` and the links of the
bound frames stay among the bound frames.  The LRU variant leaves the list
empty. -/
def Occ (ring : Bool) (S : ssystem) (k : Int) : Prop :=
  if ring then
    (k = 0 → S.listoccupied = -1) ∧ (0 < k → 0 ≤ S.listoccupied ∧ S.listoccupied < k) ∧
    ∀ f, 0 ≤ f → f < k → 0 ≤ (get S.frt f).next ∧ (get S.frt f).next < k
  else S.listoccupied = -1

/-- The invariant of the reachable states, with `k` frames bound. -/
structure Inv (ring : Bool) (S : ssystem) (k : Int) : Prop where
  cfg : Cfg S
  mapped : Mapped S k
  free : FreeFrom S k
  occ : Occ ring S k

/-- The state between the removal of frame `k` from the free ring and its
installation. -/
structure Mid (ring : Bool) (S : ssystem) (k : Int) : Prop where
  cfg : Cfg S
  mapped : Mapped S k
  k_lt : k < S.numframes
  free : FreeFrom S (k + 1)
  occ : Occ ring S k

/-- What a variant has to provide for the invariant to be kept. -/
structure Sound (ring : Bool) (P : Policy) : Prop where
  occupy : ∀ S k page, Mid ring S k → 0 ≤ page → page < S.numpags →
    (get S.pgt page).present = 0 →
    ∃ S1, P.occupy_free_frame S k page = some S1 ∧ Inv ring S1 (k + 1) ∧
      S1.numpagefaults = S.numpagefaults ∧ S1.pagsz = S.pagsz ∧
      S1.numpags = S.numpags ∧ S1.numframes = S.numframes ∧
      (get S1.pgt page).present = 1 ∧ (get S1.pgt page).modified = 0 ∧
      (get S1.pgt page).frame = k
  evict : ∀ S page, Inv ring S S.numframes → 0 ≤ page → page < S.numpags →
    (get S.pgt page).present = 0 →
    ∃ v S1 S2, P.choose_page_to_be_replaced S = some (v, S1) ∧
      P.replace_page S1 v page = some S2 ∧ Inv ring S2 S.numframes ∧
      S2.numpagefaults = S.numpagefaults ∧ S2.pagsz = S.pagsz ∧
      S2.numpags = S.numpags ∧ S2.numframes = S.numframes ∧
      (get S2.pgt page).present = 1 ∧ (get S2.pgt page).modified = 0
  reference : ∀ S k page op, Inv ring S k → 0 ≤ page → page < S.numpags →
    ∃ S1, P.reference_page S page op = some S1 ∧ Inv ring S1 k ∧
      S1.pagsz = S.pagsz ∧ S1.numpags = S.numpags ∧ S1.numframes = S.numframes ∧
      (get S1.pgt page).present = (get S.pgt page).present ∧
      (get S1.pgt page).frame = (get S.pgt page).frame

/-- The timestamp of the page held by frame `g`. -/
def tsOf (S : ssystem) (g : Int) : Nat := (get S.pgt (get S.frt g).page).timestamp

/-! ## Notions the properties are stated with -/

/-- A system as `init_tables` receives it: tables of the configured sizes with
arbitrary content (here zeroes) and zeroed counters. -/
def allocated (pagsz numpags numframes : Int) : ssystem :=
  { pagsz := pagsz, numpags := numpags, pgt := List.replicate numpags.toNat zeroPage,
    lru := 0, clock := 0, numframes := numframes,
    frt := List.replicate numframes.toNat { page := 0, next := 0 },
    listfree := 0, listoccupied := 0, numrefsread := 0, numrefswrite := 0,
    numpagefaults := 0, numpgwriteback := 0, numillegalrefs := 0, detailed := 0 }

/-- The references of a trace fed to `sim_mmu` one after the other; the result
is the list of the physical addresses and the last state. -/
def sim_run (P : Policy) : ssystem → List (Nat × Char) → Option (List Nat × ssystem)
  | S, [] => some ([], S)
  | S, r :: rs => (sim_mmu P S r.1 r.2).bind fun x =>
      (sim_run P x.2 rs).map fun y => (x.1 :: y.1, y.2)

/-- The pages with `present = 1`. -/
def presentPages (S : ssystem) : Set Int := { p | ∃ e, rd S.pgt p = some e ∧ e.present = 1 }

/-- The frames with `page != -1`. -/
def boundFrames (S : ssystem) : Set Int := { f | ∃ e, rd S.frt f = some e ∧ e.page ≠ -1 }

/-- The number of frames from `cur` to `last` along `next`, both counted;
`none` when `last` is not met within `fuel` frames. -/
def stepsTo (frt : List sframe) (last : Int) : Nat → Int → Option Nat
  | 0, _ => none
  | fuel + 1, cur =>
    if cur = last then some 1
    else (rd frt cur).bind fun e => (stepsTo frt last fuel e.next).map fun n => n + 1

/-- The number of frames linked in the free ring: 0 when `listfree = -1`,
otherwise the length of the cycle from `frt[listfree].next` back to `listfree`. -/
def freeRingLength (S : ssystem) : Option Nat :=
  if S.listfree = -1 then some 0
  else (rd S.frt S.listfree).bind fun e => stepsTo S.frt S.listfree S.frt.length e.next

/-- The number of frames bound to a page. -/
def boundCount (S : ssystem) : Nat := S.frt.countP fun e => decide (e.page ≠ -1)

/-- The frames met in `c` steps along `next` after the frame `cur`. -/
def ringWalk (frt : List sframe) : Nat → Int → Option (List Int)
  | 0, _ => some []
  | c + 1, cur => (rd frt cur).bind fun e =>
      (ringWalk frt c e.next).map fun l => e.next :: l

/-- The occupied ring of `S` is a cycle of the `numframes` frames `gs`, listed
from the oldest `frt[listoccupied].next` to `listoccupied`, and each of them
holds a valid page. -/
structure OccupiedRing (S : ssystem) (gs : List Int) : Prop where
  nonempty : 0 < S.numframes
  walk : ringWalk S.frt S.numframes.toNat S.listoccupied = some gs
  nodup : gs.Nodup
  closed : gs.getLast? = some S.listoccupied
  pages : ∀ g ∈ gs, ∃ e ep, rd S.frt g = some e ∧ rd S.pgt e.page = some ep

/-! ## Concrete states -/

/-- The state after `init_tables` with page size 1, 4 pages and 2 frames. -/
def start142 : ssystem :=
  { pagsz := 1, numpags := 4,
    pgt := [⟨0, 0, 0, 0, 0, 0⟩, ⟨0, 0, 0, 0, 0, 0⟩, ⟨0, 0, 0, 0, 0, 0⟩, ⟨0, 0, 0, 0, 0, 0⟩],
    lru := -1, clock := 0, numframes := 2,
    frt := [⟨-1, 1⟩, ⟨-1, 0⟩],
    listfree := 1, listoccupied := -1,
    numrefsread := 0, numrefswrite := 0, numpagefaults := 0,
    numpgwriteback := 0, numillegalrefs := 0, detailed := 0 }

/-- The FIFO state after reading the pages 0 and 1 from `start142`. -/
def fifoFull : ssystem :=
  { pagsz := 1, numpags := 4,
    pgt := [⟨1, 0, 0, 0, 0, 0⟩, ⟨1, 1, 0, 0, 0, 0⟩, ⟨0, 0, 0, 0, 0, 0⟩, ⟨0, 0, 0, 0, 0, 0⟩],
    lru := -1, clock := 0, numframes := 2,
    frt := [⟨0, 1⟩, ⟨1, 0⟩],
    listfree := -1, listoccupied := 1,
    numrefsread := 2, numrefswrite := 0, numpagefaults := 2,
    numpgwriteback := 0, numillegalrefs := 0, detailed := 0 }

/-- The FIFO state after reading the pages 0, 1 and 2 from `start142`. -/
def fifoThird : ssystem :=
  { pagsz := 1, numpags := 4,
    pgt := [⟨0, 0, 0, 0, 0, 0⟩, ⟨1, 1, 0, 0, 0, 0⟩, ⟨1, 0, 0, 0, 0, 0⟩, ⟨0, 0, 0, 0, 0, 0⟩],
    lru := -1, clock := 0, numframes := 2,
    frt := [⟨2, 0⟩, ⟨1, 0⟩],
    listfree := -1, listoccupied := 0,
    numrefsread := 3, numrefswrite := 0, numpagefaults := 3,
    numpgwriteback := 0, numillegalrefs := 0, detailed := 0 }

/-- The FIFO state after reading the pages 0, 1, 2 and 3 from `start142`. -/
def fifoFourth : ssystem :=
  { pagsz := 1, numpags := 4,
    pgt := [⟨0, 0, 0, 0, 0, 0⟩, ⟨1, 1, 0, 0, 0, 0⟩, ⟨0, 0, 0, 0, 0, 0⟩, ⟨1, 0, 0, 0, 0, 0⟩],
    lru := -1, clock := 0, numframes := 2,
    frt := [⟨3, 0⟩, ⟨1, 0⟩],
    listfree := -1, listoccupied := 0,
    numrefsread := 4, numrefswrite := 0, numpagefaults := 4,
    numpgwriteback := 0, numillegalrefs := 0, detailed := 0 }

/-- The LRU state after writing the pages 0, 1 and 0 with page size 1, 3 pages
and 2 frames. -/
def lruThird : ssystem :=
  { pagsz := 1, numpags := 3,
    pgt := [⟨1, 0, 1, 0, 0, 2⟩, ⟨1, 1, 1, 0, 0, 1⟩, ⟨0, 0, 0, 0, 0, 0⟩],
    lru := -1, clock := 3, numframes := 2,
    frt := [⟨0, 1⟩, ⟨1, 1⟩],
    listfree := -1, listoccupied := -1,
    numrefsread := 0, numrefswrite := 3, numpagefaults := 2,
    numpgwriteback := 0, numillegalrefs := 0, detailed := 0 }

/-- The LRU state after writing the pages 0, 1, 0 and 2. -/
def lruFourth : ssystem :=
  { pagsz := 1, numpags := 3,
    pgt := [⟨0, 0, 1, 0, 0, 2⟩, ⟨1, 1, 1, 0, 0, 1⟩, ⟨1, 0, 1, 0, 0, 3⟩],
    lru := -1, clock := 4, numframes := 2,
    frt := [⟨2, 1⟩, ⟨1, 1⟩],
    listfree := -1, listoccupied := -1,
    numrefsread := 0, numrefswrite := 4, numpagefaults := 3,
    numpgwriteback := 1, numillegalrefs := 0, detailed := 0 }

/-- The state after reading the pages 1 and 2 with page size 2147483647,
3 pages and 3 frames. -/
def wideTwo : ssystem :=
  { pagsz := 2147483647, numpags := 3,
    pgt := [⟨0, 0, 0, 0, 0, 0⟩, ⟨1, 0, 0, 0, 0, 0⟩, ⟨1, 1, 0, 0, 0, 0⟩],
    lru := -1, clock := 0, numframes := 3,
    frt := [⟨1, 1⟩, ⟨2, 2⟩, ⟨-1, 2⟩],
    listfree := 2, listoccupied := -1,
    numrefsread := 2, numrefswrite := 0, numpagefaults := 2,
    numpgwriteback := 0, numillegalrefs := 0, detailed := 0 }

/-- The state `wideTwo` after the page 0 is read at offset 5. -/
def wideThree : ssystem :=
  { pagsz := 2147483647, numpags := 3,
    pgt := [⟨1, 2, 0, 0, 0, 0⟩, ⟨1, 0, 0, 0, 0, 0⟩, ⟨1, 1, 0, 0, 0, 0⟩],
    lru := -1, clock := 0, numframes := 3,
    frt := [⟨1, 1⟩, ⟨2, 2⟩, ⟨0, 2⟩],
    listfree := -1, listoccupied := -1,
    numrefsread := 3, numrefswrite := 0, numpagefaults := 3,
    numpgwriteback := 0, numillegalrefs := 0, detailed := 0 }

/-- A state with three bound frames whose pages have the timestamps 5, 3, 3. -/
def stamped : ssystem :=
  { pagsz := 1, numpags := 3,
    pgt := [⟨1, 0, 0, 0, 5, 0⟩, ⟨1, 1, 0, 0, 3, 0⟩, ⟨1, 2, 0, 0, 3, 0⟩],
    lru := -1, clock := 6, numframes := 3,
    frt := [⟨0, 0⟩, ⟨1, 0⟩, ⟨2, 0⟩],
    listfree := -1, listoccupied := -1,
    numrefsread := 0, numrefswrite := 0, numpagefaults := 3,
    numpgwriteback := 0, numillegalrefs := 0, detailed := 0 }

/-- A state whose occupied ring holds the frames 0 and 1, both with pages
marked referenced. -/
def marked : ssystem :=
  { pagsz := 1, numpags := 4,
    pgt := [⟨1, 0, 0, 1, 0, 0⟩, ⟨1, 1, 0, 1, 0, 0⟩, ⟨0, 0, 0, 0, 0, 0⟩, ⟨0, 0, 0, 0, 0, 0⟩],
    lru := -1, clock := 0, numframes := 2,
    frt := [⟨0, 1⟩, ⟨1, 0⟩],
    listfree := -1, listoccupied := 1,
    numrefsread := 2, numrefswrite := 0, numpagefaults := 2,
    numpgwriteback := 0, numillegalrefs := 0, detailed := 0 }

/-! ## Notions for the rings and for page hits -/

/-- The frames from `cur` to `last` along `next`, both listed; `none` when
`last` is not met within `fuel` frames. -/
def collectTo (frt : List sframe) (last : Int) : Nat → Int → Option (List Int)
  | 0, _ => none
  | fuel + 1, cur =>
    if cur = last then some [cur]
    else (rd frt cur).bind fun e => (collectTo frt last fuel e.next).map fun l => cur :: l

/-- The frames reached from the frame `tail` by following `next`, listed from
`frt[tail].next` to `tail`: the ring whose last frame is `tail`.  It is empty
for `tail = -1`, and `none` when following `next` does not lead back to
`tail`. -/
def ringOf (frt : List sframe) (tail : Int) : Option (List Int) :=
  if tail = -1 then some []
  else (rd frt tail).bind fun e => collectTo frt tail frt.length e.next

/-- The integers `a, a + 1, ..., a + n - 1`. -/
def ival (a : Int) (n : Nat) : List Int := (List.range n).map fun j => a + (j : Int)

/-- The state `S1` differs from `S` at most in the entry of the page `p`, where
`present`, `frame` and `referenced` are the same, in `clock` and in the
counters of the read and write references. -/
structure HitFrame (S S1 : ssystem) (p : Int) : Prop where
  pagsz : S1.pagsz = S.pagsz
  numpags : S1.numpags = S.numpags
  numframes : S1.numframes = S.numframes
  lru : S1.lru = S.lru
  detailed : S1.detailed = S.detailed
  frt : S1.frt = S.frt
  listfree : S1.listfree = S.listfree
  listoccupied : S1.listoccupied = S.listoccupied
  numpagefaults : S1.numpagefaults = S.numpagefaults
  numpgwriteback : S1.numpgwriteback = S.numpgwriteback
  numillegalrefs : S1.numillegalrefs = S.numillegalrefs
  pgt_len : S1.pgt.length = S.pgt.length
  others : ∀ q, q ≠ p → get S1.pgt q = get S.pgt q
  present : (get S1.pgt p).present = (get S.pgt p).present
  frame : (get S1.pgt p).frame = (get S.pgt p).frame
  referenced : (get S1.pgt p).referenced = (get S.pgt p).referenced

/-- The ring of the second-chance variant with `k` frames bound: the bound
frames are linked in the order `0, 1, ..., k-1`, and while a frame is free
`listoccupied` is the last frame bound. -/
structure Ring2c (S : ssystem) (k : Int) : Prop where
  up : ∀ f, 0 ≤ f → f < k - 1 → (get S.frt f).next = f + 1
  back : 0 < k → (get S.frt (k - 1)).next = 0
  filling : 0 < k → k < S.numframes → S.listoccupied = k - 1

/-- A state of three bound frames in ring order 0, 1, 2 whose pages 5, 6, 7
have the `referenced` members 1, 1, 0. -/
def markedThree : ssystem :=
  { pagsz := 1, numpags := 8,
    pgt := [⟨0, 0, 0, 0, 0, 0⟩, ⟨0, 0, 0, 0, 0, 0⟩, ⟨0, 0, 0, 0, 0, 0⟩, ⟨0, 0, 0, 0, 0, 0⟩,
      ⟨0, 0, 0, 0, 0, 0⟩, ⟨1, 0, 0, 1, 0, 0⟩, ⟨1, 1, 1, 1, 0, 0⟩, ⟨1, 2, 0, 0, 0, 0⟩],
    lru := -1, clock := 0, numframes := 3,
    frt := [⟨5, 1⟩, ⟨6, 2⟩, ⟨7, 0⟩],
    listfree := -1, listoccupied := 2,
    numrefsread := 2, numrefswrite := 1, numpagefaults := 3,
    numpgwriteback := 0, numillegalrefs := 0, detailed := 0 }

/-- A state of the LRU variant whose clock is the largest `unsigned` value. -/
def lruLast : ssystem :=
  { pagsz := 1, numpags := 3,
    pgt := [⟨1, 0, 1, 0, 0, 2⟩, ⟨1, 1, 1, 0, 0, 1⟩, ⟨0, 0, 0, 0, 0, 0⟩],
    lru := -1, clock := 4294967295, numframes := 2,
    frt := [⟨0, 1⟩, ⟨1, 1⟩],
    listfree := -1, listoccupied := -1,
    numrefsread := 0, numrefswrite := 3, numpagefaults := 2,
    numpgwriteback := 0, numillegalrefs := 0, detailed := 0 }

/-! ## The record of the faults of a run -/

/-- Function `handle_page_fault` with a record of its locals: besides the
state it gives the value of `page`, the page installed, and, when the branch
without free frames is taken, the value of `victim`. -/
def handle_page_fault_log (P : Policy) (S : ssystem) (virtual_address : Nat) :
    Option (ssystem × Int × Option Int) :=
  let S1 := { S with numpagefaults := S.numpagefaults + 1 }
  if toUnsigned S1.pagsz = 0 then none else
  let page := toInt (virtual_address / toUnsigned S1.pagsz)
  if S1.listfree ≠ -1 then
    let last := S1.listfree
    (rd S1.frt last).bind fun el =>
    let frame := el.next
    (if frame = last then some { S1 with listfree := -1 }
     else (rd S1.frt frame).bind fun ef =>
       setFr S1 last fun e => { e with next := ef.next }).bind fun S2 =>
    (P.occupy_free_frame S2 frame page).map fun S3 => (S3, page, none)
  else
    (P.choose_page_to_be_replaced S1).bind fun r =>
    (P.replace_page r.2 r.1 page).map fun S3 => (S3, page, some r.1)

/-- Function `sim_mmu` with the record of the fault it handles, if any: the
result is the physical address, the state left, the pages installed and the
pages evicted by the call (at most one each). -/
def sim_mmu_log (P : Policy) (S : ssystem) (virtual_addr : Nat) (op : Char) :
    Option (Nat × ssystem × List Int × List Int) :=
  if toUnsigned S.pagsz = 0 then none else
  let page := toInt (virtual_addr / toUnsigned S.pagsz)
  let offset := toInt (virtual_addr % toUnsigned S.pagsz)
  if page < 0 ∨ page ≥ S.numpags then
    some (4294967295, { S with numillegalrefs := S.numillegalrefs + 1 }, [], [])
  else
    (rd S.pgt page).bind fun e =>
    (if e.present = 0 then
      (handle_page_fault_log P S virtual_addr).map fun x => (x.1, [x.2.1], x.2.2.toList)
     else some (S, [], [])).bind fun x =>
    (rd x.1.pgt page).bind fun e1 =>
    let frame := e1.frame
    let physical_addr := toUnsigned (frame * x.1.pagsz + offset)
    (P.reference_page x.1 page op).map fun S2 => (physical_addr, S2, x.2.1, x.2.2)

/-- The references of a trace fed to `sim_mmu` one after the other; the result
is the last state, the pages installed by the faults of the run and the pages
evicted by them, both in the order of the faults. -/
def run_log (P : Policy) : ssystem → List (Nat × Char) → Option (ssystem × List Int × List Int)
  | S, [] => some (S, [], [])
  | S, r :: rs => (sim_mmu_log P S r.1 r.2).bind fun x =>
      (run_log P x.2.1 rs).map fun y => (y.1, x.2.2.1 ++ y.2.1, x.2.2.2 ++ y.2.2)

/-- The pages held by the frames of the list `fs`, in the order of the list. -/
def pagesOf (S : ssystem) (fs : List Int) : List Int := fs.map fun f => (get S.frt f).page

/-- The frames `last + 1, ..., k - 1, 0, ..., last`: the occupied ring of `k`
frames linked in ascending order, from the frame behind `last` to `last`. -/
def ringFrames (last k : Int) : List Int :=
  ival (last + 1) (k - 1 - last).toNat ++ ival 0 (last + 1).toNat

/-! # Lemmas

## Machine integers -/

theorem toUnsigned_of_range {i : Int} (h0 : 0 ≤ i) (h1 : i < 4294967296) :
    toUnsigned i = i.toNat := by
  unfold toUnsigned
  rw [Int.emod_eq_of_lt h0 h1]

theorem toInt_of_lt {u : Nat} (h : u < 2147483648) : toInt u = (u : Int) := by
  unfold toInt
  have : u % 4294967296 = u := Nat.mod_eq_of_lt (by omega)
  rw [this, if_pos h]

theorem toInt_neg {u : Nat} (h1 : 2147483648 ≤ u) (h2 : u < 4294967296) : toInt u < 0 := by
  unfold toInt
  have : u % 4294967296 = u := Nat.mod_eq_of_lt h2
  rw [this, if_neg (by omega)]
  omega

theorem toUnsigned_toInt (u : Nat) : toUnsigned (toInt u) = u % 4294967296 := by
  unfold toUnsigned toInt
  split <;> omega

/-- The quotient and the remainder `sim_mmu` computes on `unsigned` values. -/
theorem page_eq_div {pagsz : Int} (va : Nat) (hp : 0 < pagsz) (hi : IsInt pagsz) :
    ((va / toUnsigned pagsz : Nat) : Int) = (va : Int) / pagsz ∧
    ((va % toUnsigned pagsz : Nat) : Int) = (va : Int) % pagsz ∧ toUnsigned pagsz ≠ 0 := by
  have h := toUnsigned_of_range (le_of_lt hp) (by unfold IsInt at hi; omega)
  have hc : ((pagsz.toNat : Nat) : Int) = pagsz := Int.toNat_of_nonneg (le_of_lt hp)
  rw [h]
  refine ⟨?_, ?_, by omega⟩
  · rw [Int.natCast_div, hc]
  · rw [Int.natCast_mod, hc]

/-- The test `page < 0 || page >= S->numpags` of `sim_mmu` fails exactly when
the quotient lies in `[0, numpags)`. -/
theorem page_legal_iff {pagsz numpags : Int} {va : Nat} (hp : 0 < pagsz) (hi : IsInt pagsz)
    (hn : IsInt numpags) (hva : va < 4294967296) :
    (¬ (toInt (va / toUnsigned pagsz) < 0 ∨ toInt (va / toUnsigned pagsz) ≥ numpags)) ↔
      (0 ≤ (va : Int) / pagsz ∧ (va : Int) / pagsz < numpags) := by
  obtain ⟨hq, -, -⟩ := page_eq_div va hp hi
  have hlt : va / toUnsigned pagsz < 4294967296 :=
    lt_of_le_of_lt (Nat.div_le_self _ _) hva
  unfold IsInt at hn
  by_cases hsmall : va / toUnsigned pagsz < 2147483648
  · rw [toInt_of_lt hsmall, hq]
    have : 0 ≤ (va : Int) / pagsz := by rw [← hq]; exact Int.natCast_nonneg _
    omega
  · have hneg := toInt_neg (Nat.le_of_not_lt hsmall) hlt
    have : (2147483648 : Int) ≤ (va : Int) / pagsz := by rw [← hq]; omega
    omega

/-- On a legal address the locals `page` and `offset` of `sim_mmu` are the
quotient and the remainder. -/
theorem page_offset_of_legal {pagsz numpags : Int} {va : Nat} (hp : 0 < pagsz)
    (hi : IsInt pagsz) (hn : IsInt numpags)
    (hl : 0 ≤ (va : Int) / pagsz ∧ (va : Int) / pagsz < numpags) :
    toInt (va / toUnsigned pagsz) = (va : Int) / pagsz ∧
    toInt (va % toUnsigned pagsz) = (va : Int) % pagsz := by
  obtain ⟨hq, hr, hz⟩ := page_eq_div va hp hi
  unfold IsInt at hn hi
  have h1 : va / toUnsigned pagsz < 2147483648 := by omega
  have h2 : (va : Int) % pagsz < pagsz := Int.emod_lt_of_pos _ hp
  have h3 : va % toUnsigned pagsz < 2147483648 := by omega
  rw [toInt_of_lt h1, toInt_of_lt h3]
  exact ⟨hq, hr⟩

/-! ## Table accesses -/

theorem length_upd {α : Type} (t : List α) (i : Int) (v : α) :
    (upd t i v).length = t.length := by
  unfold upd; split <;> simp

theorem rd_eq {α : Type} [Inhabited α] (t : List α) (i : Int) :
    rd t i = if 0 ≤ i ∧ i < (t.length : Int) then some (get t i) else none := by
  unfold get rd
  by_cases h0 : 0 ≤ i
  · by_cases h1 : i < (t.length : Int)
    · have h2 : i.toNat < t.length := by omega
      simp [h0, h1, List.getElem?_eq_getElem h2]
    · have h2 : t.length ≤ i.toNat := by omega
      simp [h0, h1, List.getElem?_eq_none h2]
  · simp [h0]

theorem wr_eq {α : Type} (t : List α) (i : Int) (v : α) :
    wr t i v = if 0 ≤ i ∧ i < (t.length : Int) then some (upd t i v) else none := by
  unfold wr upd
  by_cases h0 : 0 ≤ i
  · by_cases h1 : i < (t.length : Int)
    · have h2 : i.toNat < t.length := by omega
      simp [h0, h1, h2]
    · have h2 : ¬ i.toNat < t.length := by omega
      simp [h0, h1, h2]
  · simp [h0]

theorem get_upd {α : Type} [Inhabited α] (t : List α) (i j : Int) (v : α) :
    get (upd t i v) j = if j = i ∧ 0 ≤ i ∧ i < (t.length : Int) then v else get t j := by
  unfold get rd upd
  by_cases h0 : 0 ≤ i
  · by_cases hj : j = i
    · subst hj
      by_cases h1 : j < (t.length : Int)
      · have h2 : j.toNat < t.length := by omega
        simp [h0, h1, h2, List.getElem?_set]
      · have h2 : t.length ≤ j.toNat := by omega
        have h3 : (t.set j.toNat v).length ≤ j.toNat := by simpa using h2
        simp [h0, h1, List.getElem?_eq_none h2, List.getElem?_eq_none h3]
    · by_cases hj0 : 0 ≤ j
      · have h2 : i.toNat ≠ j.toNat := by omega
        simp [h0, hj, hj0, List.getElem?_set, h2]
      · simp [h0, hj, hj0]
  · simp [h0]

theorem get_upd_same {α : Type} [Inhabited α] (t : List α) (i : Int) (v : α)
    (h0 : 0 ≤ i) (h1 : i < (t.length : Int)) : get (upd t i v) i = v := by
  rw [get_upd]; simp [h0, h1]

theorem get_upd_ne {α : Type} [Inhabited α] (t : List α) (i j : Int) (v : α)
    (h : j ≠ i) : get (upd t i v) j = get t j := by
  rw [get_upd]; simp [h]

theorem rd_some {α : Type} [Inhabited α] {t : List α} {i : Int} {e : α}
    (h : rd t i = some e) : 0 ≤ i ∧ i < (t.length : Int) ∧ get t i = e := by
  rw [rd_eq] at h
  split at h
  · rename_i hc
    exact ⟨hc.1, hc.2, by simpa using h⟩
  · simp at h

theorem rd_of_range {α : Type} [Inhabited α] (t : List α) {i : Int}
    (h0 : 0 ≤ i) (h1 : i < (t.length : Int)) : rd t i = some (get t i) := by
  rw [rd_eq, if_pos ⟨h0, h1⟩]

theorem setPg_eq (S : ssystem) (p : Int) (f : spage → spage) :
    setPg S p f = if 0 ≤ p ∧ p < (S.pgt.length : Int)
      then some { S with pgt := upd S.pgt p (f (get S.pgt p)) } else none := by
  unfold setPg
  rw [rd_eq]
  split
  · rename_i hc
    simp [wr_eq, hc]
  · simp

theorem setFr_eq (S : ssystem) (i : Int) (f : sframe → sframe) :
    setFr S i f = if 0 ≤ i ∧ i < (S.frt.length : Int)
      then some { S with frt := upd S.frt i (f (get S.frt i)) } else none := by
  unfold setFr
  rw [rd_eq]
  split
  · rename_i hc
    simp [wr_eq, hc]
  · simp

theorem setPg_of_range (S : ssystem) {p : Int} (f : spage → spage)
    (h0 : 0 ≤ p) (h1 : p < (S.pgt.length : Int)) :
    setPg S p f = some { S with pgt := upd S.pgt p (f (get S.pgt p)) } := by
  rw [setPg_eq, if_pos ⟨h0, h1⟩]

theorem setFr_of_range (S : ssystem) {i : Int} (f : sframe → sframe)
    (h0 : 0 ≤ i) (h1 : i < (S.frt.length : Int)) :
    setFr S i f = some { S with frt := upd S.frt i (f (get S.frt i)) } := by
  rw [setFr_eq, if_pos ⟨h0, h1⟩]

/-! ## `init_tables` -/

theorem init_frames_spec (frt : List sframe) (c : Nat) (hc : c ≤ frt.length) :
    ∃ t, init_frames frt c = some t ∧ t.length = frt.length ∧
      ∀ j : Int, get t j =
        if 0 ≤ j ∧ j < (c : Int) then { page := -1, next := j + 1 } else get frt j := by
  induction c with
  | zero =>
    refine ⟨frt, rfl, rfl, fun j => ?_⟩
    have : ¬ (0 ≤ j ∧ j < ((0 : Nat) : Int)) := by omega
    rw [if_neg this]
  | succ c ih =>
    obtain ⟨t, ht, hlen, hget⟩ := ih (by omega)
    have h1 : (c : Int) < (t.length : Int) := by omega
    refine ⟨upd t c { page := -1, next := (c : Int) + 1 }, ?_, ?_, fun j => ?_⟩
    · simp only [init_frames, ht, Option.some_bind, wr_eq]
      rw [if_pos ⟨by omega, h1⟩]
    · rw [length_upd, hlen]
    · rw [get_upd, hget]
      by_cases hj : j = (c : Int)
      · subst hj
        have h2 : (0 : Int) ≤ (c : Int) ∧ (c : Int) < ((c + 1 : Nat) : Int) := by omega
        rw [if_pos ⟨rfl, by omega, h1⟩, if_pos h2]
      · have h2 : ¬ (j = (c : Int) ∧ 0 ≤ (c : Int) ∧ (c : Int) < (t.length : Int)) := by
          intro h; exact hj h.1
        rw [if_neg h2]
        by_cases h3 : 0 ≤ j ∧ j < (c : Int)
        · rw [if_pos h3, if_pos (by omega)]
        · rw [if_neg h3, if_neg (by omega)]

/-- On a page table of `numpags` entries `memset` leaves `numpags` zeroed
entries. -/
theorem memset_sized (pgt : List spage) (numpags : Int)
    (h : (pgt.length : Int) = numpags) :
    memset pgt numpags = some (List.replicate numpags.toNat zeroPage) := by
  unfold memset
  rw [if_pos ⟨by omega, by omega⟩, List.drop_eq_nil_of_le (by omega), List.append_nil]

/-- On a page table of fewer than `numpags` entries `memset` writes behind the
table: `init_tables` fails. -/
theorem init_tables_short (S : ssystem) (h : (S.pgt.length : Int) < S.numpags) :
    init_tables S = none := by
  unfold init_tables memset
  rw [if_neg (by omega)]
  rfl

/-- What `init_tables` leaves, on tables of the configured sizes. -/
theorem init_tables_spec {S0 S : ssystem} (hc : Cfg S0) (h : init_tables S0 = some S) :
    S.pagsz = S0.pagsz ∧ S.numpags = S0.numpags ∧ S.numframes = S0.numframes ∧
    S.pgt = List.replicate S0.numpags.toNat zeroPage ∧
    S.frt.length = S0.frt.length ∧
    (∀ j : Int, 0 ≤ j → j < S0.numframes →
      get S.frt j = { page := -1, next := if j = S0.numframes - 1 then 0 else j + 1 }) ∧
    S.listfree = S0.numframes - 1 ∧ S.listoccupied = -1 ∧ S.clock = 0 ∧
    S.numpagefaults = S0.numpagefaults ∧ S.numillegalrefs = S0.numillegalrefs := by
  have hn := hc.numframes_pos
  have hl := hc.frt_len
  obtain ⟨t, ht, hlen, hget⟩ := init_frames_spec S0.frt (S0.numframes - 1).toNat (by omega)
  have hi : (((S0.numframes - 1).toNat : Nat) : Int) = S0.numframes - 1 := by omega
  unfold init_tables at h
  simp only [memset_sized _ _ hc.pgt_len, ht, Option.some_bind, wr_eq, hi] at h
  rw [if_pos ⟨by omega, by omega⟩] at h
  simp only [Option.map_some', Option.some.injEq] at h
  subst h
  refine ⟨rfl, rfl, rfl, rfl, ?_, fun j hj0 hj1 => ?_, rfl, rfl, rfl, rfl, rfl⟩
  · simp only [length_upd, hlen]
  · simp only [get_upd, hget, hi]
    by_cases hj : j = S0.numframes - 1
    · rw [if_pos ⟨hj, by omega, by omega⟩, if_pos hj]
    · rw [if_neg (fun h => hj h.1), if_pos ⟨hj0, by omega⟩, if_neg hj]

theorem init_tables_total {S0 : ssystem} (hc : Cfg S0) : ∃ S, init_tables S0 = some S := by
  have hn := hc.numframes_pos
  have hl := hc.frt_len
  obtain ⟨t, ht, hlen, -⟩ := init_frames_spec S0.frt (S0.numframes - 1).toNat (by omega)
  have hi : (((S0.numframes - 1).toNat : Nat) : Int) = S0.numframes - 1 := by omega
  unfold init_tables
  simp only [memset_sized _ _ hc.pgt_len, ht, Option.some_bind, wr_eq, hi]
  rw [if_pos ⟨by omega, by omega⟩]
  exact ⟨_, rfl⟩

theorem get_replicate_zero (n : Nat) (j : Int) : get (List.replicate n zeroPage) j = zeroPage := by
  unfold get rd
  by_cases h0 : 0 ≤ j
  · rw [if_pos h0]
    by_cases h1 : j.toNat < n
    · simp [List.getElem?_replicate, h1]
    · simp [List.getElem?_replicate, h1]; rfl
  · rw [if_neg h0]; rfl

theorem init_inv {S0 S : ssystem} (ring : Bool) (hc : Cfg S0) (h : init_tables S0 = some S) :
    Inv ring S 0 := by
  obtain ⟨h1, h2, h3, h4, h5, h6, h7, h8, -, -, -⟩ := init_tables_spec hc h
  have hcfg : Cfg S :=
    { pagsz_pos := by rw [h1]; exact hc.pagsz_pos
      pagsz_int := by rw [h1]; exact hc.pagsz_int
      numpags_pos := by rw [h2]; exact hc.numpags_pos
      numpags_int := by rw [h2]; exact hc.numpags_int
      numframes_pos := by rw [h3]; exact hc.numframes_pos
      numframes_int := by rw [h3]; exact hc.numframes_int
      pgt_len := by
        rw [h4, h2, List.length_replicate]
        have := hc.numpags_pos
        omega
      frt_len := by rw [h5, h3]; exact hc.frt_len }
  refine ⟨hcfg, ?_, ?_, ?_⟩
  · refine ⟨le_refl _, le_of_lt hcfg.numframes_pos, fun f h0 h1 => by omega, ?_, ?_, ?_⟩
    · intro f hf0 hf1
      rw [h6 f hf0 (by omega)]
    · intro p _ _ hp
      rw [h4, get_replicate_zero] at hp
      exact absurd rfl hp
    · intro p _ _
      rw [h4, get_replicate_zero]; rfl
  · refine ⟨fun hk => ⟨by omega, ?_, ?_⟩, fun hk => ?_⟩
    · rw [h6 _ (by omega) (by omega)]
      simp [h3]
    · intro i hi0 hi1
      rw [h6 i hi0 (by omega)]
      have : i ≠ S0.numframes - 1 := by omega
      simp [this]
    · have := hcfg.numframes_pos
      omega
  · unfold Occ
    cases ring
    · simpa using h8
    · simp only [if_true]
      exact ⟨fun _ => h8, fun hk => by omega, fun f h0 h1 => by omega⟩


/-! ## The fault handler and the MMU keep the invariant -/

/-- The invariant reads the configuration, the tables and the two list heads only. -/
theorem Inv.congr {ring : Bool} {S S1 : ssystem} {k : Int} (h : Inv ring S k)
    (h1 : S1.pagsz = S.pagsz) (h2 : S1.numpags = S.numpags) (h3 : S1.numframes = S.numframes)
    (h4 : S1.pgt = S.pgt) (h5 : S1.frt = S.frt) (h6 : S1.listfree = S.listfree)
    (h7 : S1.listoccupied = S.listoccupied) : Inv ring S1 k := by
  obtain ⟨⟨c1, c2, c3, c4, c5, c6, c7, c8⟩, ⟨m1, m2, m3, m4, m5, m6⟩, ⟨f1, f2⟩, ho⟩ := h
  unfold Occ at ho
  refine ⟨⟨?_, ?_, ?_, ?_, ?_, ?_, ?_, ?_⟩, ⟨?_, ?_, ?_, ?_, ?_, ?_⟩, ⟨?_, ?_⟩, ?_⟩
  all_goals first
    | assumption
    | (unfold Occ; rw [h5, h7]; exact ho)
    | (simp only [h1, h2, h3, h4, h5, h6, h7]; assumption)

theorem pop_free_frame {ring : Bool} {S : ssystem} {k : Int} (h : Inv ring S k)
    (hk : k < S.numframes) :
    ∃ el S2, S.listfree ≠ -1 ∧ rd S.frt S.listfree = some el ∧ el.next = k ∧
      (if el.next = S.listfree then some { S with listfree := -1 }
       else (rd S.frt el.next).bind fun ef =>
         setFr S S.listfree fun e => { e with next := ef.next }) = some S2 ∧
      Mid ring S2 k ∧ S2.pagsz = S.pagsz ∧ S2.numpags = S.numpags ∧
      S2.numframes = S.numframes ∧ S2.pgt = S.pgt ∧ S2.numpagefaults = S.numpagefaults := by
  obtain ⟨hcfg, hm, hf, ho⟩ := h
  obtain ⟨hlf, hnx, hch⟩ := hf.some_free hk
  have hlen := hcfg.frt_len
  have hk0 := hm.k_nonneg
  have hrd : rd S.frt (S.numframes - 1) = some (get S.frt (S.numframes - 1)) :=
    rd_of_range _ (by omega) (by omega)
  have hn0 := hcfg.numframes_pos
  refine ⟨get S.frt (S.numframes - 1), ?_⟩
  rw [hnx, hlf]
  by_cases hlast : k = S.numframes - 1
  · rw [if_pos hlast]
    refine ⟨{ S with listfree := -1 }, by omega, hrd, rfl, rfl, ?_,
      rfl, rfl, rfl, rfl, rfl⟩
    refine ⟨⟨hcfg.1, hcfg.2, hcfg.3, hcfg.4, hcfg.5, hcfg.6, hcfg.7, hcfg.8⟩,
      ⟨hm.1, hm.2, hm.3, hm.4, hm.5, hm.6⟩, hk, ⟨fun h1 => ?_, fun _ => rfl⟩, ?_⟩
    · exfalso
      have : k + 1 < S.numframes := h1
      omega
    · unfold Occ at ho ⊢
      exact ho
  · rw [if_neg hlast]
    have hrk : rd S.frt k = some (get S.frt k) := rd_of_range _ hk0 (by omega)
    have hkn : (get S.frt k).next = k + 1 := hch k (le_refl _) (by omega)
    rw [hrk, Option.some_bind, hkn, setFr_of_range S _ (by omega) (by omega)]
    refine ⟨_, by omega, hrd, rfl, rfl, ?_, rfl, rfl, rfl, rfl, rfl⟩
    have hne : ∀ j, j ≠ S.numframes - 1 →
        get (upd S.frt (S.numframes - 1)
          { page := (get S.frt (S.numframes - 1)).page, next := k + 1 }) j = get S.frt j :=
      fun j hj => get_upd_ne _ _ _ _ hj
    have hsame : get (upd S.frt (S.numframes - 1)
          { page := (get S.frt (S.numframes - 1)).page, next := k + 1 }) (S.numframes - 1) =
          { page := (get S.frt (S.numframes - 1)).page, next := k + 1 } :=
      get_upd_same _ _ _ (by omega) (by omega)
    refine ⟨⟨hcfg.1, hcfg.2, hcfg.3, hcfg.4, hcfg.5, hcfg.6, hcfg.7, ?_⟩,
      ⟨hm.1, hm.2, ?_, ?_, ?_, hm.6⟩, hk, ⟨fun h1 => ⟨hlf, ?_, ?_⟩, fun h1 => ?_⟩, ?_⟩
    · show ((upd S.frt _ _).length : Int) = S.numframes
      rw [length_upd]; exact hlen
    · intro f hf0 hf1
      show _ ∧ _ ∧ (get S.pgt (get (upd S.frt _ _) f).page).present = 1 ∧
        (get S.pgt (get (upd S.frt _ _) f).page).frame = f
      rw [hne f (by omega)]
      exact hm.bound f hf0 hf1
    · intro f hf0 hf1
      have hf2 : f < S.numframes := hf1
      show (get (upd S.frt _ _) f).page = -1
      by_cases hf : f = S.numframes - 1
      · rw [hf, hsame]
        exact hm.unbound _ (by omega) (by omega)
      · rw [hne f hf]
        exact hm.unbound f hf0 hf2
    · intro p hp0 hp1 hp
      have := hm.pres p hp0 hp1 hp
      have hk2 : k < S.numframes := hk
      show _ ∧ _ ∧ _ ∧ (get (upd S.frt _ _) (get S.pgt p).frame).page = p
      rw [hne _ (by omega)]
      exact this
    · show (get (upd S.frt _ _) (S.numframes - 1)).next = k + 1
      rw [hsame]
    · intro i hi0 hi1
      have hi2 : i < S.numframes - 1 := hi1
      show (get (upd S.frt _ _) i).next = i + 1
      rw [hne i (by omega)]
      exact hch i (by omega) hi2
    · exfalso
      have : S.numframes ≤ k + 1 := h1
      omega
    · unfold Occ at ho ⊢
      cases ring
      · exact ho
      · simp only [if_true] at ho ⊢
        refine ⟨ho.1, ho.2.1, fun f hf0 hf1 => ?_⟩
        show 0 ≤ (get (upd S.frt _ _) f).next ∧ (get (upd S.frt _ _) f).next < k
        rw [hne f (by omega)]
        exact ho.2.2 f hf0 hf1

/-- The fault handler on a legal page that is not present: it returns, counts
one fault and leaves the page present and clean. -/
theorem handle_page_fault_spec {ring : Bool} {P : Policy} (hs : Sound ring P)
    {S : ssystem} {k : Int} (h : Inv ring S k) {va : Nat}
    (hl : 0 ≤ (va : Int) / S.pagsz ∧ (va : Int) / S.pagsz < S.numpags)
    (hnp : (get S.pgt ((va : Int) / S.pagsz)).present = 0) :
    ∃ S1 k1, handle_page_fault P S va = some S1 ∧ Inv ring S1 k1 ∧
      S1.numpagefaults = S.numpagefaults + 1 ∧ S1.pagsz = S.pagsz ∧
      S1.numpags = S.numpags ∧ S1.numframes = S.numframes ∧
      (get S1.pgt ((va : Int) / S.pagsz)).present = 1 ∧
      (get S1.pgt ((va : Int) / S.pagsz)).modified = 0 := by
  have hcfg := h.cfg
  have hz := (page_eq_div va hcfg.pagsz_pos hcfg.pagsz_int).2.2
  have hpage := (page_offset_of_legal hcfg.pagsz_pos hcfg.pagsz_int hcfg.numpags_int hl).1
  have h1 : Inv ring { S with numpagefaults := S.numpagefaults + 1 } k :=
    h.congr rfl rfl rfl rfl rfl rfl rfl
  unfold handle_page_fault
  simp only [if_neg hz, hpage]
  by_cases hk : k < S.numframes
  · obtain ⟨el, S2, hlf, hrd, hnx, hS2, hmid, c1, c2, c3, c4, c5⟩ := pop_free_frame h1 hk
    simp only at hlf hrd hS2
    rw [if_pos hlf, hrd, Option.some_bind, hS2, Option.some_bind, hnx]
    obtain ⟨S3, hocc, hinv, d0, d1, d2, d3, d4, d5, -⟩ :=
      hs.occupy S2 k _ hmid hl.1 (by rw [c2]; exact hl.2) (by rw [c4]; exact hnp)
    exact ⟨S3, k + 1, hocc, hinv, by rw [d0, c5], by rw [d1, c1], by rw [d2, c2],
      by rw [d3, c3], d4, d5⟩
  · have hkn : k = S.numframes := le_antisymm h.mapped.k_le (not_lt.1 hk)
    have hlf : S.listfree = -1 := h.free.none_free (by omega)
    have hnn : ¬ (S.listfree ≠ -1) := fun hc => hc hlf
    rw [if_neg hnn]
    subst hkn
    obtain ⟨v, S2, S3, hch, hrp, hinv, d0, d1, d2, d3, d4, d5⟩ :=
      hs.evict _ _ h1 hl.1 hl.2 hnp
    rw [hch, Option.some_bind, hrp]
    exact ⟨S3, S.numframes, rfl, hinv, d0, d1, d2, d3, d4, d5⟩

/-- The MMU on a legal address: it returns, leaves the page present, and the
address is the one of the frame of the page, as an `unsigned` value. -/
theorem sim_mmu_spec {ring : Bool} {P : Policy} (hs : Sound ring P)
    {S : ssystem} {k : Int} (h : Inv ring S k) {va : Nat} (op : Char)
    (hl : 0 ≤ (va : Int) / S.pagsz ∧ (va : Int) / S.pagsz < S.numpags) :
    ∃ a S1 k1, sim_mmu P S va op = some (a, S1) ∧ Inv ring S1 k1 ∧
      S1.pagsz = S.pagsz ∧ S1.numpags = S.numpags ∧ S1.numframes = S.numframes ∧
      (get S1.pgt ((va : Int) / S.pagsz)).present = 1 ∧
      a = toUnsigned ((get S1.pgt ((va : Int) / S.pagsz)).frame * S.pagsz + (va : Int) % S.pagsz) := by
  have hcfg := h.cfg
  have hz := (page_eq_div va hcfg.pagsz_pos hcfg.pagsz_int).2.2
  obtain ⟨hpage, hoff⟩ :=
    page_offset_of_legal hcfg.pagsz_pos hcfg.pagsz_int hcfg.numpags_int hl
  have hleg : ¬ ((va : Int) / S.pagsz < 0 ∨ (va : Int) / S.pagsz ≥ S.numpags) := by omega
  have hrd : rd S.pgt ((va : Int) / S.pagsz) = some (get S.pgt ((va : Int) / S.pagsz)) :=
    rd_of_range _ hl.1 (by rw [hcfg.pgt_len]; exact hl.2)
  -- the state after the fault handling, if any
  have hmid : ∃ S1 k1,
      (if (get S.pgt ((va : Int) / S.pagsz)).present = 0 then handle_page_fault P S va
        else some S) = some S1 ∧ Inv ring S1 k1 ∧ S1.pagsz = S.pagsz ∧
      S1.numpags = S.numpags ∧ S1.numframes = S.numframes ∧
      (get S1.pgt ((va : Int) / S.pagsz)).present = 1 := by
    by_cases hp : (get S.pgt ((va : Int) / S.pagsz)).present = 0
    · rw [if_pos hp]
      obtain ⟨S1, k1, e1, e2, -, e4, e5, e6, e7, -⟩ := handle_page_fault_spec hs h hl hp
      exact ⟨S1, k1, e1, e2, e4, e5, e6, e7⟩
    · rw [if_neg hp]
      exact ⟨S, k, rfl, h, rfl, rfl, rfl, (h.mapped.pres _ hl.1 hl.2 hp).1⟩
  obtain ⟨S1, k1, e1, e2, e3, e4, e5, e6⟩ := hmid
  obtain ⟨S2, r1, r2, r3, r4, r5, r6, r7⟩ :=
    hs.reference S1 k1 ((va : Int) / S.pagsz) op e2 hl.1 (by rw [e4]; exact hl.2)
  have hrd1 : rd S1.pgt ((va : Int) / S.pagsz) = some (get S1.pgt ((va : Int) / S.pagsz)) :=
    rd_of_range _ hl.1 (by rw [e2.cfg.pgt_len, e4]; exact hl.2)
  unfold sim_mmu
  simp only [if_neg hz, hpage, hoff, if_neg hleg, hrd, Option.some_bind, e1, hrd1, r1,
    Option.map_some']
  exact ⟨_, S2, k1, rfl, r2, by rw [r3, e3], by rw [r4, e4], by rw [r5, e5],
    by rw [r6]; exact e6, by rw [r7, e3]⟩

/-- Every reachable state of a sound variant satisfies the invariant. -/
theorem reachable_inv {ring : Bool} {P : Policy} (hs : Sound ring P) {S : ssystem}
    (hr : Reachable P S) : ∃ k, Inv ring S k := by
  induction hr with
  | init hc hi => exact ⟨0, init_inv ring hc hi⟩
  | @step S S1 va op a _ hva hstep ih =>
    obtain ⟨k, hk⟩ := ih
    have hcfg := hk.cfg
    by_cases hl : 0 ≤ (va : Int) / S.pagsz ∧ (va : Int) / S.pagsz < S.numpags
    · obtain ⟨a1, S2, k1, e1, e2, -⟩ := sim_mmu_spec hs hk op hl
      rw [hstep] at e1
      simp only [Option.some.injEq, Prod.mk.injEq] at e1
      rw [e1.2]
      exact ⟨k1, e2⟩
    · have hill : toInt (va / toUnsigned S.pagsz) < 0 ∨
          toInt (va / toUnsigned S.pagsz) ≥ S.numpags := by
        by_contra hc
        exact hl ((page_legal_iff hcfg.pagsz_pos hcfg.pagsz_int hcfg.numpags_int hva).1 hc)
      have hz := (page_eq_div va hcfg.pagsz_pos hcfg.pagsz_int).2.2
      unfold sim_mmu at hstep
      rw [if_neg hz] at hstep
      simp only [hill, if_true, Option.some.injEq, Prod.mk.injEq] at hstep
      rw [← hstep.2]
      exact ⟨k, hk.congr rfl rfl rfl rfl rfl rfl rfl⟩


/-! ## LRU: the scan of `choose_page_to_be_replaced` -/

/-- After `c` rounds the locals of the scan hold the first frame of least
timestamp among the frames `0 .. c`. -/
theorem Lru.choose_scan_spec (S : ssystem)
    (hb : ∀ g, 0 ≤ g → g < S.numframes →
      ∃ e ep, rd S.frt g = some e ∧ rd S.pgt e.page = some ep ∧ ep.timestamp < 4294967296)
    (c : Nat) (hc : (c : Int) < S.numframes) :
    ∃ f : Int, 0 ≤ f ∧ f ≤ (c : Int) ∧
      Lru.choose_scan S ((get S.frt 0).page, 0, toInt (tsOf S 0)) c =
        some ((get S.frt f).page, f, toInt (tsOf S f)) ∧
      (∀ g, 0 ≤ g → g ≤ (c : Int) → tsOf S f ≤ tsOf S g) ∧
      (∀ g, 0 ≤ g → g < f → tsOf S f < tsOf S g) := by
  have hts : ∀ g, 0 ≤ g → g < S.numframes →
      rd S.frt g = some (get S.frt g) ∧
      rd S.pgt (get S.frt g).page = some (get S.pgt (get S.frt g).page) ∧
      tsOf S g < 4294967296 := by
    intro g h0 h1
    obtain ⟨e, ep, h2, h3, h4⟩ := hb g h0 h1
    obtain ⟨-, -, h5⟩ := rd_some h2
    subst h5
    obtain ⟨-, -, h6⟩ := rd_some h3
    subst h6
    exact ⟨h2, h3, h4⟩
  induction c with
  | zero =>
    refine ⟨0, le_refl _, by simp, rfl, fun g h0 h1 => ?_, fun g h0 h1 => by omega⟩
    have : g = 0 := by omega
    rw [this]
  | succ c ih =>
    obtain ⟨f, hf0, hf1, hscan, hmin, hfirst⟩ := ih (by omega)
    have hi0 : (0 : Int) ≤ (c : Int) + 1 := by omega
    have hi1 : (c : Int) + 1 < S.numframes := by omega
    obtain ⟨r1, r2, r3⟩ := hts ((c : Int) + 1) hi0 hi1
    have hconv : toUnsigned (toInt (tsOf S f)) = tsOf S f := by
      rw [toUnsigned_toInt]
      exact Nat.mod_eq_of_lt (hts f hf0 (by omega)).2.2
    simp only [Lru.choose_scan, hscan, Option.some_bind, r1, r2, hconv]
    by_cases hlt : tsOf S f > tsOf S ((c : Int) + 1)
    · have hlt2 : tsOf S f > (get S.pgt (get S.frt ((c : Int) + 1)).page).timestamp := hlt
      rw [if_pos hlt2]
      refine ⟨(c : Int) + 1, hi0, by omega, rfl, fun g h0 h1 => ?_, fun g h0 h1 => ?_⟩
      · by_cases hg : g = (c : Int) + 1
        · rw [hg]
        · have := hmin g h0 (by omega)
          omega
      · have := hmin g h0 (by omega)
        omega
    · have hlt2 : ¬ tsOf S f > (get S.pgt (get S.frt ((c : Int) + 1)).page).timestamp := hlt
      rw [if_neg hlt2]
      refine ⟨f, hf0, by omega, rfl, fun g h0 h1 => ?_, hfirst⟩
      by_cases hg : g = (c : Int) + 1
      · rw [hg]; omega
      · exact hmin g h0 (by omega)

/-- The frame `choose_page_to_be_replaced` of the LRU variant settles on. -/
theorem Lru.choose_frame_spec (S : ssystem) (hn : 0 < S.numframes)
    (hb : ∀ g, 0 ≤ g → g < S.numframes →
      ∃ e ep, rd S.frt g = some e ∧ rd S.pgt e.page = some ep ∧ ep.timestamp < 4294967296) :
    ∃ f : Int, 0 ≤ f ∧ f < S.numframes ∧
      Lru.choose_frame S = some ((get S.frt f).page, f, toInt (tsOf S f)) ∧
      (∀ g, 0 ≤ g → g < S.numframes → tsOf S f ≤ tsOf S g) ∧
      (∀ g, 0 ≤ g → g < f → tsOf S f < tsOf S g) := by
  obtain ⟨e, ep, h2, h3, -⟩ := hb 0 (le_refl _) hn
  obtain ⟨-, -, h5⟩ := rd_some h2
  subst h5
  obtain ⟨-, -, h6⟩ := rd_some h3
  subst h6
  have hc : (((S.numframes - 1).toNat : Nat) : Int) = S.numframes - 1 := by omega
  obtain ⟨f, hf0, hf1, hscan, hmin, hfirst⟩ :=
    Lru.choose_scan_spec S hb (S.numframes - 1).toNat (by omega)
  refine ⟨f, hf0, by omega, ?_, fun g h0 h1 => hmin g h0 (by omega), hfirst⟩
  unfold Lru.choose_frame
  simp only [h2, h3, Option.some_bind]
  exact hscan


/-! ## Installing a page -/

/-- The invariant reads the members `present`, `frame` and `referenced` of the
page entries only. -/
theorem Inv.congr_pages {ring : Bool} {S S1 : ssystem} {k : Int} (h : Inv ring S k)
    (h1 : S1.pagsz = S.pagsz) (h2 : S1.numpags = S.numpags) (h3 : S1.numframes = S.numframes)
    (h4 : S1.pgt.length = S.pgt.length)
    (h4a : ∀ j, (get S1.pgt j).present = (get S.pgt j).present ∧
      (get S1.pgt j).frame = (get S.pgt j).frame ∧
      (get S1.pgt j).referenced = (get S.pgt j).referenced)
    (h5 : S1.frt = S.frt) (h6 : S1.listfree = S.listfree)
    (h7 : S1.listoccupied = S.listoccupied) : Inv ring S1 k := by
  obtain ⟨⟨c1, c2, c3, c4, c5, c6, c7, c8⟩, ⟨m1, m2, m3, m4, m5, m6⟩, ⟨f1, f2⟩, ho⟩ := h
  unfold Occ at ho
  refine ⟨⟨?_, ?_, ?_, ?_, ?_, ?_, ?_, ?_⟩, ⟨?_, ?_, ?_, ?_, ?_, ?_⟩, ⟨?_, ?_⟩, ?_⟩
  · rw [h1]; exact c1
  · rw [h1]; exact c2
  · rw [h2]; exact c3
  · rw [h2]; exact c4
  · rw [h3]; exact c5
  · rw [h3]; exact c6
  · rw [h4, h2]; exact c7
  · rw [h5, h3]; exact c8
  · exact m1
  · rw [h3]; exact m2
  · intro f hf0 hf1
    rw [h5, h2, (h4a _).1, (h4a _).2.1]
    exact m3 f hf0 hf1
  · rw [h5, h3]; exact m4
  · intro p hp0 hp1 hp
    rw [h2] at hp1
    rw [(h4a p).1] at hp
    rw [h5, (h4a p).1, (h4a p).2.1]
    exact m5 p hp0 hp1 hp
  · intro p hp0 hp1
    rw [h2] at hp1
    rw [(h4a p).2.2]
    exact m6 p hp0 hp1
  · rw [h3, h5, h6]; exact f1
  · rw [h3, h6]; exact f2
  · unfold Occ; rw [h5, h7]; exact ho

/-- Frame `k`, just taken from the free ring, receives the page `page`. -/
theorem install_free {ring : Bool} {S S1 : ssystem} {k page : Int} (h : Mid ring S k)
    (hp0 : 0 ≤ page) (hp1 : page < S.numpags) (hnp : (get S.pgt page).present = 0)
    (h1 : S1.pagsz = S.pagsz) (h2 : S1.numpags = S.numpags) (h3 : S1.numframes = S.numframes)
    (hpl : S1.pgt.length = S.pgt.length)
    (hpg : (get S1.pgt page).present = 1 ∧ (get S1.pgt page).frame = k ∧
      (get S1.pgt page).referenced = 0)
    (hpo : ∀ j, j ≠ page → get S1.pgt j = get S.pgt j)
    (hfl : S1.frt.length = S.frt.length)
    (hfp : ∀ j, (get S1.frt j).page = if j = k then page else (get S.frt j).page)
    (hfn : ∀ j, k < j → (get S1.frt j).next = (get S.frt j).next)
    (hlf : S1.listfree = S.listfree) (hocc : Occ ring S1 (k + 1)) :
    Inv ring S1 (k + 1) := by
  obtain ⟨⟨c1, c2, c3, c4, c5, c6, c7, c8⟩, ⟨m1, m2, m3, m4, m5, m6⟩, hk, ⟨f1, f2⟩, -⟩ := h
  refine ⟨⟨?_, ?_, ?_, ?_, ?_, ?_, ?_, ?_⟩, ⟨?_, ?_, ?_, ?_, ?_, ?_⟩, ⟨?_, ?_⟩, hocc⟩
  · rw [h1]; exact c1
  · rw [h1]; exact c2
  · rw [h2]; exact c3
  · rw [h2]; exact c4
  · rw [h3]; exact c5
  · rw [h3]; exact c6
  · rw [hpl, h2]; exact c7
  · rw [hfl, h3]; exact c8
  · omega
  · omega
  · intro f hf0 hf1
    rw [hfp f, h2]
    by_cases hf : f = k
    · rw [if_pos hf, hf]
      exact ⟨hp0, hp1, hpg.1, hpg.2.1⟩
    · rw [if_neg hf]
      obtain ⟨b1, b2, b3, b4⟩ := m3 f hf0 (by omega)
      have hne : (get S.frt f).page ≠ page := by
        intro he
        rw [he, hnp] at b3
        exact absurd b3 (by decide)
      rw [hpo _ hne]
      exact ⟨b1, b2, b3, b4⟩
  · intro f hf0 hf1
    rw [h3] at hf1
    rw [hfp f, if_neg (by omega)]
    exact m4 f (by omega) hf1
  · intro p hq0 hq1 hq
    rw [h2] at hq1
    by_cases hpp : p = page
    · rw [hpp, hpg.1, hpg.2.1, hfp k, if_pos rfl]
      exact ⟨rfl, m1, by omega, rfl⟩
    · rw [hpo p hpp] at hq ⊢
      obtain ⟨b1, b2, b3, b4⟩ := m5 p hq0 hq1 hq
      rw [hfp _, if_neg (by omega)]
      exact ⟨b1, b2, by omega, b4⟩
  · intro p hq0 hq1
    rw [h2] at hq1
    by_cases hpp : p = page
    · rw [hpp]; exact hpg.2.2
    · rw [hpo p hpp]; exact m6 p hq0 hq1
  · intro hk1
    rw [h3] at hk1 ⊢
    obtain ⟨g1, g2, g3⟩ := f1 hk1
    refine ⟨by rw [hlf]; exact g1, by rw [hfn _ (by omega)]; exact g2, fun i hi0 hi1 => ?_⟩
    rw [hfn i (by omega)]
    exact g3 i hi0 hi1
  · intro hk1
    rw [h3] at hk1
    rw [hlf]
    exact f2 hk1

/-- With every frame bound, the page `v` of frame `f` gives its frame to the
page `page`. -/
theorem install_evict {ring : Bool} {S S1 : ssystem} {f page : Int}
    (h : Inv ring S S.numframes) (hf0 : 0 ≤ f) (hf1 : f < S.numframes)
    (hp0 : 0 ≤ page) (hp1 : page < S.numpags) (hnp : (get S.pgt page).present = 0)
    (h1 : S1.pagsz = S.pagsz) (h2 : S1.numpags = S.numpags) (h3 : S1.numframes = S.numframes)
    (hpl : S1.pgt.length = S.pgt.length)
    (hpg : (get S1.pgt page).present = 1 ∧ (get S1.pgt page).frame = f ∧
      (get S1.pgt page).referenced = 0)
    (hpv : (get S1.pgt (get S.frt f).page).present = 0)
    (hpo : ∀ j, j ≠ page → (get S1.pgt j).frame = (get S.pgt j).frame ∧
      (get S1.pgt j).referenced = (get S.pgt j).referenced ∧
      (j ≠ (get S.frt f).page → (get S1.pgt j).present = (get S.pgt j).present))
    (hfl : S1.frt.length = S.frt.length)
    (hfp : ∀ j, (get S1.frt j).page = if j = f then page else (get S.frt j).page)
    (hlf : S1.listfree = S.listfree) (hocc : Occ ring S1 S.numframes) :
    Inv ring S1 S1.numframes := by
  obtain ⟨⟨c1, c2, c3, c4, c5, c6, c7, c8⟩, ⟨m1, m2, m3, m4, m5, m6⟩, ⟨f1, f2⟩, -⟩ := h
  rw [h3]
  have hvf := m3 f hf0 hf1
  refine ⟨⟨?_, ?_, ?_, ?_, ?_, ?_, ?_, ?_⟩, ⟨?_, ?_, ?_, ?_, ?_, ?_⟩, ⟨?_, ?_⟩, hocc⟩
  · rw [h1]; exact c1
  · rw [h1]; exact c2
  · rw [h2]; exact c3
  · rw [h2]; exact c4
  · rw [h3]; exact c5
  · rw [h3]; exact c6
  · rw [hpl, h2]; exact c7
  · rw [hfl, h3]; exact c8
  · exact m1
  · rw [h3]
  · intro g hg0 hg1
    rw [hfp g, h2]
    by_cases hg : g = f
    · rw [if_pos hg, hg]
      exact ⟨hp0, hp1, hpg.1, hpg.2.1⟩
    · rw [if_neg hg]
      obtain ⟨b1, b2, b3, b4⟩ := m3 g hg0 hg1
      have hne : (get S.frt g).page ≠ page := by
        intro he
        rw [he, hnp] at b3
        exact absurd b3 (by decide)
      have hne2 : (get S.frt g).page ≠ (get S.frt f).page := by
        intro he
        rw [he, hvf.2.2.2] at b4
        exact hg b4.symm
      obtain ⟨q1, -, q3⟩ := hpo _ hne
      rw [q1, q3 hne2]
      exact ⟨b1, b2, b3, b4⟩
  · intro g hg0 hg1
    rw [h3] at hg1
    omega
  · intro p hq0 hq1 hq
    rw [h2] at hq1
    by_cases hpp : p = page
    · rw [hpp, hpg.1, hpg.2.1, hfp f, if_pos rfl]
      exact ⟨rfl, hf0, hf1, rfl⟩
    · by_cases hpv2 : p = (get S.frt f).page
      · rw [hpv2, hpv] at hq
        exact absurd rfl hq
      · obtain ⟨q1, -, q3⟩ := hpo p hpp
        rw [q3 hpv2] at hq ⊢
        rw [q1]
        obtain ⟨b1, b2, b3, b4⟩ := m5 p hq0 hq1 hq
        have hne : (get S.pgt p).frame ≠ f := by
          intro he
          rw [he] at b4
          exact hpv2 b4.symm
        rw [hfp _, if_neg hne]
        exact ⟨b1, b2, b3, b4⟩
  · intro p hq0 hq1
    rw [h2] at hq1
    by_cases hpp : p = page
    · rw [hpp]; exact hpg.2.2
    · rw [(hpo p hpp).2.1]; exact m6 p hq0 hq1
  · intro hk1
    rw [h3] at hk1
    omega
  · intro _
    rw [hlf]
    exact f2 (le_refl _)


/-! ## The three variants keep the invariant -/

/-- Replacing a page entry by one with the same `present`, `frame` and
`referenced` members changes none of these members in the table. -/
theorem get_upd_fields (t : List spage) (p j : Int) (v : spage)
    (hv : v.present = (get t p).present ∧ v.frame = (get t p).frame ∧
      v.referenced = (get t p).referenced) :
    (get (upd t p v) j).present = (get t j).present ∧
    (get (upd t p v) j).frame = (get t j).frame ∧
    (get (upd t p v) j).referenced = (get t j).referenced := by
  rw [get_upd]
  split
  · rename_i hc
    rw [hc.1]
    exact hv
  · exact ⟨rfl, rfl, rfl⟩

/-- Function `reference_page` of the FIFO variants on a valid page. -/
theorem fifo_reference_sound {ring : Bool} (S : ssystem) (k page : Int) (op : Char)
    (h : Inv ring S k) (hp0 : 0 ≤ page) (hp1 : page < S.numpags) :
    ∃ S1, Fifo.reference_page S page op = some S1 ∧ Inv ring S1 k ∧
      S1.pagsz = S.pagsz ∧ S1.numpags = S.numpags ∧ S1.numframes = S.numframes ∧
      (get S1.pgt page).present = (get S.pgt page).present ∧
      (get S1.pgt page).frame = (get S.pgt page).frame := by
  have hlen := h.cfg.pgt_len
  unfold Fifo.reference_page
  by_cases hR : op = 'R'
  · rw [if_pos hR]
    exact ⟨_, rfl, h.congr rfl rfl rfl rfl rfl rfl rfl, rfl, rfl, rfl, rfl, rfl⟩
  · rw [if_neg hR]
    by_cases hW : op = 'W'
    · rw [if_pos hW, setPg_of_range S _ hp0 (by omega), Option.map_some']
      have hfields := fun j => get_upd_fields S.pgt page j
        { (get S.pgt page) with modified := 1 } ⟨rfl, rfl, rfl⟩
      refine ⟨_, rfl, h.congr_pages rfl rfl rfl ?_ hfields rfl rfl rfl, rfl, rfl, rfl,
        (hfields page).1, (hfields page).2.1⟩
      exact length_upd _ _ _
    · rw [if_neg hW]
      exact ⟨S, rfl, h, rfl, rfl, rfl, rfl, rfl⟩

/-- Function `reference_page` of the LRU variant on a valid page. -/
theorem lru_reference_sound {ring : Bool} (S : ssystem) (k page : Int) (op : Char)
    (h : Inv ring S k) (hp0 : 0 ≤ page) (hp1 : page < S.numpags) :
    ∃ S1, Lru.reference_page S page op = some S1 ∧ Inv ring S1 k ∧
      S1.pagsz = S.pagsz ∧ S1.numpags = S.numpags ∧ S1.numframes = S.numframes ∧
      (get S1.pgt page).present = (get S.pgt page).present ∧
      (get S1.pgt page).frame = (get S.pgt page).frame := by
  have hlen := h.cfg.pgt_len
  unfold Lru.reference_page
  by_cases hR : op = 'R'
  · rw [if_pos hR]
    exact ⟨_, rfl, h.congr rfl rfl rfl rfl rfl rfl rfl, rfl, rfl, rfl, rfl, rfl⟩
  · rw [if_neg hR]
    by_cases hW : op = 'W'
    · rw [if_pos hW, setPg_of_range S _ hp0 (by omega), Option.some_bind]
      dsimp only
      rw [setPg_of_range _ _ hp0 (by simp only [length_upd]; omega), Option.map_some']
      have hf1 := fun j => get_upd_fields S.pgt page j
        { (get S.pgt page) with modified := 1 } ⟨rfl, rfl, rfl⟩
      have hf2 := fun j => get_upd_fields
        (upd S.pgt page { (get S.pgt page) with modified := 1 }) page j
        { (get (upd S.pgt page { (get S.pgt page) with modified := 1 }) page) with
          clock := S.clock } ⟨rfl, rfl, rfl⟩
      have hfields := fun j => And.intro ((hf2 j).1.trans (hf1 j).1)
        (And.intro ((hf2 j).2.1.trans (hf1 j).2.1) ((hf2 j).2.2.trans (hf1 j).2.2))
      refine ⟨_, rfl, h.congr_pages rfl rfl rfl ?_ hfields rfl rfl rfl,
        rfl, rfl, rfl, (hfields page).1, (hfields page).2.1⟩
      simp only [length_upd]
    · rw [if_neg hW]
      exact ⟨S, rfl, h, rfl, rfl, rfl, rfl, rfl⟩


/-! ## Assignments to the members of a frame entry -/

theorem page_upd_next (t : List sframe) (i j : Int) (x : Int) :
    (get (upd t i { (get t i) with next := x }) j).page = (get t j).page := by
  rw [get_upd]
  split
  · rename_i hc
    rw [hc.1]
  · rfl

theorem next_upd_next (t : List sframe) (i j : Int) (x : Int) :
    (get (upd t i { (get t i) with next := x }) j).next =
      if j = i ∧ 0 ≤ i ∧ i < (t.length : Int) then x else (get t j).next := by
  rw [get_upd]
  split <;> rfl

theorem page_upd_page (t : List sframe) (i j : Int) (x : Int) :
    (get (upd t i { (get t i) with page := x }) j).page =
      if j = i ∧ 0 ≤ i ∧ i < (t.length : Int) then x else (get t j).page := by
  rw [get_upd]
  split <;> rfl

theorem next_upd_page (t : List sframe) (i j : Int) (x : Int) :
    (get (upd t i { (get t i) with page := x }) j).next = (get t j).next := by
  rw [get_upd]
  split
  · rename_i hc
    rw [hc.1]
  · rfl

/-! ## `occupy_free_frame` -/

/-- Function `occupy_free_frame` of the LRU variant. -/
theorem lru_occupy_sound (S : ssystem) (k page : Int) (h : Mid false S k)
    (hp0 : 0 ≤ page) (hp1 : page < S.numpags) (hnp : (get S.pgt page).present = 0) :
    ∃ S1, Lru.occupy_free_frame S k page = some S1 ∧ Inv false S1 (k + 1) ∧
      S1.numpagefaults = S.numpagefaults ∧ S1.pagsz = S.pagsz ∧
      S1.numpags = S.numpags ∧ S1.numframes = S.numframes ∧
      (get S1.pgt page).present = 1 ∧ (get S1.pgt page).modified = 0 ∧
      (get S1.pgt page).frame = k := by
  have hpl := h.cfg.pgt_len
  have hfl := h.cfg.frt_len
  have hk0 := h.mapped.k_nonneg
  have hk1 := h.k_lt
  unfold Lru.occupy_free_frame
  rw [setPg_of_range S _ hp0 (by omega), Option.some_bind,
    setFr_of_range _ _ hk0 (by dsimp only; omega)]
  have hsame := get_upd_same S.pgt page
    { (get S.pgt page) with frame := k, present := 1, modified := 0, referenced := 0 }
    hp0 (by omega)
  refine ⟨_, rfl, ?_, rfl, rfl, rfl, rfl, by dsimp only; rw [hsame],
    by dsimp only; rw [hsame], by dsimp only; rw [hsame]⟩
  refine install_free h hp0 hp1 hnp rfl rfl rfl (length_upd _ _ _) ?_ ?_ (length_upd _ _ _)
    ?_ ?_ rfl ?_
  · dsimp only; rw [hsame]; exact ⟨rfl, rfl, rfl⟩
  · intro j hj
    exact get_upd_ne _ _ _ _ hj
  · intro j
    dsimp only
    rw [page_upd_page]
    by_cases hj : j = k
    · rw [if_pos ⟨hj, hk0, by omega⟩, if_pos hj]
    · rw [if_neg (fun hc => hj hc.1), if_neg hj]
  · intro j hj
    dsimp only
    rw [next_upd_page]
  · have := h.occ
    unfold Occ at this ⊢
    exact this

/-- Function `occupy_free_frame` of the FIFO variants. -/
theorem fifo_occupy_sound (S : ssystem) (k page : Int) (h : Mid true S k)
    (hp0 : 0 ≤ page) (hp1 : page < S.numpags) (hnp : (get S.pgt page).present = 0) :
    ∃ S1, Fifo.occupy_free_frame S k page = some S1 ∧ Inv true S1 (k + 1) ∧
      S1.numpagefaults = S.numpagefaults ∧ S1.pagsz = S.pagsz ∧
      S1.numpags = S.numpags ∧ S1.numframes = S.numframes ∧
      (get S1.pgt page).present = 1 ∧ (get S1.pgt page).modified = 0 ∧
      (get S1.pgt page).frame = k := by
  have hpl := h.cfg.pgt_len
  have hfl := h.cfg.frt_len
  have hk0 := h.mapped.k_nonneg
  have hk1 := h.k_lt
  have hocc := h.occ
  unfold Occ at hocc
  simp only [if_true] at hocc
  obtain ⟨o1, o2, o3⟩ := hocc
  have hsame := get_upd_same S.pgt page
    { (get S.pgt page) with frame := k, present := 1, modified := 0, referenced := 0 }
    hp0 (by omega)
  unfold Fifo.occupy_free_frame
  rw [setPg_of_range S _ hp0 (by omega), Option.some_bind,
    setFr_of_range _ _ hk0 (by dsimp only; omega), Option.some_bind]
  dsimp only
  by_cases hlo : S.listoccupied = -1
  · rw [if_pos hlo, setFr_of_range _ _ hk0 (by simp only [length_upd]; omega),
      Option.some_bind]
    refine ⟨_, rfl, ?_, rfl, rfl, rfl, rfl, by dsimp only; rw [hsame],
      by dsimp only; rw [hsame], by dsimp only; rw [hsame]⟩
    have hkz : k = 0 := by
      by_contra hc
      have := o2 (by omega)
      omega
    refine install_free h hp0 hp1 hnp rfl rfl rfl (length_upd _ _ _) ?_ ?_
      (by simp only [length_upd]) ?_ ?_ rfl ?_
    · dsimp only; rw [hsame]; exact ⟨rfl, rfl, rfl⟩
    · intro j hj
      exact get_upd_ne _ _ _ _ hj
    · intro j
      dsimp only
      rw [page_upd_next, page_upd_page]
      by_cases hj : j = k
      · rw [if_pos ⟨hj, hk0, by omega⟩, if_pos hj]
      · rw [if_neg (fun hc => hj hc.1), if_neg hj]
    · intro j hj
      dsimp only
      rw [next_upd_next, if_neg (fun hc => by omega), next_upd_page]
    · unfold Occ
      simp only [if_true]
      refine ⟨fun hc => by omega, fun _ => ⟨hk0, by omega⟩, fun f hf0 hf1 => ?_⟩
      have hfk : f = k := by omega
      rw [next_upd_next, if_pos ⟨hfk, hk0, by simp only [length_upd]; omega⟩]
      omega
  · rw [if_neg hlo]
    have hkpos : 0 < k := by
      by_contra hc
      exact hlo (o1 (by omega))
    obtain ⟨l0, l1⟩ := o2 hkpos
    rw [rd_of_range _ l0 (by simp only [length_upd]; omega), Option.some_bind,
      setFr_of_range _ _ hk0 (by simp only [length_upd]; omega), Option.some_bind]
    dsimp only
    rw [setFr_of_range _ _ l0 (by simp only [length_upd]; omega), Option.some_bind]
    refine ⟨_, rfl, ?_, rfl, rfl, rfl, rfl, by dsimp only; rw [hsame],
      by dsimp only; rw [hsame], by dsimp only; rw [hsame]⟩
    refine install_free h hp0 hp1 hnp rfl rfl rfl (length_upd _ _ _) ?_ ?_
      (by simp only [length_upd]) ?_ ?_ rfl ?_
    · dsimp only; rw [hsame]; exact ⟨rfl, rfl, rfl⟩
    · intro j hj
      exact get_upd_ne _ _ _ _ hj
    · intro j
      dsimp only
      rw [page_upd_next, page_upd_next, page_upd_page]
      by_cases hj : j = k
      · rw [if_pos ⟨hj, hk0, by omega⟩, if_pos hj]
      · rw [if_neg (fun hc => hj hc.1), if_neg hj]
    · intro j hj
      dsimp only
      rw [next_upd_next, if_neg (fun hc => by omega), next_upd_next,
        if_neg (fun hc => by omega), next_upd_page]
    · unfold Occ
      simp only [if_true]
      refine ⟨fun hc => by omega, fun _ => ⟨hk0, by omega⟩, fun f hf0 hf1 => ?_⟩
      rw [next_upd_next]
      by_cases hfl2 : f = S.listoccupied
      · rw [if_pos ⟨hfl2, l0, by simp only [length_upd]; omega⟩]
        omega
      · rw [if_neg (fun hc => hfl2 hc.1), next_upd_next]
        by_cases hfk : f = k
        · rw [if_pos ⟨hfk, hk0, by simp only [length_upd]; omega⟩, next_upd_page]
          have := o3 _ l0 l1
          omega
        · rw [if_neg (fun hc => hfk hc.1), next_upd_page]
          have := o3 f hf0 (by omega)
          omega


/-! ## `replace_page` -/

/-- The page table after the victim `v` is marked absent and the entry of
`page` is replaced by `e1`. -/
theorem evict_pages (t : List spage) (v page : Int) (e1 : spage)
    (hp0 : 0 ≤ page) (hp1 : page < (t.length : Int)) (hv0 : 0 ≤ v) (hv1 : v < (t.length : Int))
    (hne : v ≠ page) :
    get (upd (upd t v { (get t v) with present := 0 }) page e1) page = e1 ∧
    (get (upd (upd t v { (get t v) with present := 0 }) page e1) v).present = 0 ∧
    ∀ j, j ≠ page →
      (get (upd (upd t v { (get t v) with present := 0 }) page e1) j).frame = (get t j).frame ∧
      (get (upd (upd t v { (get t v) with present := 0 }) page e1) j).referenced =
        (get t j).referenced ∧
      (j ≠ v →
        (get (upd (upd t v { (get t v) with present := 0 }) page e1) j).present =
          (get t j).present) := by
  refine ⟨get_upd_same _ _ _ hp0 (by rw [length_upd]; exact hp1), ?_, fun j hj => ?_⟩
  · rw [get_upd_ne _ _ _ _ hne, get_upd_same _ _ _ hv0 hv1]
  · rw [get_upd_ne _ _ _ _ hj]
    by_cases hjv : j = v
    · rw [hjv, get_upd_same _ _ _ hv0 hv1]
      exact ⟨rfl, rfl, fun hc => absurd rfl hc⟩
    · rw [get_upd_ne _ _ _ _ hjv]
      exact ⟨rfl, rfl, fun _ => rfl⟩

/-- The write-back count of `replace_page` leaves the invariant alone. -/
theorem inv_writeback {ring : Bool} {S : ssystem} {k : Int} (h : Inv ring S k) (c : Prop)
    [Decidable c] :
    ∃ S1, (if c then { S with numpgwriteback := S.numpgwriteback + 1 } else S) = S1 ∧
      Inv ring S1 k ∧ S1.pgt = S.pgt ∧ S1.frt = S.frt ∧ S1.numframes = S.numframes ∧
      S1.numpags = S.numpags ∧ S1.pagsz = S.pagsz ∧ S1.numpagefaults = S.numpagefaults ∧
      S1.listoccupied = S.listoccupied := by
  by_cases hc : c
  · rw [if_pos hc]
    exact ⟨_, rfl, h.congr rfl rfl rfl rfl rfl rfl rfl, rfl, rfl, rfl, rfl, rfl, rfl, rfl⟩
  · rw [if_neg hc]
    exact ⟨_, rfl, h, rfl, rfl, rfl, rfl, rfl, rfl, rfl⟩

/-- What is known of the victim in frame `f` when every frame is bound. -/
theorem victim_facts {ring : Bool} {S : ssystem} {f page : Int}
    (h : Inv ring S S.numframes) (hf0 : 0 ≤ f) (hf1 : f < S.numframes)
    (hnp : (get S.pgt page).present = 0) :
    0 ≤ (get S.frt f).page ∧ (get S.frt f).page < (S.pgt.length : Int) ∧
    (get S.pgt (get S.frt f).page).frame = f ∧ (get S.frt f).page ≠ page ∧
    rd S.pgt (get S.frt f).page = some (get S.pgt (get S.frt f).page) := by
  obtain ⟨b1, b2, b3, b4⟩ := h.mapped.bound f hf0 hf1
  have hlen := h.cfg.pgt_len
  refine ⟨b1, by omega, b4, ?_, rd_of_range _ b1 (by omega)⟩
  intro he
  rw [he, hnp] at b3
  exact absurd b3 (by decide)

/-- The part of `replace_page` of the LRU variant after the write-back count. -/
theorem lru_replace_body (S : ssystem) (f page : Int) (h : Inv false S S.numframes)
    (hf0 : 0 ≤ f) (hf1 : f < S.numframes)
    (hp0 : 0 ≤ page) (hp1 : page < S.numpags) (hnp : (get S.pgt page).present = 0) :
    ∃ S2, ((setPg S (get S.frt f).page fun e => { e with present := 0 }).bind fun S2 =>
        (setPg S2 page fun e =>
          { e with present := 1, frame := f, modified := 0 }).bind fun S3 =>
        setFr S3 f fun e => { e with page := page }) = some S2 ∧
      Inv false S2 S.numframes ∧ S2.numpagefaults = S.numpagefaults ∧
      S2.pagsz = S.pagsz ∧ S2.numpags = S.numpags ∧ S2.numframes = S.numframes ∧
      (get S2.pgt page).present = 1 ∧ (get S2.pgt page).modified = 0 := by
  have hpl := h.cfg.pgt_len
  have hfl := h.cfg.frt_len
  obtain ⟨v0, v1, -, vne, -⟩ := victim_facts h hf0 hf1 hnp
  have hp1l : page < (S.pgt.length : Int) := by omega
  rw [setPg_of_range S _ v0 v1, Option.some_bind,
    setPg_of_range _ _ hp0 (by dsimp only; rw [length_upd]; exact hp1l), Option.some_bind,
    setFr_of_range _ _ hf0 (by dsimp only; omega)]
  dsimp only
  obtain ⟨e1, e2, e3⟩ := evict_pages S.pgt (get S.frt f).page page
    { (get (upd S.pgt (get S.frt f).page
        { (get S.pgt (get S.frt f).page) with present := 0 }) page) with
      present := 1, frame := f, modified := 0 } hp0 hp1l v0 v1 vne
  have href : (get (upd S.pgt (get S.frt f).page
        { (get S.pgt (get S.frt f).page) with present := 0 }) page).referenced = 0 := by
    rw [get_upd_ne _ _ _ _ (Ne.symm vne)]
    exact h.mapped.refd page hp0 hp1
  refine ⟨_, rfl, ?_, rfl, rfl, rfl, rfl, by dsimp only; rw [e1], by dsimp only; rw [e1]⟩
  refine install_evict h hf0 hf1 hp0 hp1 hnp rfl rfl rfl (by simp only [length_upd])
    (by dsimp only; rw [e1]; exact ⟨rfl, rfl, href⟩) e2 e3 (length_upd _ _ _)
    (fun j => ?_) rfl (by have := h.occ; unfold Occ at this ⊢; exact this)
  dsimp only
  rw [page_upd_page]
  by_cases hj : j = f
  · rw [if_pos ⟨hj, hf0, by omega⟩, if_pos hj]
  · rw [if_neg (fun hc => hj hc.1), if_neg hj]

/-- Some frame is chosen by `choose_page_to_be_replaced` of the LRU variant
when every frame holds a valid page. -/
theorem lru_choose_scan_total (S : ssystem) (init : Int × Int × Int)
    (hb : ∀ g, 0 ≤ g → g < S.numframes →
      0 ≤ (get S.frt g).page ∧ (get S.frt g).page < (S.pgt.length : Int))
    (hfl : (S.frt.length : Int) = S.numframes)
    (hi : init.1 = (get S.frt init.2.1).page ∧ 0 ≤ init.2.1 ∧ init.2.1 < S.numframes)
    (c : Nat) (hc : (c : Int) < S.numframes) :
    ∃ r, Lru.choose_scan S init c = some r ∧ r.1 = (get S.frt r.2.1).page ∧
      0 ≤ r.2.1 ∧ r.2.1 < S.numframes := by
  induction c with
  | zero => exact ⟨init, rfl, hi⟩
  | succ c ih =>
    obtain ⟨r, hr, hr1, hr2, hr3⟩ := ih (by omega)
    have hi0 : (0 : Int) ≤ (c : Int) + 1 := by omega
    have hi1 : (c : Int) + 1 < S.numframes := by omega
    obtain ⟨b0, b1⟩ := hb _ hi0 hi1
    simp only [Lru.choose_scan, hr, Option.some_bind, rd_of_range S.frt hi0 (by omega),
      rd_of_range S.pgt b0 b1]
    split
    · exact ⟨_, rfl, rfl, hi0, hi1⟩
    · exact ⟨r, rfl, hr1, hr2, hr3⟩

/-- The LRU variant evicts a page and installs the new one. -/
theorem lru_evict_sound (S : ssystem) (page : Int) (h : Inv false S S.numframes)
    (hp0 : 0 ≤ page) (hp1 : page < S.numpags) (hnp : (get S.pgt page).present = 0) :
    ∃ v S1 S2, Lru.choose_page_to_be_replaced S = some (v, S1) ∧
      Lru.replace_page S1 v page = some S2 ∧ Inv false S2 S.numframes ∧
      S2.numpagefaults = S.numpagefaults ∧ S2.pagsz = S.pagsz ∧
      S2.numpags = S.numpags ∧ S2.numframes = S.numframes ∧
      (get S2.pgt page).present = 1 ∧ (get S2.pgt page).modified = 0 := by
  have hpl := h.cfg.pgt_len
  have hfl := h.cfg.frt_len
  have hn := h.cfg.numframes_pos
  have hb : ∀ g, 0 ≤ g → g < S.numframes →
      0 ≤ (get S.frt g).page ∧ (get S.frt g).page < (S.pgt.length : Int) := by
    intro g hg0 hg1
    have := h.mapped.bound g hg0 hg1
    omega
  obtain ⟨b0, b1⟩ := hb 0 (le_refl _) hn
  obtain ⟨r, hr, hr1, hr2, hr3⟩ := lru_choose_scan_total S
    ((get S.frt 0).page, 0, toInt (get S.pgt (get S.frt 0).page).timestamp) hb hfl
    ⟨rfl, le_refl _, hn⟩ (S.numframes - 1).toNat (by omega)
  have hchoose : Lru.choose_page_to_be_replaced S = some (r.1, S) := by
    unfold Lru.choose_page_to_be_replaced Lru.choose_frame
    simp only [rd_of_range S.frt (le_refl _) (by omega : (0 : Int) < S.frt.length),
      rd_of_range S.pgt b0 b1, Option.some_bind, hr, Option.map_some']
  obtain ⟨v0, v1, vf, vne, vrd⟩ := victim_facts h hr2 hr3 hnp
  obtain ⟨S1, hS1, w1, w2, w3, w4, w5, w6, w7, -⟩ :=
    inv_writeback h ((get S.pgt (get S.frt r.2.1).page).modified ≠ 0)
  have w1a : Inv false S1 S1.numframes := by rw [w4]; exact w1
  obtain ⟨S2, hS2, i1, i2, i3, i4, i5, i6, i7⟩ :=
    lru_replace_body S1 r.2.1 page w1a hr2 (by rw [w4]; exact hr3) hp0 (by rw [w5]; exact hp1)
      (by rw [w2]; exact hnp)
  refine ⟨r.1, S, S2, hchoose, ?_, by rw [← w4]; exact i1, by rw [i2, w7], by rw [i3, w6],
    by rw [i4, w5], by rw [i5, w4], i6, i7⟩
  unfold Lru.replace_page
  rw [hr1, vrd, Option.some_bind]
  dsimp only
  rw [vf, hS1]
  rw [w3] at hS2
  exact hS2


/-- The part of `replace_page` of the FIFO variant after the write-back count. -/
theorem fifo_replace_body (S : ssystem) (f page : Int) (h : Inv true S S.numframes)
    (hf0 : 0 ≤ f) (hf1 : f < S.numframes)
    (hp0 : 0 ≤ page) (hp1 : page < S.numpags) (hnp : (get S.pgt page).present = 0) :
    ∃ S2, ((setPg S (get S.frt f).page fun e => { e with present := 0 }).bind fun S2 =>
        (setPg S2 page fun e =>
          { e with present := 1, frame := f, modified := 0, referenced := 0 }).bind fun S3 =>
        (setFr S3 f fun e => { e with page := page }).bind fun S4 =>
        (rd S4.frt S4.listoccupied).bind fun el =>
        (setFr S4 f fun e => { e with next := el.next }).bind fun S5 =>
        (setFr S5 S5.listoccupied fun e => { e with next := f }).bind fun S6 =>
        some { S6 with listoccupied := f }) = some S2 ∧
      Inv true S2 S.numframes ∧ S2.numpagefaults = S.numpagefaults ∧
      S2.pagsz = S.pagsz ∧ S2.numpags = S.numpags ∧ S2.numframes = S.numframes ∧
      (get S2.pgt page).present = 1 ∧ (get S2.pgt page).modified = 0 := by
  have hpl := h.cfg.pgt_len
  have hfl := h.cfg.frt_len
  have hn := h.cfg.numframes_pos
  have hocc := h.occ
  unfold Occ at hocc
  simp only [if_true] at hocc
  obtain ⟨-, o2, o3⟩ := hocc
  obtain ⟨l0, l1⟩ := o2 hn
  obtain ⟨v0, v1, -, vne, -⟩ := victim_facts h hf0 hf1 hnp
  have hp1l : page < (S.pgt.length : Int) := by omega
  rw [setPg_of_range S _ v0 v1, Option.some_bind,
    setPg_of_range _ _ hp0 (by dsimp only; rw [length_upd]; exact hp1l), Option.some_bind,
    setFr_of_range _ _ hf0 (by dsimp only; omega), Option.some_bind]
  dsimp only
  rw [rd_of_range _ l0 (by rw [length_upd]; omega), Option.some_bind,
    setFr_of_range _ _ hf0 (by dsimp only; rw [length_upd]; omega), Option.some_bind]
  dsimp only
  rw [setFr_of_range _ _ l0 (by dsimp only; simp only [length_upd]; omega), Option.some_bind]
  dsimp only
  obtain ⟨e1, e2, e3⟩ := evict_pages S.pgt (get S.frt f).page page
    { (get (upd S.pgt (get S.frt f).page
        { (get S.pgt (get S.frt f).page) with present := 0 }) page) with
      present := 1, frame := f, modified := 0, referenced := 0 } hp0 hp1l v0 v1 vne
  refine ⟨_, rfl, ?_, rfl, rfl, rfl, rfl, by dsimp only; rw [e1], by dsimp only; rw [e1]⟩
  refine install_evict h hf0 hf1 hp0 hp1 hnp rfl rfl rfl (by simp only [length_upd])
    (by dsimp only; rw [e1]; exact ⟨rfl, rfl, rfl⟩) e2 e3 (by simp only [length_upd])
    (fun j => ?_) rfl ?_
  · dsimp only
    rw [page_upd_next, page_upd_next, page_upd_page]
    by_cases hj : j = f
    · rw [if_pos ⟨hj, hf0, by omega⟩, if_pos hj]
    · rw [if_neg (fun hc => hj hc.1), if_neg hj]
  · unfold Occ
    simp only [if_true]
    refine ⟨fun hc => by omega, fun _ => ⟨hf0, hf1⟩, fun g hg0 hg1 => ?_⟩
    rw [next_upd_next]
    by_cases hgl : g = S.listoccupied
    · rw [if_pos ⟨hgl, l0, by simp only [length_upd]; omega⟩]
      omega
    · rw [if_neg (fun hc => hgl hc.1), next_upd_next]
      by_cases hgf : g = f
      · rw [if_pos ⟨hgf, hf0, by simp only [length_upd]; omega⟩, next_upd_page]
        have := o3 _ l0 l1
        omega
      · rw [if_neg (fun hc => hgf hc.1), next_upd_page]
        exact o3 g hg0 hg1

/-- The FIFO variant evicts a page and installs the new one. -/
theorem fifo_evict_sound (S : ssystem) (page : Int) (h : Inv true S S.numframes)
    (hp0 : 0 ≤ page) (hp1 : page < S.numpags) (hnp : (get S.pgt page).present = 0) :
    ∃ v S1 S2, Fifo.choose_page_to_be_replaced S = some (v, S1) ∧
      Fifo.replace_page S1 v page = some S2 ∧ Inv true S2 S.numframes ∧
      S2.numpagefaults = S.numpagefaults ∧ S2.pagsz = S.pagsz ∧
      S2.numpags = S.numpags ∧ S2.numframes = S.numframes ∧
      (get S2.pgt page).present = 1 ∧ (get S2.pgt page).modified = 0 := by
  have hpl := h.cfg.pgt_len
  have hfl := h.cfg.frt_len
  have hn := h.cfg.numframes_pos
  have hocc := h.occ
  unfold Occ at hocc
  simp only [if_true] at hocc
  obtain ⟨-, o2, o3⟩ := hocc
  obtain ⟨l0, l1⟩ := o2 hn
  obtain ⟨hf0, hf1⟩ := o3 _ l0 l1
  have hchoose : Fifo.choose_page_to_be_replaced S =
      some ((get S.frt (get S.frt S.listoccupied).next).page, S) := by
    unfold Fifo.choose_page_to_be_replaced
    rw [rd_of_range _ l0 (by omega), Option.some_bind]
    dsimp only
    rw [rd_of_range _ hf0 (by omega), Option.some_bind]
  obtain ⟨v0, v1, vf, vne, vrd⟩ := victim_facts h hf0 hf1 hnp
  obtain ⟨S1, hS1, w1, w2, w3, w4, w5, w6, w7, -⟩ :=
    inv_writeback h
      ((get S.pgt (get S.frt (get S.frt S.listoccupied).next).page).modified ≠ 0)
  have w1a : Inv true S1 S1.numframes := by rw [w4]; exact w1
  obtain ⟨S2, hS2, i1, i2, i3, i4, i5, i6, i7⟩ :=
    fifo_replace_body S1 (get S.frt S.listoccupied).next page w1a hf0 (by rw [w4]; exact hf1)
      hp0 (by rw [w5]; exact hp1) (by rw [w2]; exact hnp)
  refine ⟨_, S, S2, hchoose, ?_, by rw [← w4]; exact i1, by rw [i2, w7], by rw [i3, w6],
    by rw [i4, w5], by rw [i5, w4], i6, i7⟩
  unfold Fifo.replace_page
  rw [vrd, Option.some_bind]
  dsimp only
  rw [vf, hS1]
  rw [w3] at hS2
  exact hS2

/-- The part of `replace_page` of the second-chance variant after the
write-back count. -/
theorem fifo2c_replace_body (S : ssystem) (f page : Int) (h : Inv true S S.numframes)
    (hf0 : 0 ≤ f) (hf1 : f < S.numframes)
    (hp0 : 0 ≤ page) (hp1 : page < S.numpags) (hnp : (get S.pgt page).present = 0) :
    ∃ S2, ((setPg S (get S.frt f).page fun e => { e with present := 0 }).bind fun S2 =>
        (setPg S2 page fun e =>
          { e with present := 1, frame := f, modified := 0, referenced := 0 }).bind fun S3 =>
        (setFr S3 f fun e => { e with page := page }).bind fun S4 =>
        some { S4 with listoccupied := f }) = some S2 ∧
      Inv true S2 S.numframes ∧ S2.numpagefaults = S.numpagefaults ∧
      S2.pagsz = S.pagsz ∧ S2.numpags = S.numpags ∧ S2.numframes = S.numframes ∧
      (get S2.pgt page).present = 1 ∧ (get S2.pgt page).modified = 0 := by
  have hpl := h.cfg.pgt_len
  have hfl := h.cfg.frt_len
  have hn := h.cfg.numframes_pos
  have hocc := h.occ
  unfold Occ at hocc
  simp only [if_true] at hocc
  obtain ⟨-, -, o3⟩ := hocc
  obtain ⟨v0, v1, -, vne, -⟩ := victim_facts h hf0 hf1 hnp
  have hp1l : page < (S.pgt.length : Int) := by omega
  rw [setPg_of_range S _ v0 v1, Option.some_bind,
    setPg_of_range _ _ hp0 (by dsimp only; rw [length_upd]; exact hp1l), Option.some_bind,
    setFr_of_range _ _ hf0 (by dsimp only; omega), Option.some_bind]
  dsimp only
  obtain ⟨e1, e2, e3⟩ := evict_pages S.pgt (get S.frt f).page page
    { (get (upd S.pgt (get S.frt f).page
        { (get S.pgt (get S.frt f).page) with present := 0 }) page) with
      present := 1, frame := f, modified := 0, referenced := 0 } hp0 hp1l v0 v1 vne
  refine ⟨_, rfl, ?_, rfl, rfl, rfl, rfl, by dsimp only; rw [e1], by dsimp only; rw [e1]⟩
  refine install_evict h hf0 hf1 hp0 hp1 hnp rfl rfl rfl (by simp only [length_upd])
    (by dsimp only; rw [e1]; exact ⟨rfl, rfl, rfl⟩) e2 e3 (by simp only [length_upd])
    (fun j => ?_) rfl ?_
  · dsimp only
    rw [page_upd_page]
    by_cases hj : j = f
    · rw [if_pos ⟨hj, hf0, by omega⟩, if_pos hj]
    · rw [if_neg (fun hc => hj hc.1), if_neg hj]
  · unfold Occ
    simp only [if_true]
    refine ⟨fun hc => by omega, fun _ => ⟨hf0, hf1⟩, fun g hg0 hg1 => ?_⟩
    rw [next_upd_page]
    exact o3 g hg0 hg1

/-- With no page marked referenced, the first probe of the second-chance
walk finds the victim. -/
theorem fifo2c_choose_first (S : ssystem) (h : Inv true S S.numframes) :
    Fifo2c.choose_probes S =
      some ((get S.frt (get S.frt S.listoccupied).next).page, S, 1) := by
  have hpl := h.cfg.pgt_len
  have hfl := h.cfg.frt_len
  have hn := h.cfg.numframes_pos
  have hocc := h.occ
  unfold Occ at hocc
  simp only [if_true] at hocc
  obtain ⟨-, o2, o3⟩ := hocc
  obtain ⟨l0, l1⟩ := o2 hn
  obtain ⟨hf0, hf1⟩ := o3 _ l0 l1
  obtain ⟨b1, b2, -, -⟩ := h.mapped.bound _ hf0 hf1
  have href := h.mapped.refd _ b1 b2
  obtain ⟨c, hc⟩ : ∃ c, S.numframes.toNat = c + 1 := ⟨S.numframes.toNat - 1, by omega⟩
  unfold Fifo2c.choose_probes
  rw [hc]
  simp only [Fifo2c.choose_walk, rd_of_range S.frt l0 (by omega), Option.some_bind,
    rd_of_range S.frt hf0 (by omega), rd_of_range S.pgt b1 (by omega), href, if_true]

/-- The second-chance variant evicts a page and installs the new one. -/
theorem fifo2c_evict_sound (S : ssystem) (page : Int) (h : Inv true S S.numframes)
    (hp0 : 0 ≤ page) (hp1 : page < S.numpags) (hnp : (get S.pgt page).present = 0) :
    ∃ v S1 S2, Fifo2c.choose_page_to_be_replaced S = some (v, S1) ∧
      Fifo2c.replace_page S1 v page = some S2 ∧ Inv true S2 S.numframes ∧
      S2.numpagefaults = S.numpagefaults ∧ S2.pagsz = S.pagsz ∧
      S2.numpags = S.numpags ∧ S2.numframes = S.numframes ∧
      (get S2.pgt page).present = 1 ∧ (get S2.pgt page).modified = 0 := by
  have hn := h.cfg.numframes_pos
  have hocc := h.occ
  unfold Occ at hocc
  simp only [if_true] at hocc
  obtain ⟨-, o2, o3⟩ := hocc
  obtain ⟨l0, l1⟩ := o2 hn
  obtain ⟨hf0, hf1⟩ := o3 _ l0 l1
  have hchoose : Fifo2c.choose_page_to_be_replaced S =
      some ((get S.frt (get S.frt S.listoccupied).next).page, S) := by
    unfold Fifo2c.choose_page_to_be_replaced
    rw [fifo2c_choose_first S h, Option.map_some']
  obtain ⟨v0, v1, vf, vne, vrd⟩ := victim_facts h hf0 hf1 hnp
  obtain ⟨S1, hS1, w1, w2, w3, w4, w5, w6, w7, -⟩ :=
    inv_writeback h
      ((get S.pgt (get S.frt (get S.frt S.listoccupied).next).page).modified ≠ 0)
  have w1a : Inv true S1 S1.numframes := by rw [w4]; exact w1
  obtain ⟨S2, hS2, i1, i2, i3, i4, i5, i6, i7⟩ :=
    fifo2c_replace_body S1 (get S.frt S.listoccupied).next page w1a hf0
      (by rw [w4]; exact hf1) hp0 (by rw [w5]; exact hp1) (by rw [w2]; exact hnp)
  refine ⟨_, S, S2, hchoose, ?_, by rw [← w4]; exact i1, by rw [i2, w7], by rw [i3, w6],
    by rw [i4, w5], by rw [i5, w4], i6, i7⟩
  unfold Fifo2c.replace_page
  rw [vrd, Option.some_bind]
  dsimp only
  rw [vf, hS1]
  rw [w3] at hS2
  exact hS2

/-! ## The three variants are sound -/

theorem fifo_sound : Sound true Fifo.policy :=
  { occupy := fifo_occupy_sound
    evict := fifo_evict_sound
    reference := fifo_reference_sound }

theorem fifo2c_sound : Sound true Fifo2c.policy :=
  { occupy := fifo_occupy_sound
    evict := fifo2c_evict_sound
    reference := fifo_reference_sound }

theorem lru_sound : Sound false Lru.policy :=
  { occupy := lru_occupy_sound
    evict := lru_evict_sound
    reference := lru_reference_sound }

/-- Every variant is sound for one of the two shapes of the occupied list. -/
theorem variants_sound {P : Policy} (hP : P ∈ variants) : ∃ ring, Sound ring P := by
  unfold variants at hP
  simp only [List.mem_cons, List.mem_singleton, List.mem_nil_iff, or_false] at hP
  rcases hP with h | h | h
  · exact ⟨true, h ▸ fifo_sound⟩
  · exact ⟨true, h ▸ fifo2c_sound⟩
  · exact ⟨false, h ▸ lru_sound⟩


/-! ## The occupied ring and the second-chance walk -/

/-- Along a walk every frame but the last is followed by a frame of the walk. -/
theorem ringWalk_next (frt : List sframe) (c : Nat) (cur : Int) (l : List Int)
    (h : ringWalk frt c cur = some l) :
    (∀ x ∈ l.head?, x = (get frt cur).next) ∧
    ∀ g ∈ l, l.getLast? = some g ∨ (get frt g).next ∈ l := by
  induction c generalizing cur l with
  | zero =>
    simp only [ringWalk, Option.some.injEq] at h
    subst h
    simp
  | succ c ih =>
    simp only [ringWalk] at h
    cases hr : rd frt cur with
    | none => rw [hr] at h; simp at h
    | some e =>
      rw [hr, Option.some_bind] at h
      obtain ⟨-, -, he⟩ := rd_some hr
      cases hw : ringWalk frt c e.next with
      | none => rw [hw] at h; simp at h
      | some l1 =>
        rw [hw, Option.map_some', Option.some.injEq] at h
        subst h
        obtain ⟨ih1, ih2⟩ := ih e.next l1 hw
        refine ⟨by simp [he], fun g hg => ?_⟩
        rw [List.mem_cons] at hg
        cases l1 with
        | nil =>
          left
          rcases hg with hg | hg
          · simp [hg]
          · simp at hg
        | cons y ys =>
          have hy : y = (get frt e.next).next := ih1 y (by simp)
          rcases hg with hg | hg
          · right
            rw [hg, ← hy]
            simp
          · rcases ih2 g hg with h1 | h1
            · left
              rw [List.getLast?_cons_cons]
              exact h1
            · right
              exact List.mem_cons_of_mem _ h1

/-- The frames of a ring are closed under `next` and valid, as are their pages. -/
theorem OccupiedRing.closure {S : ssystem} {gs : List Int} (h : OccupiedRing S gs) :
    S.listoccupied ∈ gs ∧
    ∀ g ∈ gs, 0 ≤ g ∧ g < (S.frt.length : Int) ∧ 0 ≤ (get S.frt g).page ∧
      (get S.frt g).page < (S.pgt.length : Int) ∧ (get S.frt g).next ∈ gs := by
  obtain ⟨hn, hw, -, hc, hp⟩ := h
  have hlo : S.listoccupied ∈ gs := List.mem_of_getLast?_eq_some hc
  obtain ⟨h1, h2⟩ := ringWalk_next _ _ _ _ hw
  have hhead : (get S.frt S.listoccupied).next ∈ gs := by
    cases gs with
    | nil => simp at hlo
    | cons y ys =>
      have := h1 y (by simp)
      rw [← this]
      simp
  refine ⟨hlo, fun g hg => ?_⟩
  obtain ⟨e, ep, r1, r2⟩ := hp g hg
  obtain ⟨a1, a2, a3⟩ := rd_some r1
  obtain ⟨b1, b2, -⟩ := rd_some r2
  subst a3
  refine ⟨a1, a2, b1, b2, ?_⟩
  rcases h2 g hg with h3 | h3
  · rw [hc, Option.some.injEq] at h3
    rw [← h3]
    exact hhead
  · exact h3

/-- The second-chance walk over frames that are valid and closed under
`next`: it returns after at most `c` probes, changes `referenced` members to
0 only, and the page of the first frame probed ends with `referenced = 0`. -/
theorem choose_walk_spec (gs : List Int) (c : Nat) (cur : Int) (S : ssystem)
    (hcur : cur ∈ gs)
    (hg : ∀ g ∈ gs, 0 ≤ g ∧ g < (S.frt.length : Int) ∧ 0 ≤ (get S.frt g).page ∧
      (get S.frt g).page < (S.pgt.length : Int) ∧ (get S.frt g).next ∈ gs) :
    ∃ r S1 k, Fifo2c.choose_walk c cur S = some (r, S1, k) ∧ k ≤ c ∧
      S1.frt = S.frt ∧ S1.pgt.length = S.pgt.length ∧
      S1.listoccupied = S.listoccupied ∧ S1.numframes = S.numframes ∧
      (∀ p, (get S.pgt p).referenced = 0 → (get S1.pgt p).referenced = 0) ∧
      (0 < c → (get S1.pgt (get S.frt (get S.frt cur).next).page).referenced = 0) := by
  induction c generalizing cur S with
  | zero =>
    exact ⟨none, S, 0, rfl, le_refl _, rfl, rfl, rfl, rfl, fun _ h => h, fun h => by omega⟩
  | succ c ih =>
    obtain ⟨c0, c1, -, -, c4⟩ := hg cur hcur
    obtain ⟨f0, f1, p0, p1, -⟩ := hg _ c4
    simp only [Fifo2c.choose_walk, rd_of_range S.frt c0 c1, Option.some_bind,
      rd_of_range S.frt f0 f1, rd_of_range S.pgt p0 p1]
    by_cases href : (get S.pgt (get S.frt (get S.frt cur).next).page).referenced = 0
    · rw [if_pos href]
      exact ⟨_, S, 1, rfl, by omega, rfl, rfl, rfl, rfl, fun _ h => h, fun _ => href⟩
    · rw [if_neg href, setPg_of_range S _ p0 p1, Option.some_bind]
      obtain ⟨r, S1, k, hw, hk, e1, e2, e3, e4, e5, -⟩ :=
        ih (get S.frt cur).next
          { S with pgt := (upd S.pgt (get S.frt (get S.frt cur).next).page
              { (get S.pgt (get S.frt (get S.frt cur).next).page) with referenced := 0 }) }
          c4 (fun g hgm => by
            obtain ⟨a1, a2, a3, a4, a5⟩ := hg g hgm
            exact ⟨a1, a2, a3, by simp only [length_upd]; exact a4, a5⟩)
      rw [hw, Option.map_some']
      refine ⟨r, S1, k + 1, rfl, by omega, e1, by rw [e2]; exact length_upd _ _ _, e3, e4,
        fun p hp => e5 p ?_, fun _ => e5 _ ?_⟩
      · show (get (upd S.pgt _ _) p).referenced = 0
        rw [get_upd]
        split
        · rfl
        · exact hp
      · show (get (upd S.pgt _ _) _).referenced = 0
        rw [get_upd_same _ _ _ p0 p1]


/-! ## Counting the free and the bound frames -/

/-- Along the free ring of the invariant, `numframes - i` frames lie between
frame `i` and the last frame. -/
theorem stepsTo_free {S : ssystem} {k : Int} (hf : FreeFrom S k) (hk : k < S.numframes)
    (hlen : (S.frt.length : Int) = S.numframes) (d : Nat) (i : Int) (fuel : Nat)
    (hi0 : k ≤ i) (hk0 : 0 ≤ k) (hd : i + (d : Int) = S.numframes - 1) (hfuel : d < fuel) :
    stepsTo S.frt (S.numframes - 1) fuel i = some (d + 1) := by
  obtain ⟨-, -, hch⟩ := hf.some_free hk
  induction d generalizing i fuel with
  | zero =>
    obtain ⟨fuel1, rfl⟩ : ∃ m, fuel = m + 1 := ⟨fuel - 1, by omega⟩
    have : i = S.numframes - 1 := by omega
    simp only [stepsTo, this, if_true]
  | succ d ih =>
    obtain ⟨fuel1, rfl⟩ : ∃ m, fuel = m + 1 := ⟨fuel - 1, by omega⟩
    have hne : i ≠ S.numframes - 1 := by omega
    have hnx := hch i hi0 (by omega)
    simp only [stepsTo, if_neg hne, rd_of_range S.frt (by omega : 0 ≤ i) (by omega),
      Option.some_bind, hnx]
    rw [ih (i + 1) fuel1 (by omega) (by omega) (by omega), Option.map_some']

/-- The free ring of the invariant has `numframes - k` frames. -/
theorem freeRingLength_inv {ring : Bool} {S : ssystem} {k : Int} (h : Inv ring S k) :
    freeRingLength S = some (S.numframes - k).toNat := by
  have hlen := h.cfg.frt_len
  have hn := h.cfg.numframes_pos
  have hk0 := h.mapped.k_nonneg
  have hk1 := h.mapped.k_le
  unfold freeRingLength
  by_cases hk : k < S.numframes
  · obtain ⟨g1, g2, -⟩ := h.free.some_free hk
    rw [if_neg (by omega), g1, rd_of_range S.frt (by omega) (by omega), Option.some_bind, g2]
    have := stepsTo_free h.free hk hlen (S.numframes - 1 - k).toNat k S.frt.length
      (le_refl _) hk0 (by omega) (by omega)
    rw [this]
    congr 1
    omega
  · have := h.free.none_free (by omega)
    rw [if_pos this]
    congr 1
    omega

/-- A table whose first `m` entries satisfy `p`, and no other, has `m` entries
satisfying `p`. -/
theorem countP_initial {α : Type} (p : α → Bool) (t : List α) (m : Nat) (hm : m ≤ t.length)
    (h1 : ∀ i x, i < m → t[i]? = some x → p x = true)
    (h2 : ∀ i x, m ≤ i → t[i]? = some x → p x = false) : t.countP p = m := by
  induction t generalizing m with
  | nil =>
    simp only [List.length_nil, Nat.le_zero] at hm
    simp [hm]
  | cons x xs ih =>
    cases m with
    | zero =>
      have hx : p x = false := h2 0 x (le_refl _) (by simp)
      have := ih 0 (Nat.zero_le _) (fun i y hi _ => by omega)
        (fun i y _ hy => h2 (i + 1) y (Nat.zero_le _) (by simpa using hy))
      rw [List.countP_cons_of_neg _ _ (by simp [hx]), this]
    | succ m =>
      have hx : p x = true := h1 0 x (Nat.succ_pos _) (by simp)
      have := ih m (by simpa using hm)
        (fun i y hi hy => h1 (i + 1) y (by omega) (by simpa using hy))
        (fun i y hi hy => h2 (i + 1) y (by omega) (by simpa using hy))
      rw [List.countP_cons_of_pos _ _ hx, this]

theorem get_natCast {α : Type} [Inhabited α] (t : List α) (i : Nat) (x : α)
    (h : t[i]? = some x) : get t (i : Int) = x := by
  unfold get rd
  simp [h]

/-- Under the invariant `k` frames are bound. -/
theorem boundCount_inv {ring : Bool} {S : ssystem} {k : Int} (h : Inv ring S k) :
    (boundCount S : Int) = k := by
  have hlen := h.cfg.frt_len
  have hk0 := h.mapped.k_nonneg
  have hk1 := h.mapped.k_le
  have : boundCount S = k.toNat := by
    unfold boundCount
    refine countP_initial _ S.frt k.toNat (by omega) (fun i x hi hx => ?_) (fun i x hi hx => ?_)
    · have hg := get_natCast _ _ _ hx
      have := (h.mapped.bound (i : Int) (by omega) (by omega)).1
      rw [hg] at this
      simp only [decide_eq_true_eq]
      omega
    · have hg := get_natCast _ _ _ hx
      have hil : i < S.frt.length := by
        by_contra hc
        rw [List.getElem?_eq_none (by omega)] at hx
        simp at hx
      have := h.mapped.unbound (i : Int) (by omega) (by omega)
      rw [hg] at this
      simp only [decide_eq_false_iff_not, not_not]
      exact this
  omega

/-! ## Traces -/

/-- The states a trace of `unsigned` addresses leads to are reachable. -/
theorem sim_run_reachable (P : Policy) (refs : List (Nat × Char)) (S : ssystem)
    (as : List Nat) (S1 : ssystem) (hr : Reachable P S)
    (hva : ∀ r ∈ refs, r.1 < 4294967296) (h : sim_run P S refs = some (as, S1)) :
    Reachable P S1 := by
  induction refs generalizing S as with
  | nil =>
    simp only [sim_run, Option.some.injEq, Prod.mk.injEq] at h
    rw [← h.2]
    exact hr
  | cons r rs ih =>
    simp only [sim_run] at h
    cases hs : sim_mmu P S r.1 r.2 with
    | none => rw [hs] at h; simp at h
    | some x =>
      rw [hs, Option.some_bind] at h
      cases hrun : sim_run P x.2 rs with
      | none => rw [hrun] at h; simp at h
      | some y =>
        rw [hrun, Option.map_some', Option.some.injEq, Prod.mk.injEq] at h
        have hx : Reachable P x.2 :=
          Reachable.step hr (hva r (List.mem_cons_self _ _)) (a := x.1) (by rw [hs])
        exact ih x.2 y.1 hx (fun r1 hr1 => hva r1 (List.mem_cons_of_mem _ hr1))
          (by rw [hrun, ← h.2])


/-! # The properties

## Concrete runs -/

theorem cfg_allocated_142 : Cfg (allocated 1 4 2) :=
  ⟨by decide, by decide, by decide, by decide, by decide, by decide, by decide, by decide⟩

theorem init_allocated_142 : init_tables (allocated 1 4 2) = some start142 := by decide

theorem reachable_start142 (P : Policy) : Reachable P start142 :=
  Reachable.init cfg_allocated_142 init_allocated_142

theorem fifo_run_two :
    sim_run Fifo.policy start142 [(0, 'R'), (1, 'R')] = some ([0, 1], fifoFull) := by decide

theorem reachable_fifoFull : Reachable Fifo.policy fifoFull :=
  sim_run_reachable Fifo.policy _ _ _ _ (reachable_start142 _) (by decide) fifo_run_two

theorem wide_run_two :
    (init_tables (allocated 2147483647 3 3)).bind
      (fun S => sim_run Lru.policy S [(2147483647, 'R'), (4294967294, 'R')]) =
      some ([0, 2147483647], wideTwo) := by decide

theorem reachable_wideTwo : Reachable Lru.policy wideTwo := by
  have h := wide_run_two
  cases hi : init_tables (allocated 2147483647 3 3) with
  | none => rw [hi] at h; simp at h
  | some S0 =>
    rw [hi, Option.some_bind] at h
    have hc : Cfg (allocated 2147483647 3 3) :=
      ⟨by decide, by decide, by decide, by decide, by decide, by decide, by decide,
        by decide⟩
    exact sim_run_reachable Lru.policy _ _ _ _ (Reachable.init hc hi) (by decide) h

theorem mem_variants_fifo : Fifo.policy ∈ variants := List.mem_cons_self _ _

theorem mem_variants_fifo2c : Fifo2c.policy ∈ variants :=
  List.mem_cons_of_mem _ (List.mem_cons_self _ _)

theorem mem_variants_lru : Lru.policy ∈ variants :=
  List.mem_cons_of_mem _ (List.mem_cons_of_mem _ (List.mem_cons_self _ _))

/-! ## C1: illegal references -/

/-- C1: in every variant (the policy `P` is arbitrary), on a state with a
positive page size and an `unsigned` address whose page number
`virtual_addr / pagsz` is outside `[0, numpags)`, `sim_mmu` returns the
sentinel `~0U = 4294967295` and leaves the state as it was but for
`numillegalrefs`, which is one more. -/
theorem C1_illegal_reference (P : Policy) (S : ssystem) (virtual_addr : Nat) (op : Char)
    (hp : 0 < S.pagsz) (hi : IsInt S.pagsz) (hn : IsInt S.numpags)
    (hva : virtual_addr < 4294967296)
    (hout : ¬ (0 ≤ (virtual_addr : Int) / S.pagsz ∧
      (virtual_addr : Int) / S.pagsz < S.numpags)) :
    sim_mmu P S virtual_addr op =
      some (4294967295, { S with numillegalrefs := S.numillegalrefs + 1 }) := by
  have hz := (page_eq_div virtual_addr hp hi).2.2
  have hill : toInt (virtual_addr / toUnsigned S.pagsz) < 0 ∨
      toInt (virtual_addr / toUnsigned S.pagsz) ≥ S.numpags := by
    by_contra hc
    exact hout ((page_legal_iff hp hi hn hva).1 hc)
  unfold sim_mmu
  rw [if_neg hz]
  simp only [hill, if_true]

/-- C1 at the address 9 of the FIFO state `fifoFull` (4 pages of size 1). -/
theorem C1_witness :
    sim_mmu Fifo.policy fifoFull 9 'W' =
      some (4294967295, { fifoFull with numillegalrefs := fifoFull.numillegalrefs + 1 }) :=
  C1_illegal_reference Fifo.policy fifoFull 9 'W' (by decide) (by decide) (by decide)
    (by decide) (by decide)


/-! ## C2: translation of a legal address -/

/-- C2 as stated fails: the pages of size 2147483647 with 3 frames.  After the
pages 1 and 2 are read, the page 0 goes to frame 2, and the address of its
offset 5 would be `2 * 2147483647 + 5 = 4294967299`, which is no `unsigned`
value: `sim_mmu` returns 3. -/
theorem C2_counterexample :
    ¬ (∀ P ∈ variants, ∀ S : ssystem, Reachable P S → ∀ (virtual_addr : Nat) (op : Char),
      virtual_addr < 4294967296 →
      0 ≤ (virtual_addr : Int) / S.pagsz ∧ (virtual_addr : Int) / S.pagsz < S.numpags →
      ∃ a S1 e, sim_mmu P S virtual_addr op = some (a, S1) ∧
        rd S1.pgt ((virtual_addr : Int) / S.pagsz) = some e ∧ e.present = 1 ∧
        0 ≤ e.frame ∧ e.frame < S.numframes ∧
        (a : Int) = e.frame * S.pagsz + (virtual_addr : Int) % S.pagsz ∧
        (a : Int) < S.numframes * S.pagsz) := by
  intro h
  obtain ⟨a, S1, e, hs, hrd, -, -, -, ha, -⟩ :=
    h Lru.policy mem_variants_lru wideTwo reachable_wideTwo 5 'R' (by decide) (by decide)
  have hs1 : sim_mmu Lru.policy wideTwo 5 'R' = some (3, wideThree) := by decide
  rw [hs1, Option.some.injEq, Prod.mk.injEq] at hs
  obtain ⟨ha1, hS1⟩ := hs
  subst ha1 hS1
  have hrd1 : rd wideThree.pgt (((5 : Nat) : Int) / wideTwo.pagsz) = some ⟨1, 2, 0, 0, 0, 0⟩ := by
    decide
  rw [hrd1, Option.some.injEq] at hrd
  subst hrd
  revert ha
  decide

/-- C2, amended: in every variant, for every state reachable from
`init_tables` (positive `pagsz`, `numpags`, `numframes`) and every `unsigned`
address whose page `p = virtual_addr / pagsz` lies in `[0, numpags)`,
`sim_mmu` returns; afterwards `p` is present, its frame `f` satisfies
`0 <= f < numframes`, and the value returned is
`f * pagsz + virtual_addr % pagsz` reduced modulo 2^32.  When
`numframes * pagsz <= 2^32` it is `f * pagsz + virtual_addr % pagsz` itself,
hence smaller than `numframes * pagsz`. -/
theorem C2_translate (P : Policy) (hP : P ∈ variants) (S : ssystem) (hr : Reachable P S)
    (virtual_addr : Nat) (op : Char)
    (hl : 0 ≤ (virtual_addr : Int) / S.pagsz ∧ (virtual_addr : Int) / S.pagsz < S.numpags) :
    ∃ a S1 e, sim_mmu P S virtual_addr op = some (a, S1) ∧
      rd S1.pgt ((virtual_addr : Int) / S.pagsz) = some e ∧ e.present = 1 ∧
      0 ≤ e.frame ∧ e.frame < S.numframes ∧
      (a : Int) = (e.frame * S.pagsz + (virtual_addr : Int) % S.pagsz) % 4294967296 ∧
      (S.numframes * S.pagsz ≤ 4294967296 →
        (a : Int) = e.frame * S.pagsz + (virtual_addr : Int) % S.pagsz ∧
        (a : Int) < S.numframes * S.pagsz) := by
  obtain ⟨ring, hs⟩ := variants_sound hP
  obtain ⟨k, hinv⟩ := reachable_inv hs hr
  obtain ⟨a, S1, k1, e1, e2, e3, e4, e5, e6, e7⟩ := sim_mmu_spec hs hinv op hl
  have hcfg := hinv.cfg
  have hlen := e2.cfg.pgt_len
  have hrd : rd S1.pgt ((virtual_addr : Int) / S.pagsz) =
      some (get S1.pgt ((virtual_addr : Int) / S.pagsz)) :=
    rd_of_range _ hl.1 (by rw [hlen, e4]; exact hl.2)
  obtain ⟨-, f0, f1, -⟩ := e2.mapped.pres _ hl.1 (by rw [e4]; exact hl.2)
    (by rw [e6]; decide)
  have hk1 := e2.mapped.k_le
  have hf1 : (get S1.pgt ((virtual_addr : Int) / S.pagsz)).frame < S.numframes := by
    rw [← e5]; omega
  have hcast : (a : Int) =
      ((get S1.pgt ((virtual_addr : Int) / S.pagsz)).frame * S.pagsz +
        (virtual_addr : Int) % S.pagsz) % 4294967296 := by
    rw [e7]
    unfold toUnsigned
    exact Int.toNat_of_nonneg (Int.emod_nonneg _ (by decide))
  refine ⟨a, S1, _, e1, hrd, e6, f0, hf1, hcast, fun hsmall => ?_⟩
  have hp := hcfg.pagsz_pos
  have ho0 : 0 ≤ (virtual_addr : Int) % S.pagsz := Int.emod_nonneg _ (by omega)
  have ho1 : (virtual_addr : Int) % S.pagsz < S.pagsz := Int.emod_lt_of_pos _ hp
  have hmul : (get S1.pgt ((virtual_addr : Int) / S.pagsz)).frame * S.pagsz ≤
      (S.numframes - 1) * S.pagsz :=
    Int.mul_le_mul_of_nonneg_right (by omega) (le_of_lt hp)
  have hmul0 : 0 ≤ (get S1.pgt ((virtual_addr : Int) / S.pagsz)).frame * S.pagsz :=
    Int.mul_nonneg f0 (le_of_lt hp)
  have hexp : (S.numframes - 1) * S.pagsz = S.numframes * S.pagsz - S.pagsz := by ring
  have hlt : (get S1.pgt ((virtual_addr : Int) / S.pagsz)).frame * S.pagsz +
      (virtual_addr : Int) % S.pagsz < S.numframes * S.pagsz := by omega
  have hmod : ((get S1.pgt ((virtual_addr : Int) / S.pagsz)).frame * S.pagsz +
      (virtual_addr : Int) % S.pagsz) % 4294967296 =
      (get S1.pgt ((virtual_addr : Int) / S.pagsz)).frame * S.pagsz +
      (virtual_addr : Int) % S.pagsz :=
    Int.emod_eq_of_lt (by omega) (by omega)
  rw [hcast, hmod]
  exact ⟨rfl, hlt⟩

/-- C2, amended, at the address 3 written in the FIFO state `fifoFull`
(page size 1, 4 pages, 2 frames). -/
theorem C2_witness :
    ∃ a S1 e, sim_mmu Fifo.policy fifoFull 3 'W' = some (a, S1) ∧
      rd S1.pgt (((3 : Nat) : Int) / fifoFull.pagsz) = some e ∧ e.present = 1 ∧
      0 ≤ e.frame ∧ e.frame < fifoFull.numframes ∧
      (a : Int) = (e.frame * fifoFull.pagsz + ((3 : Nat) : Int) % fifoFull.pagsz) % 4294967296 ∧
      (fifoFull.numframes * fifoFull.pagsz ≤ 4294967296 →
        (a : Int) = e.frame * fifoFull.pagsz + ((3 : Nat) : Int) % fifoFull.pagsz ∧
        (a : Int) < fifoFull.numframes * fifoFull.pagsz) :=
  C2_translate Fifo.policy mem_variants_fifo fifoFull reachable_fifoFull 3 'W' (by decide)


/-! ## C3: pages and frames correspond -/

/-- C3: in each of the three variants, in every state reachable from
`init_tables` through calls of `sim_mmu`, the map `p -> pgt[p].frame` is a
one-to-one correspondence between the pages with `present = 1` and the frames
with `page != -1`, and the pointers agree both ways.  Every `present` member
is 0 or 1. -/
theorem C3_bijection (P : Policy) (hP : P ∈ variants) (S : ssystem) (hr : Reachable P S) :
    Set.BijOn (fun p => (get S.pgt p).frame) (presentPages S) (boundFrames S) ∧
    (∀ p e, rd S.pgt p = some e → e.present = 1 →
      ∃ ef, rd S.frt e.frame = some ef ∧ ef.page = p) ∧
    (∀ f ef, rd S.frt f = some ef → ef.page ≠ -1 →
      ∃ e, rd S.pgt ef.page = some e ∧ e.present = 1 ∧ e.frame = f) ∧
    (∀ p e, rd S.pgt p = some e → e.present = 0 ∨ e.present = 1) := by
  obtain ⟨ring, hs⟩ := variants_sound hP
  obtain ⟨k, hinv⟩ := reachable_inv hs hr
  have hpl := hinv.cfg.pgt_len
  have hfl := hinv.cfg.frt_len
  have hk := hinv.mapped.k_le
  have hfwd : ∀ p e, rd S.pgt p = some e → e.present = 1 →
      ∃ ef, rd S.frt e.frame = some ef ∧ ef.page = p := by
    intro p e hrd hp
    obtain ⟨p0, p1, pe⟩ := rd_some hrd
    subst pe
    obtain ⟨-, f0, f1, f2⟩ := hinv.mapped.pres p p0 (by omega) (by rw [hp]; decide)
    exact ⟨_, rd_of_range _ f0 (by omega), f2⟩
  have hbwd : ∀ f ef, rd S.frt f = some ef → ef.page ≠ -1 →
      ∃ e, rd S.pgt ef.page = some e ∧ e.present = 1 ∧ e.frame = f := by
    intro f ef hrd hne
    obtain ⟨f0, f1, fe⟩ := rd_some hrd
    subst fe
    by_cases hfk : f < k
    · obtain ⟨b0, b1, b2, b3⟩ := hinv.mapped.bound f f0 hfk
      exact ⟨_, rd_of_range _ b0 (by omega), b2, b3⟩
    · exact absurd (hinv.mapped.unbound f (by omega) (by omega)) hne
  refine ⟨⟨?_, ?_, ?_⟩, hfwd, hbwd, ?_⟩
  · intro p hp
    obtain ⟨e, hrd, hpres⟩ := hp
    obtain ⟨ef, h1, h2⟩ := hfwd p e hrd hpres
    obtain ⟨p0, -, pe⟩ := rd_some hrd
    subst pe
    exact ⟨ef, h1, by rw [h2]; omega⟩
  · intro p1 hp1 p2 hp2 heq
    obtain ⟨e1, hrd1, hpres1⟩ := hp1
    obtain ⟨e2, hrd2, hpres2⟩ := hp2
    obtain ⟨ef1, h1, h2⟩ := hfwd p1 e1 hrd1 hpres1
    obtain ⟨ef2, h3, h4⟩ := hfwd p2 e2 hrd2 hpres2
    obtain ⟨-, -, pe1⟩ := rd_some hrd1
    obtain ⟨-, -, pe2⟩ := rd_some hrd2
    subst pe1 pe2
    have heq1 : (get S.pgt p1).frame = (get S.pgt p2).frame := heq
    rw [heq1, h3, Option.some.injEq] at h1
    rw [← h2, ← h4, h1]
  · intro f hf
    obtain ⟨ef, hrd, hne⟩ := hf
    obtain ⟨e, h1, h2, h3⟩ := hbwd f ef hrd hne
    obtain ⟨-, -, pe⟩ := rd_some h1
    subst pe
    exact ⟨ef.page, ⟨_, h1, h2⟩, h3⟩
  · intro p e hrd
    obtain ⟨p0, p1, pe⟩ := rd_some hrd
    subst pe
    by_cases hz : (get S.pgt p).present = 0
    · exact Or.inl hz
    · exact Or.inr (hinv.mapped.pres p p0 (by omega) hz).1

/-- C3 in the FIFO state `fifoFull`, where the pages 0 and 1 hold the frames
0 and 1. -/
theorem C3_witness :
    Set.BijOn (fun p => (get fifoFull.pgt p).frame) (presentPages fifoFull)
      (boundFrames fifoFull) ∧
    (∀ p e, rd fifoFull.pgt p = some e → e.present = 1 →
      ∃ ef, rd fifoFull.frt e.frame = some ef ∧ ef.page = p) ∧
    (∀ f ef, rd fifoFull.frt f = some ef → ef.page ≠ -1 →
      ∃ e, rd fifoFull.pgt ef.page = some e ∧ e.present = 1 ∧ e.frame = f) ∧
    (∀ p e, rd fifoFull.pgt p = some e → e.present = 0 ∨ e.present = 1) :=
  C3_bijection Fifo.policy mem_variants_fifo fifoFull reachable_fifoFull

/-! ## C4: capacity -/

/-- C4: in each of the three variants, in every state reachable from
`init_tables` through calls of `sim_mmu`, the free ring closes, and the number
of its frames plus the number of frames bound to a page is `numframes`. -/
theorem C4_capacity (P : Policy) (hP : P ∈ variants) (S : ssystem) (hr : Reachable P S) :
    ∃ c, freeRingLength S = some c ∧ (c : Int) + (boundCount S : Int) = S.numframes := by
  obtain ⟨ring, hs⟩ := variants_sound hP
  obtain ⟨k, hinv⟩ := reachable_inv hs hr
  have hk0 := hinv.mapped.k_nonneg
  have hk1 := hinv.mapped.k_le
  refine ⟨_, freeRingLength_inv hinv, ?_⟩
  rw [boundCount_inv hinv]
  omega

/-- C4 in the state `wideTwo`, reached by two faults of the LRU variant: one
free frame and two frames bound. -/
theorem C4_witness :
    Reachable Lru.policy wideTwo ∧
    ∃ c, freeRingLength wideTwo = some c ∧
      (c : Int) + (boundCount wideTwo : Int) = wideTwo.numframes :=
  ⟨reachable_wideTwo, C4_capacity Lru.policy mem_variants_lru wideTwo reachable_wideTwo⟩

/-! ## C5: the order of the evictions of the FIFO variant -/

/-- C5 fails on the code: with 2 frames the faults on the pages 0, 1, 2, 3
install the page 2 at the third fault and evict it at the fourth, while the
page 1, installed by the second fault, stays. -/
theorem C5_fourth_fault_evicts_newest :
    sim_run Fifo.policy start142 [(0, 'R'), (1, 'R'), (2, 'R')] =
      some ([0, 1, 0], fifoThird) ∧
    (get fifoThird.pgt 1).present = 1 ∧ (get fifoThird.pgt 2).present = 1 ∧
    Fifo.choose_page_to_be_replaced fifoThird = some (2, fifoThird) ∧
    sim_mmu Fifo.policy fifoThird 3 'R' = some (0, fifoFourth) ∧
    fifoFourth.numpagefaults = 4 ∧
    (get fifoFourth.pgt 1).present = 1 ∧ (get fifoFourth.pgt 2).present = 0 := by
  decide

/-! ## C6: the victim of the LRU variant -/

/-- C6: in the LRU variant, in a state with `numframes > 0` in which every
frame holds a valid page (whose timestamp is an `unsigned` value),
`choose_page_to_be_replaced` returns the page of the frame `f` that is the
first of the frames of least timestamp, and leaves the state as it was. -/
theorem C6_lru_victim (S : ssystem) (hn : 0 < S.numframes)
    (hb : ∀ g, 0 ≤ g → g < S.numframes →
      ∃ e ep, rd S.frt g = some e ∧ rd S.pgt e.page = some ep ∧ ep.timestamp < 4294967296) :
    ∃ f e, 0 ≤ f ∧ f < S.numframes ∧ rd S.frt f = some e ∧
      Lru.choose_page_to_be_replaced S = some (e.page, S) ∧
      (∀ g, 0 ≤ g → g < S.numframes → tsOf S f ≤ tsOf S g) ∧
      (∀ g, 0 ≤ g → g < f → tsOf S f < tsOf S g) := by
  obtain ⟨f, hf0, hf1, hch, hmin, hfirst⟩ := Lru.choose_frame_spec S hn hb
  obtain ⟨e, -, he, -⟩ := hb f hf0 hf1
  have hget := (rd_some he).2.2
  refine ⟨f, e, hf0, hf1, he, ?_, hmin, hfirst⟩
  unfold Lru.choose_page_to_be_replaced
  rw [hch, Option.map_some', hget]

/-- C6 in the state `stamped` (timestamps 5, 3, 3 in the frames 0, 1, 2). -/
theorem C6_witness :
    ∃ f e, 0 ≤ f ∧ f < stamped.numframes ∧ rd stamped.frt f = some e ∧
      Lru.choose_page_to_be_replaced stamped = some (e.page, stamped) ∧
      (∀ g, 0 ≤ g → g < stamped.numframes → tsOf stamped f ≤ tsOf stamped g) ∧
      (∀ g, 0 ≤ g → g < f → tsOf stamped f < tsOf stamped g) :=
  C6_lru_victim stamped (by decide) (fun g h0 h1 => by
    have h2 : g < 3 := h1
    have h3 : g = 0 ∨ g = 1 ∨ g = 2 := by omega
    rcases h3 with h | h | h
    · subst h; exact ⟨_, _, rfl, rfl, by decide⟩
    · subst h; exact ⟨_, _, rfl, rfl, by decide⟩
    · subst h; exact ⟨_, _, rfl, rfl, by decide⟩)


/-! ## C7: the walk of the second-chance variant is bounded -/

/-- C7: in the second-chance variant, in a state whose occupied ring is a
cycle of the `numframes` frames `gs`, each holding a valid page,
`choose_page_to_be_replaced` returns after probing `k <= numframes` frames;
it leaves the ring as it was, and the page of some frame of the ring has
`referenced = 0` in the state left. -/
theorem C7_second_chance_bound (S : ssystem) (gs : List Int) (h : OccupiedRing S gs) :
    ∃ v S1 k, Fifo2c.choose_probes S = some (v, S1, k) ∧
      Fifo2c.choose_page_to_be_replaced S = some (v, S1) ∧
      (k : Int) ≤ S.numframes ∧ OccupiedRing S1 gs ∧
      ∃ g ∈ gs, ∃ e ep, rd S1.frt g = some e ∧ rd S1.pgt e.page = some ep ∧
        ep.referenced = 0 := by
  obtain ⟨hlo, hg⟩ := h.closure
  have hn := h.nonempty
  obtain ⟨r, S1, k, hw, hk, e1, e2, e3, e4, -, e6⟩ :=
    choose_walk_spec gs S.numframes.toNat S.listoccupied S hlo hg
  obtain ⟨l0, l1, -, -, l4⟩ := hg _ hlo
  obtain ⟨f0, f1, p0, p1, -⟩ := hg _ l4
  have hring : OccupiedRing S1 gs :=
    { nonempty := by rw [e4]; exact hn
      walk := by rw [e1, e3, e4]; exact h.walk
      nodup := h.nodup
      closed := by rw [e3]; exact h.closed
      pages := fun g hgm => by
        obtain ⟨a1, a2, a3, a4, -⟩ := hg g hgm
        rw [e1]
        exact ⟨_, _, rd_of_range _ a1 a2, rd_of_range _ a3 (by rw [e2]; exact a4)⟩ }
  have hlast : ∃ g ∈ gs, ∃ e ep, rd S1.frt g = some e ∧ rd S1.pgt e.page = some ep ∧
      ep.referenced = 0 :=
    ⟨_, l4, _, _, by rw [e1]; exact rd_of_range _ f0 f1,
      rd_of_range _ p0 (by rw [e2]; exact p1), e6 (by omega)⟩
  have hprobes : ∃ v, Fifo2c.choose_probes S = some (v, S1, k) := by
    unfold Fifo2c.choose_probes
    rw [hw, Option.some_bind]
    cases r with
    | some page => exact ⟨page, rfl⟩
    | none =>
      dsimp only
      rw [e1, e3, rd_of_range _ l0 l1, Option.map_some']
      exact ⟨_, rfl⟩
  obtain ⟨v, hv⟩ := hprobes
  refine ⟨v, S1, k, hv, ?_, by omega, hring, hlast⟩
  unfold Fifo2c.choose_page_to_be_replaced
  rw [hv, Option.map_some']

/-- C7 in the state `marked`, whose ring holds the frames 0 and 1 with both
pages marked referenced. -/
theorem C7_witness :
    ∃ v S1 k, Fifo2c.choose_probes marked = some (v, S1, k) ∧
      Fifo2c.choose_page_to_be_replaced marked = some (v, S1) ∧
      (k : Int) ≤ marked.numframes ∧ OccupiedRing S1 [0, 1] ∧
      ∃ g ∈ [0, 1], ∃ e ep, rd S1.frt g = some e ∧ rd S1.pgt e.page = some ep ∧
        ep.referenced = 0 :=
  C7_second_chance_bound marked [0, 1]
    { nonempty := by decide
      walk := by decide
      nodup := by decide
      closed := by decide
      pages := fun g hg => by
        rw [List.mem_cons, List.mem_singleton] at hg
        rcases hg with h | h
        · subst h; exact ⟨_, _, rfl, rfl⟩
        · subst h; exact ⟨_, _, rfl, rfl⟩ }

/-! ## C8: a run of the FIFO variant -/

/-- C8: in the FIFO variant with page size 1, 2 frames, 4 pages and zeroed
counters, the reads of the addresses 0, 1, 2 after `init_tables` leave
`numpagefaults = 3` and `numillegalrefs = 0`; at the third call the page 0
holds the frame 0 and is the page chosen for eviction; afterwards it is not
present, the page 2 holds the frame 0, and the third call returns 0. -/
theorem C8_fifo_scenario :
    init_tables (allocated 1 4 2) = some start142 ∧
    sim_run Fifo.policy start142 [(0, 'R'), (1, 'R')] = some ([0, 1], fifoFull) ∧
    (get fifoFull.pgt 0).present = 1 ∧ (get fifoFull.pgt 0).frame = 0 ∧
    Fifo.choose_page_to_be_replaced fifoFull = some (0, fifoFull) ∧
    sim_mmu Fifo.policy fifoFull 2 'R' = some (0, fifoThird) ∧
    fifoThird.numpagefaults = 3 ∧ fifoThird.numillegalrefs = 0 ∧
    (get fifoThird.pgt 0).present = 0 ∧
    (get fifoThird.pgt 2).present = 1 ∧ (get fifoThird.pgt 2).frame = 0 ∧
    (get fifoThird.frt 0).page = 2 := by
  decide

/-! ## C9: a run of the LRU variant -/

/-- C9 fails on the code: in the LRU variant with 2 frames and 3 pages, after
the writes to the pages 0, 1, 0 every timestamp is still 0 (the clock went to
the member `clock`), and the write to the page 2 faults and evicts the page 0
of frame 0; the page 1 stays present. -/
theorem C9_lru_evicts_page_0 :
    (init_tables (allocated 1 3 2)).bind
      (fun S => sim_run Lru.policy S [(0, 'W'), (1, 'W'), (0, 'W')]) =
      some ([0, 1, 0], lruThird) ∧
    (get lruThird.pgt 0).timestamp = 0 ∧ (get lruThird.pgt 1).timestamp = 0 ∧
    (get lruThird.pgt 0).clock = 2 ∧ (get lruThird.pgt 1).clock = 1 ∧
    Lru.choose_page_to_be_replaced lruThird = some (0, lruThird) ∧
    sim_mmu Lru.policy lruThird 2 'W' = some (0, lruFourth) ∧
    lruFourth.numpagefaults = lruThird.numpagefaults + 1 ∧
    (get lruFourth.pgt 0).present = 0 ∧ (get lruFourth.pgt 1).present = 1 ∧
    (get lruFourth.pgt 2).present = 1 ∧ (get lruFourth.pgt 2).frame = 0 := by
  decide

/-! ## C10: what the fault handler leaves -/

/-- C10: in each of the three variants, for every state reachable from
`init_tables` through calls of `sim_mmu` and every address whose page `p` is in
the page table and not present, `handle_page_fault` returns, `numpagefaults`
is one more, and `p` is present, bound to a frame `f` with `frt[f].page = p`,
with `modified = 0` and `referenced = 0`. -/
theorem C10_fault_postcondition (P : Policy) (hP : P ∈ variants) (S : ssystem)
    (hr : Reachable P S) (virtual_address : Nat) (e : spage)
    (he : rd S.pgt ((virtual_address : Int) / S.pagsz) = some e) (hnp : e.present = 0) :
    ∃ S1 e1 ef, handle_page_fault P S virtual_address = some S1 ∧
      S1.numpagefaults = S.numpagefaults + 1 ∧
      rd S1.pgt ((virtual_address : Int) / S.pagsz) = some e1 ∧ e1.present = 1 ∧
      rd S1.frt e1.frame = some ef ∧ ef.page = (virtual_address : Int) / S.pagsz ∧
      e1.modified = 0 ∧ e1.referenced = 0 := by
  obtain ⟨ring, hs⟩ := variants_sound hP
  obtain ⟨k, hinv⟩ := reachable_inv hs hr
  obtain ⟨p0, p1, pe⟩ := rd_some he
  subst pe
  have hpl := hinv.cfg.pgt_len
  have hl : 0 ≤ (virtual_address : Int) / S.pagsz ∧
      (virtual_address : Int) / S.pagsz < S.numpags := ⟨p0, by omega⟩
  obtain ⟨S1, k1, e1, e2, e3, -, e5, -, e7, e8⟩ := handle_page_fault_spec hs hinv hl hnp
  have hpl1 := e2.cfg.pgt_len
  have hfl1 := e2.cfg.frt_len
  have hk1 := e2.mapped.k_le
  obtain ⟨-, f0, f1, f2⟩ := e2.mapped.pres _ hl.1 (by rw [e5]; exact hl.2)
    (by rw [e7]; decide)
  exact ⟨S1, _, _, e1, e3, rd_of_range _ hl.1 (by rw [hpl1, e5]; exact hl.2), e7,
    rd_of_range _ f0 (by omega), f2, e8,
    e2.mapped.refd _ hl.1 (by rw [e5]; exact hl.2)⟩

/-- C10 at the address 2 in the FIFO state `fifoFull`, where the page 2 is
not present and a page has to be evicted. -/
theorem C10_witness :
    ∃ S1 e1 ef, handle_page_fault Fifo.policy fifoFull 2 = some S1 ∧
      S1.numpagefaults = fifoFull.numpagefaults + 1 ∧
      rd S1.pgt (((2 : Nat) : Int) / fifoFull.pagsz) = some e1 ∧ e1.present = 1 ∧
      rd S1.frt e1.frame = some ef ∧ ef.page = ((2 : Nat) : Int) / fifoFull.pagsz ∧
      e1.modified = 0 ∧ e1.referenced = 0 :=
  C10_fault_postcondition Fifo.policy mem_variants_fifo fifoFull reachable_fifoFull 2
    ⟨0, 0, 0, 0, 0, 0⟩ (by decide) (by decide)


/-! ## C11: the victim is always defined -/

/-- With an empty free list every frame is bound. -/
theorem inv_full_of_no_free {ring : Bool} {S : ssystem} {k : Int} (h : Inv ring S k)
    (hfree : S.listfree = -1) : k = S.numframes := by
  have hk := h.mapped.k_le
  have hn := h.cfg.numframes_pos
  by_contra hne
  have hlf := (h.free.some_free (by omega)).1
  omega

/-- C11: in a state reachable from `init_tables` with `listfree = -1`: in the
FIFO and the second-chance variant `listoccupied` is a frame (not -1), the
frame `frt[listoccupied].next` holds a present page, and
`choose_page_to_be_replaced` returns; in the LRU variant every frame holds a
present page and `choose_page_to_be_replaced` returns. -/
theorem C11_victim_defined (S : ssystem) (hfree : S.listfree = -1) :
    (Reachable Fifo.policy S →
      S.listoccupied ≠ -1 ∧
      ∃ el ef ep r, rd S.frt S.listoccupied = some el ∧ rd S.frt el.next = some ef ∧
        rd S.pgt ef.page = some ep ∧ ep.present = 1 ∧
        Fifo.choose_page_to_be_replaced S = some r) ∧
    (Reachable Fifo2c.policy S →
      S.listoccupied ≠ -1 ∧
      ∃ el ef ep r, rd S.frt S.listoccupied = some el ∧ rd S.frt el.next = some ef ∧
        rd S.pgt ef.page = some ep ∧ ep.present = 1 ∧
        Fifo2c.choose_page_to_be_replaced S = some r) ∧
    (Reachable Lru.policy S →
      (∀ f, 0 ≤ f → f < S.numframes →
        ∃ ef ep, rd S.frt f = some ef ∧ rd S.pgt ef.page = some ep ∧ ep.present = 1) ∧
      ∃ r, Lru.choose_page_to_be_replaced S = some r) := by
  have hring : ∀ k, Inv true S k →
      S.listoccupied ≠ -1 ∧
      ∃ el ef ep, rd S.frt S.listoccupied = some el ∧ rd S.frt el.next = some ef ∧
        rd S.pgt ef.page = some ep ∧ ep.present = 1 ∧
        el.next = (get S.frt S.listoccupied).next ∧ ef.page = (get S.frt el.next).page := by
    intro k hinv
    have hk := inv_full_of_no_free hinv hfree
    subst hk
    have hn := hinv.cfg.numframes_pos
    have hfl := hinv.cfg.frt_len
    have hpl := hinv.cfg.pgt_len
    have hocc := hinv.occ
    unfold Occ at hocc
    simp only [if_true] at hocc
    obtain ⟨-, o2, o3⟩ := hocc
    obtain ⟨l0, l1⟩ := o2 hn
    obtain ⟨f0, f1⟩ := o3 _ l0 l1
    obtain ⟨b0, b1, b2, -⟩ := hinv.mapped.bound _ f0 f1
    exact ⟨by omega, _, _, _, rd_of_range _ l0 (by omega), rd_of_range _ f0 (by omega),
      rd_of_range _ b0 (by omega), b2, rfl, rfl⟩
  refine ⟨fun hr => ?_, fun hr => ?_, fun hr => ?_⟩
  · obtain ⟨k, hinv⟩ := reachable_inv fifo_sound hr
    obtain ⟨h1, el, ef, ep, r1, r2, r3, r4, -, -⟩ := hring k hinv
    refine ⟨h1, el, ef, ep, (ef.page, S), r1, r2, r3, r4, ?_⟩
    unfold Fifo.choose_page_to_be_replaced
    rw [r1, Option.some_bind]
    dsimp only
    rw [r2, Option.some_bind]
  · obtain ⟨k, hinv⟩ := reachable_inv fifo2c_sound hr
    obtain ⟨h1, el, ef, ep, r1, r2, r3, r4, -, -⟩ := hring k hinv
    have hk := inv_full_of_no_free hinv hfree
    subst hk
    refine ⟨h1, el, ef, ep, ((get S.frt (get S.frt S.listoccupied).next).page, S),
      r1, r2, r3, r4, ?_⟩
    unfold Fifo2c.choose_page_to_be_replaced
    rw [fifo2c_choose_first S hinv, Option.map_some']
  · obtain ⟨k, hinv⟩ := reachable_inv lru_sound hr
    have hk := inv_full_of_no_free hinv hfree
    subst hk
    have hn := hinv.cfg.numframes_pos
    have hfl := hinv.cfg.frt_len
    have hpl := hinv.cfg.pgt_len
    have hb : ∀ g, 0 ≤ g → g < S.numframes →
        0 ≤ (get S.frt g).page ∧ (get S.frt g).page < (S.pgt.length : Int) := by
      intro g hg0 hg1
      have := hinv.mapped.bound g hg0 hg1
      omega
    refine ⟨fun f hf0 hf1 => ?_, ?_⟩
    · obtain ⟨b0, b1, b2, -⟩ := hinv.mapped.bound f hf0 hf1
      exact ⟨_, _, rd_of_range _ hf0 (by omega), rd_of_range _ b0 (by omega), b2⟩
    · obtain ⟨b0, b1⟩ := hb 0 (le_refl _) hn
      obtain ⟨r, hr1, -⟩ := lru_choose_scan_total S
        ((get S.frt 0).page, 0, toInt (get S.pgt (get S.frt 0).page).timestamp) hb hfl
        ⟨rfl, le_refl _, hn⟩ (S.numframes - 1).toNat (by omega)
      refine ⟨(r.1, S), ?_⟩
      unfold Lru.choose_page_to_be_replaced Lru.choose_frame
      simp only [rd_of_range S.frt (le_refl _) (by omega : (0 : Int) < S.frt.length),
        rd_of_range S.pgt b0 b1, Option.some_bind, hr1, Option.map_some']

/-- C11 in the FIFO state `fifoFull`, where both frames are bound. -/
theorem C11_witness :
    Reachable Fifo.policy fifoFull ∧
    ((Reachable Fifo.policy fifoFull →
      fifoFull.listoccupied ≠ -1 ∧
      ∃ el ef ep r, rd fifoFull.frt fifoFull.listoccupied = some el ∧
        rd fifoFull.frt el.next = some ef ∧
        rd fifoFull.pgt ef.page = some ep ∧ ep.present = 1 ∧
        Fifo.choose_page_to_be_replaced fifoFull = some r) ∧
    (Reachable Fifo2c.policy fifoFull →
      fifoFull.listoccupied ≠ -1 ∧
      ∃ el ef ep r, rd fifoFull.frt fifoFull.listoccupied = some el ∧
        rd fifoFull.frt el.next = some ef ∧
        rd fifoFull.pgt ef.page = some ep ∧ ep.present = 1 ∧
        Fifo2c.choose_page_to_be_replaced fifoFull = some r) ∧
    (Reachable Lru.policy fifoFull →
      (∀ f, 0 ≤ f → f < fifoFull.numframes →
        ∃ ef ep, rd fifoFull.frt f = some ef ∧ rd fifoFull.pgt ef.page = some ep ∧
          ep.present = 1) ∧
      ∃ r, Lru.choose_page_to_be_replaced fifoFull = some r)) :=
  ⟨reachable_fifoFull, C11_victim_defined fifoFull (by decide)⟩

/-! ## C12: what `init_tables` leaves -/

/-- The tables `init_tables` leaves, on a page table of `numpags` entries and
a frames table of `numframes > 0` entries. -/
theorem init_tables_frames (S0 : ssystem) (hn : 0 < S0.numframes)
    (hpl : (S0.pgt.length : Int) = S0.numpags)
    (hl : (S0.frt.length : Int) = S0.numframes) :
    ∃ S, init_tables S0 = some S ∧
      S.pgt = List.replicate S0.numpags.toNat zeroPage ∧
      S.frt.length = S0.frt.length ∧
      (∀ j : Int, 0 ≤ j → j < S0.numframes →
        get S.frt j = { page := -1, next := if j = S0.numframes - 1 then 0 else j + 1 }) ∧
      S.listfree = S0.numframes - 1 ∧ S.listoccupied = -1 ∧ S.clock = 0 := by
  obtain ⟨t, ht, hlen, hget⟩ := init_frames_spec S0.frt (S0.numframes - 1).toNat (by omega)
  have hi : (((S0.numframes - 1).toNat : Nat) : Int) = S0.numframes - 1 := by omega
  unfold init_tables
  simp only [memset_sized _ _ hpl, ht, Option.some_bind, wr_eq, hi]
  rw [if_pos ⟨by omega, by omega⟩]
  refine ⟨_, rfl, rfl, ?_, fun j hj0 hj1 => ?_, rfl, rfl, rfl⟩
  · simp only [length_upd, hlen]
  · simp only [get_upd, hget, hi]
    by_cases hj : j = S0.numframes - 1
    · rw [if_pos ⟨hj, by omega, by omega⟩, if_pos hj]
    · rw [if_neg (fun h => hj h.1), if_pos ⟨hj0, by omega⟩, if_neg hj]

/-- C12: for `numpags > 0` and `numframes = n > 0`, on a page table of
`numpags` entries and a frames table of `n` entries, whatever they hold,
`init_tables` returns and leaves every page entry with `present`, `modified`,
`referenced` and `timestamp` 0, every frame with `page = -1`, the links
`frt[i].next = i + 1` for `i < n - 1` and `frt[n-1].next = 0`,
`listfree = n - 1`, `listoccupied = -1` and `clock = 0`. -/
theorem C12_init_tables (S0 : ssystem) (hp : 0 < S0.numpags) (hn : 0 < S0.numframes)
    (hpl : (S0.pgt.length : Int) = S0.numpags)
    (hl : (S0.frt.length : Int) = S0.numframes) :
    ∃ S, init_tables S0 = some S ∧
      (S.pgt.length : Int) = S0.numpags ∧
      (∀ p, 0 ≤ p → p < S0.numpags →
        ∃ e, rd S.pgt p = some e ∧ e.present = 0 ∧ e.modified = 0 ∧ e.referenced = 0 ∧
          e.timestamp = 0) ∧
      (S.frt.length : Int) = S0.numframes ∧
      (∀ f, 0 ≤ f → f < S0.numframes → ∃ e, rd S.frt f = some e ∧ e.page = -1) ∧
      (∀ i, 0 ≤ i → i < S0.numframes - 1 → ∃ e, rd S.frt i = some e ∧ e.next = i + 1) ∧
      (∃ e, rd S.frt (S0.numframes - 1) = some e ∧ e.next = 0) ∧
      S.listfree = S0.numframes - 1 ∧ S.listoccupied = -1 ∧ S.clock = 0 := by
  obtain ⟨S, h0, h1, h2, h3, h4, h5, h6⟩ := init_tables_frames S0 hn hpl hl
  have hpl : (S.pgt.length : Int) = S0.numpags := by
    rw [h1, List.length_replicate]; omega
  have hfl : (S.frt.length : Int) = S0.numframes := by rw [h2]; exact hl
  refine ⟨S, h0, hpl, fun p hp0 hp1 => ?_, hfl, fun f hf0 hf1 => ?_, fun i hi0 hi1 => ?_, ?_,
    h4, h5, h6⟩
  · refine ⟨_, rd_of_range _ hp0 (by omega), ?_⟩
    rw [h1, get_replicate_zero]
    exact ⟨rfl, rfl, rfl, rfl⟩
  · refine ⟨_, rd_of_range _ hf0 (by omega), ?_⟩
    rw [h3 f hf0 hf1]
  · refine ⟨_, rd_of_range _ hi0 (by omega), ?_⟩
    rw [h3 i hi0 (by omega), if_neg (by omega)]
  · refine ⟨_, rd_of_range _ (by omega) (by omega), ?_⟩
    rw [h3 _ (by omega) (by omega), if_pos rfl]

/-- C12 on the tables of the state `fifoFull`, 4 page entries of which two are
present and 2 frames bound to them. -/
theorem C12_witness :
    ∃ S, init_tables fifoFull = some S ∧
      (S.pgt.length : Int) = fifoFull.numpags ∧
      (∀ p, 0 ≤ p → p < fifoFull.numpags →
        ∃ e, rd S.pgt p = some e ∧ e.present = 0 ∧ e.modified = 0 ∧ e.referenced = 0 ∧
          e.timestamp = 0) ∧
      (S.frt.length : Int) = fifoFull.numframes ∧
      (∀ f, 0 ≤ f → f < fifoFull.numframes →
        ∃ e, rd S.frt f = some e ∧ e.page = -1) ∧
      (∀ i, 0 ≤ i → i < fifoFull.numframes - 1 →
        ∃ e, rd S.frt i = some e ∧ e.next = i + 1) ∧
      (∃ e, rd S.frt (fifoFull.numframes - 1) = some e ∧ e.next = 0) ∧
      S.listfree = fifoFull.numframes - 1 ∧ S.listoccupied = -1 ∧ S.clock = 0 :=
  C12_init_tables fifoFull (by decide) (by decide) (by decide) (by decide)


/-! ## C13: the second-chance variant never marks a page referenced -/

/-- C13 fails on the code: in the second-chance variant the first read and the
first write of the page 0 (a fault each), and the read and the write of the
page 1 already present in `fifoFull` (a hit each), all return and leave
`referenced = 0` in the entry of the page. -/
theorem C13_referenced_stays_0 :
    (sim_mmu Fifo2c.policy start142 0 'R').map (fun r => (get r.2.pgt 0).referenced) =
      some 0 ∧
    (sim_mmu Fifo2c.policy start142 0 'W').map (fun r => (get r.2.pgt 0).referenced) =
      some 0 ∧
    sim_run Fifo2c.policy start142 [(0, 'R'), (1, 'R')] = some ([0, 1], fifoFull) ∧
    (sim_mmu Fifo2c.policy fifoFull 1 'R').map (fun r => (get r.2.pgt 1).referenced) =
      some 0 ∧
    (sim_mmu Fifo2c.policy fifoFull 1 'W').map (fun r => (get r.2.pgt 1).referenced) =
      some 0 := by
  decide

/-! ## C14: the LRU variant stamps the member `clock` -/

/-- C14 fails on the code: in the LRU state `lruThird` (clock 3) the write
reference of the page 1 advances the clock to 4 and stores 3 in the member
`clock` of the entry; its `timestamp` stays 0.  With the clock at 4294967295
the clock wraps to 0, and again the `timestamp` stays 0.  No timestamp of
another page changes, and a read reference changes neither. -/
theorem C14_timestamp_not_written :
    (Lru.reference_page lruThird 1 'W').map
      (fun S => ((get S.pgt 1).timestamp, (get S.pgt 1).clock, S.clock,
        (get S.pgt 0).timestamp, (get S.pgt 2).timestamp)) = some (0, 3, 4, 0, 0) ∧
    (Lru.reference_page lruLast 1 'W').map
      (fun S => ((get S.pgt 1).timestamp, (get S.pgt 1).clock, S.clock)) =
      some (0, 4294967295, 0) ∧
    (Lru.reference_page lruThird 1 'R').map
      (fun S => ((get S.pgt 1).timestamp, S.clock)) = some (0, 3) := by
  decide

/-! ## C16: the FIFO ring after an eviction -/

/-- C16 fails on the code: in the FIFO state `fifoFull` the occupied ring is
`[0, 1]` and the victim is the page 0 of the frame 0; `replace_page` leaves
`listoccupied = 0` with `frt[0].next = 0`, so the ring is `[0]`: the frame 1
is no longer reached, and the next victim is the page just installed. -/
theorem C16_ring_collapses :
    ringOf fifoFull.frt fifoFull.listoccupied = some [0, 1] ∧
    Fifo.choose_page_to_be_replaced fifoFull = some (0, fifoFull) ∧
    (Fifo.replace_page fifoFull 0 2).map
      (fun S => (S.listoccupied, (get S.frt 0).next, (get S.frt 1).next,
        ringOf S.frt S.listoccupied)) = some (0, 0, 0, some [0]) ∧
    ((Fifo.replace_page fifoFull 0 2).bind Fifo.choose_page_to_be_replaced).map
      (fun r => r.1) = some 2 := by
  decide


/-! ## C15: the count of the pages written back -/

/-- An assignment to a page entry changes the page table only. -/
theorem setPg_some {S S1 : ssystem} {p : Int} {f : spage → spage}
    (h : setPg S p f = some S1) :
    0 ≤ p ∧ p < (S.pgt.length : Int) ∧
    S1 = { S with pgt := upd S.pgt p (f (get S.pgt p)) } := by
  rw [setPg_eq] at h
  split at h
  · rename_i hc
    simp only [Option.some.injEq] at h
    exact ⟨hc.1, hc.2, h.symm⟩
  · simp at h

/-- An assignment to a frame entry changes the frames table only. -/
theorem setFr_some {S S1 : ssystem} {i : Int} {f : sframe → sframe}
    (h : setFr S i f = some S1) :
    0 ≤ i ∧ i < (S.frt.length : Int) ∧
    S1 = { S with frt := upd S.frt i (f (get S.frt i)) } := by
  rw [setFr_eq] at h
  split at h
  · rename_i hc
    simp only [Option.some.injEq] at h
    exact ⟨hc.1, hc.2, h.symm⟩
  · simp at h

/-- The state after the write-back count of `replace_page`. -/
theorem writeback_state (S : ssystem) (c : Prop) [Decidable c] :
    ∃ Sw, (if c then { S with numpgwriteback := S.numpgwriteback + 1 } else S) = Sw ∧
      Sw.pgt = S.pgt ∧ Sw.frt = S.frt ∧ Sw.listoccupied = S.listoccupied ∧
      Sw.numpgwriteback = S.numpgwriteback + (if c then 1 else 0) := by
  by_cases hc : c
  · rw [if_pos hc, if_pos hc]
    exact ⟨_, rfl, rfl, rfl, rfl, rfl⟩
  · rw [if_neg hc, if_neg hc]
    exact ⟨_, rfl, rfl, rfl, rfl, rfl⟩

/-- The victim is absent after the two assignments to the page table, when
the new page is another page. -/
theorem victim_absent (t : List spage) (v newpage : Int) (e1 : spage)
    (hv0 : 0 ≤ v) (hv1 : v < (t.length : Int)) (hne : newpage ≠ v) :
    (get (upd (upd t v { (get t v) with present := 0 }) newpage e1) v).present = 0 := by
  rw [get_upd_ne _ _ _ _ (Ne.symm hne), get_upd_same _ _ _ hv0 hv1]

theorem setPg_wb {S S1 : ssystem} {p : Int} {f : spage → spage}
    (h : setPg S p f = some S1) : S1.numpgwriteback = S.numpgwriteback := by
  rw [(setPg_some h).2.2]

theorem setFr_wb {S S1 : ssystem} {i : Int} {f : sframe → sframe}
    (h : setFr S i f = some S1) : S1.numpgwriteback = S.numpgwriteback := by
  rw [(setFr_some h).2.2]

/-- Function `occupy_free_frame` of the FIFO variants leaves the count of the
pages written back. -/
theorem fifo_occupy_wb {T T1 : ssystem} {frame page : Int}
    (h : Fifo.occupy_free_frame T frame page = some T1) :
    T1.numpgwriteback = T.numpgwriteback := by
  unfold Fifo.occupy_free_frame at h
  simp only [Option.bind_eq_some] at h
  obtain ⟨A, hA, B, hB, h⟩ := h
  have hAB : B.numpgwriteback = T.numpgwriteback := by rw [setFr_wb hB, setPg_wb hA]
  split at h
  · simp only [Option.bind_eq_some, Option.some.injEq] at h
    obtain ⟨C, hC, h⟩ := h
    rw [← h]
    show C.numpgwriteback = _
    rw [setFr_wb hC, hAB]
  · simp only [Option.bind_eq_some, Option.some.injEq] at h
    obtain ⟨el, -, C, hC, D, hD, h⟩ := h
    rw [← h]
    show D.numpgwriteback = _
    rw [setFr_wb hD, setFr_wb hC, hAB]

theorem lru_occupy_wb {T T1 : ssystem} {frame page : Int}
    (h : Lru.occupy_free_frame T frame page = some T1) :
    T1.numpgwriteback = T.numpgwriteback := by
  unfold Lru.occupy_free_frame at h
  simp only [Option.bind_eq_some] at h
  obtain ⟨A, hA, hB⟩ := h
  rw [setFr_wb hB, setPg_wb hA]

theorem fifo_reference_wb {T T1 : ssystem} {page : Int} {op : Char}
    (h : Fifo.reference_page T page op = some T1) :
    T1.numpgwriteback = T.numpgwriteback := by
  unfold Fifo.reference_page at h
  split at h
  · simp only [Option.some.injEq] at h
    rw [← h]
  · split at h
    · simp only [Option.map_eq_some'] at h
      obtain ⟨A, hA, h⟩ := h
      rw [← h]
      show A.numpgwriteback = _
      exact setPg_wb hA
    · simp only [Option.some.injEq] at h
      rw [← h]

theorem lru_reference_wb {T T1 : ssystem} {page : Int} {op : Char}
    (h : Lru.reference_page T page op = some T1) :
    T1.numpgwriteback = T.numpgwriteback := by
  unfold Lru.reference_page at h
  split at h
  · simp only [Option.some.injEq] at h
    rw [← h]
  · split at h
    · simp only [Option.bind_eq_some, Option.map_eq_some'] at h
      obtain ⟨A, hA, B, hB, h⟩ := h
      rw [← h]
      show B.numpgwriteback = _
      rw [setPg_wb hB]
      show A.numpgwriteback = _
      exact setPg_wb hA
    · simp only [Option.some.injEq] at h
      rw [← h]

/-- The second-chance walk leaves the count of the pages written back. -/
theorem choose_walk_wb (c : Nat) (cur : Int) (S : ssystem) (r : Option Int) (S1 : ssystem)
    (k : Nat) (h : Fifo2c.choose_walk c cur S = some (r, S1, k)) :
    S1.numpgwriteback = S.numpgwriteback := by
  induction c generalizing cur S r k with
  | zero =>
    simp only [Fifo2c.choose_walk, Option.some.injEq, Prod.mk.injEq] at h
    rw [← h.2.1]
  | succ c ih =>
    simp only [Fifo2c.choose_walk, Option.bind_eq_some] at h
    obtain ⟨ec, -, ef, -, ep, -, h⟩ := h
    split at h
    · simp only [Option.some.injEq, Prod.mk.injEq] at h
      rw [← h.2.1]
    · simp only [Option.bind_eq_some, Option.map_eq_some'] at h
      obtain ⟨A, hA, ⟨x1, x2, x3⟩, hx, h⟩ := h
      simp only [Prod.mk.injEq] at h
      have := ih ec.next A x1 x3 (by rw [hx, h.2.1])
      rw [this, setPg_wb hA]

theorem fifo2c_choose_wb {T T1 : ssystem} {r : Int}
    (h : Fifo2c.choose_page_to_be_replaced T = some (r, T1)) :
    T1.numpgwriteback = T.numpgwriteback := by
  unfold Fifo2c.choose_page_to_be_replaced Fifo2c.choose_probes at h
  simp only [Option.map_eq_some', Option.bind_eq_some] at h
  obtain ⟨x, ⟨y, hy, hx⟩, h⟩ := h
  simp only [Prod.mk.injEq] at h
  have hw := choose_walk_wb _ _ _ y.1 y.2.1 y.2.2 hy
  split at hx
  · simp only [Option.some.injEq] at hx
    rw [← h.2, ← hx]
    exact hw
  · simp only [Option.map_eq_some'] at hx
    obtain ⟨el, -, hx⟩ := hx
    rw [← h.2, ← hx]
    exact hw

/-- In each variant `occupy_free_frame`, `reference_page` and
`choose_page_to_be_replaced` leave the count of the pages written back. -/
theorem policy_wb {P : Policy} (hP : P ∈ variants) (T T1 : ssystem) :
    (∀ frame page, P.occupy_free_frame T frame page = some T1 →
      T1.numpgwriteback = T.numpgwriteback) ∧
    (∀ page op, P.reference_page T page op = some T1 →
      T1.numpgwriteback = T.numpgwriteback) ∧
    (∀ r, P.choose_page_to_be_replaced T = some (r, T1) →
      T1.numpgwriteback = T.numpgwriteback) := by
  unfold variants at hP
  simp only [List.mem_cons, List.mem_singleton, List.mem_nil_iff, or_false] at hP
  rcases hP with h | h | h
  · subst h
    refine ⟨fun _ _ h => fifo_occupy_wb h, fun _ _ h => fifo_reference_wb h, fun r h => ?_⟩
    have h1 : Fifo.choose_page_to_be_replaced T = some (r, T1) := h
    unfold Fifo.choose_page_to_be_replaced at h1
    simp only [Option.bind_eq_some, Option.some.injEq, Prod.mk.injEq] at h1
    obtain ⟨el, -, ef, -, -, h2⟩ := h1
    rw [h2]
  · subst h
    exact ⟨fun _ _ h => fifo_occupy_wb h, fun _ _ h => fifo_reference_wb h,
      fun _ h => fifo2c_choose_wb h⟩
  · subst h
    refine ⟨fun _ _ h => lru_occupy_wb h, fun _ _ h => lru_reference_wb h, fun r h => ?_⟩
    have h1 : Lru.choose_page_to_be_replaced T = some (r, T1) := h
    unfold Lru.choose_page_to_be_replaced at h1
    simp only [Option.map_eq_some', Prod.mk.injEq] at h1
    obtain ⟨x, -, -, h2⟩ := h1
    rw [h2]

/-- The fault handler with a free frame leaves the count of the pages written
back. -/
theorem fault_free_wb {P : Policy} (hP : P ∈ variants) (T T1 : ssystem) (va : Nat)
    (hfree : T.listfree ≠ -1) (h : handle_page_fault P T va = some T1) :
    T1.numpgwriteback = T.numpgwriteback := by
  unfold handle_page_fault at h
  dsimp only at h
  split at h
  · simp at h
  · simp only [Option.bind_eq_some] at h
    obtain ⟨el, -, S2, hS2, h⟩ := h
    have h2 : S2.numpgwriteback = T.numpgwriteback := by
      split at hS2
      · simp only [Option.some.injEq] at hS2
        rw [← hS2]
      · simp only [Option.bind_eq_some] at hS2
        obtain ⟨ef, -, hS2⟩ := hS2
        rw [setFr_wb hS2]
    rw [(policy_wb hP S2 T1).1 _ _ h, h2]

/-- The MMU leaves the count of the pages written back on an illegal address
and on a page that is present. -/
theorem sim_mmu_wb {P : Policy} (hP : P ∈ variants) (T T1 : ssystem) (va : Nat) (op : Char)
    (a : Nat)
    (hc : (toInt (va / toUnsigned T.pagsz) < 0 ∨
        toInt (va / toUnsigned T.pagsz) ≥ T.numpags) ∨
      ∃ e, rd T.pgt (toInt (va / toUnsigned T.pagsz)) = some e ∧ e.present ≠ 0)
    (h : sim_mmu P T va op = some (a, T1)) :
    T1.numpgwriteback = T.numpgwriteback := by
  unfold sim_mmu at h
  dsimp only at h
  split at h
  · simp at h
  · split at h
    · simp only [Option.some.injEq, Prod.mk.injEq] at h
      rw [← h.2]
    · rename_i hleg
      rcases hc with hc | ⟨e, he, hp⟩
      · exact absurd hc hleg
      · rw [he, Option.some_bind, if_neg hp, Option.some_bind, he, Option.some_bind] at h
        simp only [Option.map_eq_some', Prod.mk.injEq] at h
        obtain ⟨S2, hS2, -, h⟩ := h
        rw [← h]
        exact (policy_wb hP T S2).2.1 _ _ hS2

/-- Claim C15: in each of the three variants, in a state where the present
victim `v`, the incoming page `newpage` (a page other than the victim, as in
the call of `handle_page_fault`) and the frame of `v` are inside the tables
(and, in the FIFO variant, `listoccupied` is a frame), `replace_page(v,
newpage)` returns, `numpgwriteback` is one more if `pgt[v].modified` is set and the same
otherwise, and `pgt[v].present = 0`.  No other operation changes
`numpgwriteback`: neither `occupy_free_frame`, `reference_page` and
`choose_page_to_be_replaced` of a variant, nor `handle_page_fault` with a free
frame, nor `sim_mmu` on an illegal address or on a page that is present. -/
theorem C15_writeback (S : ssystem) (v newpage : Int) (ev en : spage) (ef : sframe)
    (hv : rd S.pgt v = some ev) (hpres : ev.present ≠ 0) (hn : rd S.pgt newpage = some en)
    (hf : rd S.frt ev.frame = some ef) (hne : newpage ≠ v) :
    ((∃ el, rd S.frt S.listoccupied = some el) →
      ∃ S1, Fifo.replace_page S v newpage = some S1 ∧
        S1.numpgwriteback = S.numpgwriteback + (if ev.modified ≠ 0 then 1 else 0) ∧
        (get S1.pgt v).present = 0) ∧
    (∃ S1, Fifo2c.replace_page S v newpage = some S1 ∧
      S1.numpgwriteback = S.numpgwriteback + (if ev.modified ≠ 0 then 1 else 0) ∧
      (get S1.pgt v).present = 0) ∧
    (∃ S1, Lru.replace_page S v newpage = some S1 ∧
      S1.numpgwriteback = S.numpgwriteback + (if ev.modified ≠ 0 then 1 else 0) ∧
      (get S1.pgt v).present = 0) ∧
    (∀ P ∈ variants, ∀ (T T1 : ssystem),
      (∀ frame page, P.occupy_free_frame T frame page = some T1 →
        T1.numpgwriteback = T.numpgwriteback) ∧
      (∀ page op, P.reference_page T page op = some T1 →
        T1.numpgwriteback = T.numpgwriteback) ∧
      (∀ r, P.choose_page_to_be_replaced T = some (r, T1) →
        T1.numpgwriteback = T.numpgwriteback) ∧
      (∀ va, T.listfree ≠ -1 → handle_page_fault P T va = some T1 →
        T1.numpgwriteback = T.numpgwriteback) ∧
      (∀ va op a e, rd T.pgt (toInt (va / toUnsigned T.pagsz)) = some e → e.present ≠ 0 →
        sim_mmu P T va op = some (a, T1) → T1.numpgwriteback = T.numpgwriteback) ∧
      (∀ va op a, (toInt (va / toUnsigned T.pagsz) < 0 ∨
          toInt (va / toUnsigned T.pagsz) ≥ T.numpags) →
        sim_mmu P T va op = some (a, T1) → T1.numpgwriteback = T.numpgwriteback)) := by
  obtain ⟨v0, v1, hev⟩ := rd_some hv
  obtain ⟨n0, n1, -⟩ := rd_some hn
  obtain ⟨f0, f1, -⟩ := rd_some hf
  subst hev
  obtain ⟨Sw, hSw, w1, w2, w3, w4⟩ := writeback_state S ((get S.pgt v).modified ≠ 0)
  refine ⟨fun hlo => ?_, ?_, ?_, fun P hP T T1 => ?_⟩
  · obtain ⟨el, hel⟩ := hlo
    obtain ⟨l0, l1, -⟩ := rd_some hel
    unfold Fifo.replace_page
    rw [hv, Option.some_bind]
    dsimp only
    rw [hSw, setPg_of_range Sw _ v0 (by rw [w1]; exact v1), Option.some_bind,
      setPg_of_range _ _ n0 (by dsimp only; rw [length_upd, w1]; exact n1), Option.some_bind,
      setFr_of_range _ _ f0 (by dsimp only; rw [w2]; exact f1), Option.some_bind]
    dsimp only
    rw [rd_of_range _ (by rw [w3]; exact l0) (by rw [length_upd, w2, w3]; exact l1),
      Option.some_bind,
      setFr_of_range _ _ f0 (by dsimp only; rw [length_upd, w2]; exact f1), Option.some_bind]
    dsimp only
    rw [setFr_of_range _ _ (by rw [w3]; exact l0)
      (by dsimp only; simp only [length_upd]; rw [w2, w3]; exact l1), Option.some_bind]
    refine ⟨_, rfl, w4, ?_⟩
    dsimp only
    rw [victim_absent _ _ _ _ v0 (by rw [w1]; exact v1) hne]
  · unfold Fifo2c.replace_page
    rw [hv, Option.some_bind]
    dsimp only
    rw [hSw, setPg_of_range Sw _ v0 (by rw [w1]; exact v1), Option.some_bind,
      setPg_of_range _ _ n0 (by dsimp only; rw [length_upd, w1]; exact n1), Option.some_bind,
      setFr_of_range _ _ f0 (by dsimp only; rw [w2]; exact f1), Option.some_bind]
    refine ⟨_, rfl, w4, ?_⟩
    dsimp only
    rw [victim_absent _ _ _ _ v0 (by rw [w1]; exact v1) hne]
  · unfold Lru.replace_page
    rw [hv, Option.some_bind]
    dsimp only
    rw [hSw, setPg_of_range Sw _ v0 (by rw [w1]; exact v1), Option.some_bind,
      setPg_of_range _ _ n0 (by dsimp only; rw [length_upd, w1]; exact n1), Option.some_bind,
      setFr_of_range _ _ f0 (by dsimp only; rw [w2]; exact f1)]
    refine ⟨_, rfl, w4, ?_⟩
    dsimp only
    rw [victim_absent _ _ _ _ v0 (by rw [w1]; exact v1) hne]
  · obtain ⟨p1, p2, p3⟩ := policy_wb hP T T1
    exact ⟨p1, p2, p3, fun va hfree h => fault_free_wb hP T T1 va hfree h,
      fun va op a e he hp h => sim_mmu_wb hP T T1 va op a (Or.inr ⟨e, he, hp⟩) h,
      fun va op a hill h => sim_mmu_wb hP T T1 va op a (Or.inl hill) h⟩

/-- C15 in the FIFO state `fifoFull`: the victim 0, the new
page 2. -/
theorem C15_witness :
    ((∃ el, rd fifoFull.frt fifoFull.listoccupied = some el) →
      ∃ S1, Fifo.replace_page fifoFull 0 2 = some S1 ∧
        S1.numpgwriteback = fifoFull.numpgwriteback +
          (if (⟨1, 0, 0, 0, 0, 0⟩ : spage).modified ≠ 0 then 1 else 0) ∧
        (get S1.pgt 0).present = 0) ∧
    (∃ S1, Fifo2c.replace_page fifoFull 0 2 = some S1 ∧
      S1.numpgwriteback = fifoFull.numpgwriteback +
        (if (⟨1, 0, 0, 0, 0, 0⟩ : spage).modified ≠ 0 then 1 else 0) ∧
      (get S1.pgt 0).present = 0) ∧
    (∃ S1, Lru.replace_page fifoFull 0 2 = some S1 ∧
      S1.numpgwriteback = fifoFull.numpgwriteback +
        (if (⟨1, 0, 0, 0, 0, 0⟩ : spage).modified ≠ 0 then 1 else 0) ∧
      (get S1.pgt 0).present = 0) ∧
    (∀ P ∈ variants, ∀ (T T1 : ssystem),
      (∀ frame page, P.occupy_free_frame T frame page = some T1 →
        T1.numpgwriteback = T.numpgwriteback) ∧
      (∀ page op, P.reference_page T page op = some T1 →
        T1.numpgwriteback = T.numpgwriteback) ∧
      (∀ r, P.choose_page_to_be_replaced T = some (r, T1) →
        T1.numpgwriteback = T.numpgwriteback) ∧
      (∀ va, T.listfree ≠ -1 → handle_page_fault P T va = some T1 →
        T1.numpgwriteback = T.numpgwriteback) ∧
      (∀ va op a e, rd T.pgt (toInt (va / toUnsigned T.pagsz)) = some e → e.present ≠ 0 →
        sim_mmu P T va op = some (a, T1) → T1.numpgwriteback = T.numpgwriteback) ∧
      (∀ va op a, (toInt (va / toUnsigned T.pagsz) < 0 ∨
          toInt (va / toUnsigned T.pagsz) ≥ T.numpags) →
        sim_mmu P T va op = some (a, T1) → T1.numpgwriteback = T.numpgwriteback)) :=
  C15_writeback fifoFull 0 2 ⟨1, 0, 0, 0, 0, 0⟩ ⟨0, 0, 0, 0, 0, 0⟩ ⟨0, 1⟩ (by decide)
    (by decide) (by decide) (by decide) (by decide)


/-! ## C20: a hit changes no mapping -/

/-- A state is a hit frame of itself. -/
theorem HitFrame.same (S : ssystem) (p : Int) : HitFrame S S p :=
  ⟨rfl, rfl, rfl, rfl, rfl, rfl, rfl, rfl, rfl, rfl, rfl, rfl, fun _ _ => rfl, rfl, rfl, rfl⟩

/-- Function `reference_page` of the FIFO variants on a page of the table:
only the member `modified` of its entry and the two reference counters may
change. -/
theorem fifo_reference_hit (S : ssystem) (p : Int) (op : Char)
    (hp0 : 0 ≤ p) (hp1 : p < (S.pgt.length : Int)) :
    ∃ S1, Fifo.reference_page S p op = some S1 ∧ HitFrame S S1 p ∧
      (get S1.pgt p).timestamp = (get S.pgt p).timestamp ∧
      (get S1.pgt p).clock = (get S.pgt p).clock ∧ S1.clock = S.clock := by
  unfold Fifo.reference_page
  by_cases hR : op = 'R'
  · rw [if_pos hR]
    exact ⟨_, rfl, ⟨rfl, rfl, rfl, rfl, rfl, rfl, rfl, rfl, rfl, rfl, rfl, rfl,
      fun _ _ => rfl, rfl, rfl, rfl⟩, rfl, rfl, rfl⟩
  · rw [if_neg hR]
    by_cases hW : op = 'W'
    · rw [if_pos hW, setPg_of_range S _ hp0 hp1, Option.map_some']
      have hsame := get_upd_same S.pgt p { (get S.pgt p) with modified := 1 } hp0 hp1
      refine ⟨_, rfl, ⟨rfl, rfl, rfl, rfl, rfl, rfl, rfl, rfl, rfl, rfl, rfl,
        length_upd _ _ _, fun q hq => get_upd_ne _ _ _ _ hq, ?_, ?_, ?_⟩, ?_, ?_, rfl⟩
      all_goals (dsimp only; rw [hsame])
    · rw [if_neg hW]
      exact ⟨S, rfl, HitFrame.same S p, rfl, rfl, rfl⟩

/-- Function `reference_page` of the LRU variant on a page of the table: only
the members `modified` and `clock` of its entry, the clock and the two
reference counters may change. -/
theorem lru_reference_hit (S : ssystem) (p : Int) (op : Char)
    (hp0 : 0 ≤ p) (hp1 : p < (S.pgt.length : Int)) :
    ∃ S1, Lru.reference_page S p op = some S1 ∧ HitFrame S S1 p ∧
      (get S1.pgt p).timestamp = (get S.pgt p).timestamp := by
  unfold Lru.reference_page
  by_cases hR : op = 'R'
  · rw [if_pos hR]
    exact ⟨_, rfl, ⟨rfl, rfl, rfl, rfl, rfl, rfl, rfl, rfl, rfl, rfl, rfl, rfl,
      fun _ _ => rfl, rfl, rfl, rfl⟩, rfl⟩
  · rw [if_neg hR]
    by_cases hW : op = 'W'
    · rw [if_pos hW, setPg_of_range S _ hp0 hp1, Option.some_bind]
      dsimp only
      rw [setPg_of_range _ _ hp0 (by simp only [length_upd]; exact hp1), Option.map_some']
      have hs1 := get_upd_same S.pgt p { (get S.pgt p) with modified := 1 } hp0 hp1
      have hs2 := get_upd_same (upd S.pgt p { (get S.pgt p) with modified := 1 }) p
        { (get (upd S.pgt p { (get S.pgt p) with modified := 1 }) p) with clock := S.clock }
        hp0 (by rw [length_upd]; exact hp1)
      refine ⟨_, rfl, ⟨rfl, rfl, rfl, rfl, rfl, rfl, rfl, rfl, rfl, rfl, rfl,
        by simp only [length_upd], fun q hq => ?_, ?_, ?_, ?_⟩, ?_⟩
      · dsimp only
        rw [get_upd_ne _ _ _ _ hq, get_upd_ne _ _ _ _ hq]
      all_goals (dsimp only; rw [hs2, hs1])
    · rw [if_neg hW]
      exact ⟨S, rfl, HitFrame.same S p, rfl⟩

/-- The MMU on a page that is present calls `reference_page` only. -/
theorem sim_mmu_hit (P : Policy) (S : ssystem) (va : Nat) (op : Char)
    (hp : 0 < S.pagsz) (hi : IsInt S.pagsz) (hn : IsInt S.numpags)
    (hl : 0 ≤ (va : Int) / S.pagsz ∧ (va : Int) / S.pagsz < S.numpags)
    (e : spage) (he : rd S.pgt ((va : Int) / S.pagsz) = some e) (hpres : e.present ≠ 0) :
    sim_mmu P S va op =
      (P.reference_page S ((va : Int) / S.pagsz) op).map fun S2 =>
        (toUnsigned (e.frame * S.pagsz + (va : Int) % S.pagsz), S2) := by
  have hz := (page_eq_div va hp hi).2.2
  obtain ⟨hpage, hoff⟩ := page_offset_of_legal hp hi hn hl
  have hleg : ¬ ((va : Int) / S.pagsz < 0 ∨ (va : Int) / S.pagsz ≥ S.numpags) := by omega
  unfold sim_mmu
  simp only [if_neg hz, hpage, hoff, if_neg hleg, he, Option.some_bind, if_neg hpres]

/-- C20: in each of the three variants, in a state with a positive page size
and for an address whose page `p = virtual_addr / pagsz` is legal and present,
`sim_mmu` returns and leaves a state that differs from the old one at most in
the entry of `p`, the clock and the two reference counters: the fault, the
write-back and the illegal-reference counters, the frames table (bindings and
links), `listfree`, `listoccupied`, the other page entries and the members
`present`, `frame` and `referenced` of the entry of `p` are the same.  In the
FIFO and the second-chance variant the clock and the members `timestamp` and
`clock` of the entry of `p` are the same as well; in the LRU variant the
member `timestamp` is. -/
theorem C20_hit_changes_no_mapping (S : ssystem) (virtual_addr : Nat) (op : Char)
    (hp : 0 < S.pagsz) (hi : IsInt S.pagsz) (hn : IsInt S.numpags)
    (hl : 0 ≤ (virtual_addr : Int) / S.pagsz ∧ (virtual_addr : Int) / S.pagsz < S.numpags)
    (e : spage) (he : rd S.pgt ((virtual_addr : Int) / S.pagsz) = some e)
    (hpres : e.present ≠ 0) :
    (∃ a S1, sim_mmu Fifo.policy S virtual_addr op = some (a, S1) ∧
      HitFrame S S1 ((virtual_addr : Int) / S.pagsz) ∧
      (get S1.pgt ((virtual_addr : Int) / S.pagsz)).timestamp = e.timestamp ∧
      (get S1.pgt ((virtual_addr : Int) / S.pagsz)).clock = e.clock ∧ S1.clock = S.clock) ∧
    (∃ a S1, sim_mmu Fifo2c.policy S virtual_addr op = some (a, S1) ∧
      HitFrame S S1 ((virtual_addr : Int) / S.pagsz) ∧
      (get S1.pgt ((virtual_addr : Int) / S.pagsz)).timestamp = e.timestamp ∧
      (get S1.pgt ((virtual_addr : Int) / S.pagsz)).clock = e.clock ∧ S1.clock = S.clock) ∧
    (∃ a S1, sim_mmu Lru.policy S virtual_addr op = some (a, S1) ∧
      HitFrame S S1 ((virtual_addr : Int) / S.pagsz) ∧
      (get S1.pgt ((virtual_addr : Int) / S.pagsz)).timestamp = e.timestamp) := by
  obtain ⟨p0, p1, pe⟩ := rd_some he
  obtain ⟨S1, r1, r2, r3, r4, r5⟩ :=
    fifo_reference_hit S ((virtual_addr : Int) / S.pagsz) op p0 p1
  obtain ⟨S2, q1, q2, q3⟩ := lru_reference_hit S ((virtual_addr : Int) / S.pagsz) op p0 p1
  refine ⟨⟨toUnsigned (e.frame * S.pagsz + (virtual_addr : Int) % S.pagsz), S1, ?_, r2,
      by rw [r3, pe], by rw [r4, pe], r5⟩,
    ⟨toUnsigned (e.frame * S.pagsz + (virtual_addr : Int) % S.pagsz), S1, ?_, r2,
      by rw [r3, pe], by rw [r4, pe], r5⟩,
    ⟨toUnsigned (e.frame * S.pagsz + (virtual_addr : Int) % S.pagsz), S2, ?_, q2,
      by rw [q3, pe]⟩⟩
  · rw [sim_mmu_hit Fifo.policy S virtual_addr op hp hi hn hl e he hpres]
    show (Fifo.reference_page S _ op).map _ = _
    rw [r1, Option.map_some']
  · rw [sim_mmu_hit Fifo2c.policy S virtual_addr op hp hi hn hl e he hpres]
    show (Fifo.reference_page S _ op).map _ = _
    rw [r1, Option.map_some']
  · rw [sim_mmu_hit Lru.policy S virtual_addr op hp hi hn hl e he hpres]
    show (Lru.reference_page S _ op).map _ = _
    rw [q1, Option.map_some']

/-- C20 at the address 1 written in the state `fifoFull`, where the page 1 is
present. -/
theorem C20_witness :
    (∃ a S1, sim_mmu Fifo.policy fifoFull 1 'W' = some (a, S1) ∧
      HitFrame fifoFull S1 (((1 : Nat) : Int) / fifoFull.pagsz) ∧
      (get S1.pgt (((1 : Nat) : Int) / fifoFull.pagsz)).timestamp =
        (⟨1, 1, 0, 0, 0, 0⟩ : spage).timestamp ∧
      (get S1.pgt (((1 : Nat) : Int) / fifoFull.pagsz)).clock =
        (⟨1, 1, 0, 0, 0, 0⟩ : spage).clock ∧ S1.clock = fifoFull.clock) ∧
    (∃ a S1, sim_mmu Fifo2c.policy fifoFull 1 'W' = some (a, S1) ∧
      HitFrame fifoFull S1 (((1 : Nat) : Int) / fifoFull.pagsz) ∧
      (get S1.pgt (((1 : Nat) : Int) / fifoFull.pagsz)).timestamp =
        (⟨1, 1, 0, 0, 0, 0⟩ : spage).timestamp ∧
      (get S1.pgt (((1 : Nat) : Int) / fifoFull.pagsz)).clock =
        (⟨1, 1, 0, 0, 0, 0⟩ : spage).clock ∧ S1.clock = fifoFull.clock) ∧
    (∃ a S1, sim_mmu Lru.policy fifoFull 1 'W' = some (a, S1) ∧
      HitFrame fifoFull S1 (((1 : Nat) : Int) / fifoFull.pagsz) ∧
      (get S1.pgt (((1 : Nat) : Int) / fifoFull.pagsz)).timestamp =
        (⟨1, 1, 0, 0, 0, 0⟩ : spage).timestamp) :=
  C20_hit_changes_no_mapping fifoFull 1 'W' (by decide) (by decide) (by decide) (by decide)
    ⟨1, 1, 0, 0, 0, 0⟩ (by decide) (by decide)


/-! ## C17: the victim of the second-chance walk -/

/-- The first frame of a walk is the one after the starting frame. -/
theorem ringWalk_cons {frt : List sframe} {c : Nat} {cur x : Int} {l : List Int}
    (h : ringWalk frt c cur = some (x :: l)) :
    ∃ c1, c = c1 + 1 ∧ rd frt cur = some (get frt cur) ∧ (get frt cur).next = x ∧
      ringWalk frt c1 x = some l := by
  cases c with
  | zero => simp [ringWalk] at h
  | succ c1 =>
    simp only [ringWalk, Option.bind_eq_some, Option.map_eq_some', List.cons.injEq] at h
    obtain ⟨e, he, l1, hl1, hx, hl⟩ := h
    obtain ⟨-, -, hg⟩ := rd_some he
    subst hg
    subst hl
    rw [hx] at hl1
    exact ⟨c1, rfl, he, hx, hl1⟩

/-- The second-chance walk along the frames `pre ++ g :: rest`, whose pages
are distinct, when the pages of `pre` are marked referenced and the page of
`g` is not: the walk returns the page of `g` after `pre.length + 1` probes and
clears the marks of the pages of `pre`. -/
theorem choose_walk_first (pre : List Int) (g : Int) (rest : List Int) (c : Nat) (cur : Int)
    (S : ssystem) (hw : ringWalk S.frt c cur = some (pre ++ g :: rest))
    (hval : ∀ x ∈ pre ++ [g], 0 ≤ x ∧ x < (S.frt.length : Int) ∧ 0 ≤ (get S.frt x).page ∧
      (get S.frt x).page < (S.pgt.length : Int))
    (hd : ((pre ++ [g]).map fun x => (get S.frt x).page).Nodup)
    (hpre : ∀ x ∈ pre, (get S.pgt (get S.frt x).page).referenced ≠ 0)
    (hg : (get S.pgt (get S.frt g).page).referenced = 0) :
    ∃ S1, Fifo2c.choose_walk c cur S = some (some (get S.frt g).page, S1, pre.length + 1) ∧
      S1 = { S with pgt := S1.pgt } ∧ S1.pgt.length = S.pgt.length ∧
      ∀ p, get S1.pgt p =
        if p ∈ pre.map (fun x => (get S.frt x).page)
        then { (get S.pgt p) with referenced := 0 } else get S.pgt p := by
  induction pre generalizing c cur S with
  | nil =>
    obtain ⟨c1, hc, r1, r2, -⟩ := ringWalk_cons hw
    obtain ⟨g0, g1, p0, p1⟩ := hval g (by simp)
    subst hc
    refine ⟨S, ?_, rfl, rfl, fun p => by simp⟩
    simp only [Fifo2c.choose_walk, r1, Option.some_bind, r2, rd_of_range S.frt g0 g1,
      rd_of_range S.pgt p0 p1, hg, if_true, List.length_nil]
  | cons x pre1 ih =>
    obtain ⟨c1, hc, r1, r2, hw1⟩ := ringWalk_cons hw
    obtain ⟨x0, x1, p0, p1⟩ := hval x (by simp)
    subst hc
    have hx := hpre x (List.mem_cons_self _ _)
    simp only [List.cons_append, List.map_cons, List.nodup_cons] at hd
    obtain ⟨hnotin, hd1⟩ := hd
    have hother : ∀ y ∈ pre1 ++ [g], (get S.frt y).page ≠ (get S.frt x).page := by
      intro y hy he
      apply hnotin
      rw [← he]
      exact List.mem_map_of_mem _ hy
    obtain ⟨S1, e1, e2, e3, e4⟩ := ih c1 x
      { S with pgt := (upd S.pgt (get S.frt x).page
          { (get S.pgt (get S.frt x).page) with referenced := 0 }) }
      hw1
      (fun y hy => by
        obtain ⟨a1, a2, a3, a4⟩ := hval y (List.mem_cons_of_mem _ hy)
        exact ⟨a1, a2, a3, by simp only [length_upd]; exact a4⟩)
      hd1
      (fun y hy => by
        show (get (upd S.pgt _ _) _).referenced ≠ 0
        rw [get_upd_ne _ _ _ _ (hother y (List.mem_append_left _ hy))]
        exact hpre y (List.mem_cons_of_mem _ hy))
      (by
        show (get (upd S.pgt _ _) _).referenced = 0
        rw [get_upd_ne _ _ _ _ (hother g (by simp))]
        exact hg)
    refine ⟨S1, ?_, ?_, ?_, fun p => ?_⟩
    · simp only [Fifo2c.choose_walk, r1, Option.some_bind, r2, rd_of_range S.frt x0 x1,
        rd_of_range S.pgt p0 p1, if_neg hx, setPg_of_range S _ p0 p1]
      rw [e1]
      rfl
    · rw [e2]
    · rw [e3]
      exact length_upd _ _ _
    · rw [e4 p]
      have hA : ∀ q, get (upd S.pgt (get S.frt x).page
          { (get S.pgt (get S.frt x).page) with referenced := 0 }) q =
          if q = (get S.frt x).page then { (get S.pgt q) with referenced := 0 }
          else get S.pgt q := by
        intro q
        by_cases hq : q = (get S.frt x).page
        · rw [if_pos hq, hq, get_upd_same _ _ _ p0 p1]
        · rw [if_neg hq, get_upd_ne _ _ _ _ hq]
      show (if p ∈ pre1.map (fun y => (get S.frt y).page)
        then { (get (upd S.pgt _ _) p) with referenced := 0 } else get (upd S.pgt _ _) p) = _
      rw [hA p]
      by_cases hpx : p = (get S.frt x).page
      · have hnot : p ∉ pre1.map (fun y => (get S.frt y).page) := by
          intro hmem
          apply hnotin
          rw [← hpx, List.map_append]
          exact List.mem_append_left _ hmem
        rw [if_neg hnot, if_pos hpx, List.map_cons, if_pos (by rw [hpx]; simp)]
      · rw [if_neg hpx]
        by_cases hmem : p ∈ pre1.map (fun y => (get S.frt y).page)
        · rw [if_pos hmem, if_pos (by rw [List.map_cons]; exact List.mem_cons_of_mem _ hmem)]
        · rw [if_neg hmem, if_neg (by
            rw [List.map_cons, List.mem_cons]
            exact fun hc => hc.elim hpx hmem)]

/-- C17: in the second-chance variant, in a state whose occupied ring is a
cycle of the `numframes` frames `gs = pre ++ g :: post`, oldest first, holding
valid and pairwise distinct pages, where the pages of the frames of `pre` are
marked referenced and the page of `g` is not, `choose_page_to_be_replaced`
returns the page of `g`, sets `referenced = 0` in the entries of the pages of
`pre`, and changes nothing else. -/
theorem C17_second_chance_walk (S : ssystem) (gs pre post : List Int) (g : Int)
    (h : OccupiedRing S gs) (hd : (gs.map fun x => (get S.frt x).page).Nodup)
    (hsplit : gs = pre ++ g :: post)
    (hpre : ∀ x ∈ pre, (get S.pgt (get S.frt x).page).referenced ≠ 0)
    (hg : (get S.pgt (get S.frt g).page).referenced = 0) :
    ∃ S1, Fifo2c.choose_page_to_be_replaced S = some ((get S.frt g).page, S1) ∧
      Fifo2c.choose_probes S = some ((get S.frt g).page, S1, pre.length + 1) ∧
      S1 = { S with pgt := S1.pgt } ∧ S1.pgt.length = S.pgt.length ∧
      ∀ p, get S1.pgt p =
        if p ∈ pre.map (fun x => (get S.frt x).page)
        then { (get S.pgt p) with referenced := 0 } else get S.pgt p := by
  obtain ⟨-, hclosure⟩ := h.closure
  have hw := h.walk
  subst hsplit
  have hsub : ∀ x ∈ pre ++ [g], x ∈ pre ++ g :: post := by
    intro x hx
    rw [List.mem_append] at hx ⊢
    rcases hx with hx | hx
    · exact Or.inl hx
    · rw [List.mem_singleton] at hx
      exact Or.inr (by rw [hx]; exact List.mem_cons_self _ _)
  have hd1 : ((pre ++ [g]).map fun x => (get S.frt x).page).Nodup := by
    have hsl : ((pre ++ [g]).map fun x => (get S.frt x).page).Sublist
        ((pre ++ g :: post).map fun x => (get S.frt x).page) := by
      apply List.Sublist.map
      apply List.Sublist.append_left
      exact List.Sublist.cons₂ _ (List.nil_sublist _)
    exact hd.sublist hsl
  obtain ⟨S1, e1, e2, e3, e4⟩ := choose_walk_first pre g post S.numframes.toNat
    S.listoccupied S hw
    (fun x hx => by
      obtain ⟨a1, a2, a3, a4, -⟩ := hclosure x (hsub x hx)
      exact ⟨a1, a2, a3, a4⟩)
    hd1 hpre hg
  have hprobes : Fifo2c.choose_probes S = some ((get S.frt g).page, S1, pre.length + 1) := by
    unfold Fifo2c.choose_probes
    rw [e1, Option.some_bind]
  refine ⟨S1, ?_, hprobes, e2, e3, e4⟩
  unfold Fifo2c.choose_page_to_be_replaced
  rw [hprobes, Option.map_some']

/-- C17 in the state `markedThree`: the ring `[0, 1, 2]` holds the pages 5, 6,
7, of which the first two are marked referenced. -/
theorem C17_witness :
    ∃ S1, Fifo2c.choose_page_to_be_replaced markedThree =
        some ((get markedThree.frt 2).page, S1) ∧
      Fifo2c.choose_probes markedThree =
        some ((get markedThree.frt 2).page, S1, [(0 : Int), 1].length + 1) ∧
      S1 = { markedThree with pgt := S1.pgt } ∧ S1.pgt.length = markedThree.pgt.length ∧
      ∀ p, get S1.pgt p =
        if p ∈ [(0 : Int), 1].map (fun x => (get markedThree.frt x).page)
        then { (get markedThree.pgt p) with referenced := 0 } else get markedThree.pgt p :=
  C17_second_chance_walk markedThree [0, 1, 2] [0, 1] [] 2
    { nonempty := by decide
      walk := by decide
      nodup := by decide
      closed := by decide
      pages := fun g hg => by
        simp only [List.mem_cons, List.mem_singleton, List.mem_nil_iff, or_false] at hg
        rcases hg with h | h | h
        · subst h; exact ⟨_, _, rfl, rfl⟩
        · subst h; exact ⟨_, _, rfl, rfl⟩
        · subst h; exact ⟨_, _, rfl, rfl⟩ }
    (by decide) (by decide)
    (fun x hx => by
      simp only [List.mem_cons, List.mem_singleton, List.mem_nil_iff, or_false] at hx
      rcases hx with h | h
      · subst h; decide
      · subst h; decide)
    (by decide)


/-! ## The links of the occupied ring in the second-chance variant -/

/-- Taking a frame from the free ring changes the link of the last free frame
only. -/
theorem pop_links {S S2 : ssystem} {el : sframe}
    (h : (if el.next = S.listfree then some { S with listfree := -1 }
       else (rd S.frt el.next).bind fun ef =>
         setFr S S.listfree fun e => { e with next := ef.next }) = some S2) :
    S2.listoccupied = S.listoccupied ∧ S2.numframes = S.numframes ∧
    ∀ j, j ≠ S.listfree → get S2.frt j = get S.frt j := by
  split at h
  · simp only [Option.some.injEq] at h
    rw [← h]
    exact ⟨rfl, rfl, fun _ _ => rfl⟩
  · simp only [Option.bind_eq_some] at h
    obtain ⟨ef, -, h⟩ := h
    rw [(setFr_some h).2.2]
    exact ⟨rfl, rfl, fun j hj => get_upd_ne _ _ _ _ hj⟩

/-- The links `occupy_free_frame` of the FIFO variants leaves: the new frame
is put behind `listoccupied` and becomes the last frame. -/
theorem fifo_occupy_links {S S1 : ssystem} {k page : Int}
    (h : Fifo.occupy_free_frame S k page = some S1) :
    S1.listoccupied = k ∧ S1.numframes = S.numframes ∧
    (S.listoccupied = -1 →
      ∀ j, (get S1.frt j).next = if j = k then k else (get S.frt j).next) ∧
    (S.listoccupied ≠ -1 →
      ∀ j, (get S1.frt j).next =
        if j = S.listoccupied then k
        else if j = k then (get S.frt S.listoccupied).next else (get S.frt j).next) := by
  unfold Fifo.occupy_free_frame at h
  simp only [Option.bind_eq_some] at h
  obtain ⟨A, hA, B, hB, h⟩ := h
  obtain ⟨-, -, eA⟩ := setPg_some hA
  subst eA
  obtain ⟨k0, k1, eB⟩ := setFr_some hB
  subst eB
  dsimp only at k1 h
  split at h
  · rename_i hlo
    simp only [Option.bind_eq_some, Option.some.injEq] at h
    obtain ⟨C, hC, h⟩ := h
    obtain ⟨-, -, eC⟩ := setFr_some hC
    subst eC
    subst h
    refine ⟨rfl, rfl, fun _ j => ?_, fun hne => absurd hlo hne⟩
    dsimp only
    rw [next_upd_next, next_upd_page]
    by_cases hj : j = k
    · rw [if_pos ⟨hj, k0, by rw [length_upd]; exact k1⟩, if_pos hj]
    · rw [if_neg (fun hc => hj hc.1), if_neg hj]
  · rename_i hlo
    simp only [Option.bind_eq_some, Option.some.injEq] at h
    obtain ⟨el, hel, C, hC, D, hD, h⟩ := h
    obtain ⟨-, -, eel⟩ := rd_some hel
    obtain ⟨-, -, eC⟩ := setFr_some hC
    subst eC
    obtain ⟨l0, l1, eD⟩ := setFr_some hD
    subst eD
    subst h
    dsimp only at l0 l1
    simp only [length_upd] at l1
    refine ⟨rfl, rfl, fun he => absurd he hlo, fun _ j => ?_⟩
    dsimp only
    rw [next_upd_next]
    by_cases hj : j = S.listoccupied
    · rw [if_pos ⟨hj, l0, by simp only [length_upd]; exact l1⟩, if_pos hj]
    · rw [if_neg (fun hc => hj hc.1), if_neg hj, next_upd_next]
      by_cases hjk : j = k
      · rw [if_pos ⟨hjk, k0, by rw [length_upd]; exact k1⟩, if_pos hjk, ← eel, next_upd_page]
      · rw [if_neg (fun hc => hjk hc.1), if_neg hjk, next_upd_page]

/-- Function `replace_page` of the second-chance variant leaves the links and
makes the frame of the victim the last frame. -/
theorem fifo2c_replace_links {S S1 : ssystem} {v page : Int}
    (h : Fifo2c.replace_page S v page = some S1) :
    S1.listoccupied = (get S.pgt v).frame ∧ S1.numframes = S.numframes ∧
    ∀ j, (get S1.frt j).next = (get S.frt j).next := by
  unfold Fifo2c.replace_page at h
  simp only [Option.bind_eq_some, Option.some.injEq] at h
  obtain ⟨ev, hev, A, hA, B, hB, C, hC, h⟩ := h
  obtain ⟨-, -, eev⟩ := rd_some hev
  obtain ⟨Sw, hSw, -, w2, -, -⟩ := writeback_state S (ev.modified ≠ 0)
  have hSwn : Sw.numframes = S.numframes := by
    rw [← hSw]
    split <;> rfl
  rw [hSw] at hA
  obtain ⟨-, -, eA⟩ := setPg_some hA
  subst eA
  obtain ⟨-, -, eB⟩ := setPg_some hB
  subst eB
  obtain ⟨-, -, eC⟩ := setFr_some hC
  subst eC
  subst h
  refine ⟨by rw [eev], hSwn, fun j => ?_⟩
  dsimp only
  rw [w2, next_upd_page]

/-- Function `reference_page` of the FIFO variants leaves the frames table. -/
theorem fifo_reference_links {S S1 : ssystem} {page : Int} {op : Char}
    (h : Fifo.reference_page S page op = some S1) :
    S1.frt = S.frt ∧ S1.listoccupied = S.listoccupied ∧ S1.numframes = S.numframes := by
  unfold Fifo.reference_page at h
  split at h
  · simp only [Option.some.injEq] at h
    rw [← h]
    exact ⟨rfl, rfl, rfl⟩
  · split at h
    · simp only [Option.map_eq_some'] at h
      obtain ⟨A, hA, h⟩ := h
      rw [← h, (setPg_some hA).2.2]
      exact ⟨rfl, rfl, rfl⟩
    · simp only [Option.some.injEq] at h
      rw [← h]
      exact ⟨rfl, rfl, rfl⟩

/-- The ring property reads the links of the bound frames and `listoccupied`
only. -/
theorem Ring2c.same_links {S S1 : ssystem} {k : Int} (h : Ring2c S k)
    (hn : S1.numframes = S.numframes) (hlo : S1.listoccupied = S.listoccupied)
    (hnext : ∀ j, 0 ≤ j → j < k → (get S1.frt j).next = (get S.frt j).next) :
    Ring2c S1 k := by
  refine ⟨fun f hf0 hf1 => ?_, fun hk => ?_, fun hk0 hk1 => ?_⟩
  · rw [hnext f hf0 (by omega)]
    exact h.up f hf0 hf1
  · rw [hnext _ (by omega) (by omega)]
    exact h.back hk
  · rw [hlo]
    rw [hn] at hk1
    exact h.filling hk0 hk1


/-! ## Ascending runs of frames -/

theorem ival_zero (a : Int) : ival a 0 = [] := rfl

theorem ival_succ (a : Int) (n : Nat) : ival a (n + 1) = a :: ival (a + 1) n := by
  unfold ival
  rw [List.range_succ_eq_map]
  simp only [List.map_eq_map, List.bind_eq_flatMap, List.pure_def, List.map_cons, List.map_map,
    List.flatMap_cons, List.flatMap_singleton', Nat.cast_zero, add_zero, List.singleton_append,
    List.cons_append, List.nil_append, List.cons.injEq, true_and]
  generalize List.range n = l
  induction l with
  | nil => rfl
  | cons x l ih =>
    simp only [List.map_cons, List.flatMap_cons, List.singleton_append, List.cons.injEq]
    refine ⟨?_, ih⟩
    simp only [Nat.succ_eq_add_one, Nat.cast_add, Nat.cast_one]
    omega

theorem mem_ival (a : Int) (n : Nat) (x : Int) : x ∈ ival a n ↔ a ≤ x ∧ x < a + (n : Int) := by
  induction n generalizing a with
  | zero =>
    simp only [ival_zero, List.not_mem_nil, Nat.cast_zero, add_zero, false_iff]
    omega
  | succ n ih =>
    rw [ival_succ, List.mem_cons, ih]
    constructor
    · rintro (h | h) <;> omega
    · intro h
      by_cases hx : x = a
      · exact Or.inl hx
      · exact Or.inr (by omega)

theorem nodup_ival (a : Int) (n : Nat) : (ival a n).Nodup := by
  induction n generalizing a with
  | zero => simp [ival_zero]
  | succ n ih =>
    rw [ival_succ, List.nodup_cons]
    refine ⟨fun h => ?_, ih _⟩
    rw [mem_ival] at h
    omega

/-- Along links `i -> i + 1` the frames from `a` to `b` are `a, a + 1, ..., b`. -/
theorem collectTo_asc (frt : List sframe) (b : Int) (d : Nat) (a : Int) (fuel : Nat)
    (ha : 0 ≤ a) (hb : b < (frt.length : Int)) (hd : a + (d : Int) = b) (hfuel : d < fuel)
    (hlinks : ∀ i, a ≤ i → i < b → (get frt i).next = i + 1) :
    collectTo frt b fuel a = some (ival a (d + 1)) := by
  induction d generalizing a fuel with
  | zero =>
    obtain ⟨m, rfl⟩ : ∃ m, fuel = m + 1 := ⟨fuel - 1, by omega⟩
    have : a = b := by omega
    simp only [collectTo, this, if_true, ival_succ, ival_zero]
  | succ d ih =>
    obtain ⟨m, rfl⟩ : ∃ m, fuel = m + 1 := ⟨fuel - 1, by omega⟩
    have hne : a ≠ b := by omega
    simp only [collectTo, if_neg hne, rd_of_range frt ha (by omega), Option.some_bind,
      hlinks a (le_refl _) (by omega)]
    rw [ih (a + 1) m (by omega) (by omega) (by omega)
      (fun i hi0 hi1 => hlinks i (by omega) hi1), Option.map_some', ival_succ a (d + 1)]

/-- Along links `i -> i + 1` below `k` and the link `k - 1 -> 0`, the frames
from `a` to a frame `b < a` are `a, ..., k - 1, 0, ..., b`. -/
theorem collectTo_wrap (frt : List sframe) (k b : Int) (d : Nat) (a : Int) (fuel : Nat)
    (hb0 : 0 ≤ b) (hba : b < a) (hk : k ≤ (frt.length : Int)) (hd : a + (d : Int) = k - 1)
    (hfuel : d + b.toNat + 1 < fuel)
    (hup : ∀ i, 0 ≤ i → i < k - 1 → (get frt i).next = i + 1)
    (hback : (get frt (k - 1)).next = 0) :
    collectTo frt b fuel a = some (ival a (d + 1) ++ ival 0 (b.toNat + 1)) := by
  induction d generalizing a fuel with
  | zero =>
    obtain ⟨m, rfl⟩ : ∃ m, fuel = m + 1 := ⟨fuel - 1, by omega⟩
    have hne : a ≠ b := by omega
    have hak : a = k - 1 := by omega
    simp only [collectTo, if_neg hne, rd_of_range frt (by omega : 0 ≤ a) (by omega),
      Option.some_bind]
    rw [hak, hback, collectTo_asc frt b b.toNat 0 m (le_refl _) (by omega) (by omega)
      (by omega) (fun i hi0 hi1 => hup i hi0 (by omega)), Option.map_some',
      ival_succ (k - 1) 0, ival_zero]
    rfl
  | succ d ih =>
    obtain ⟨m, rfl⟩ : ∃ m, fuel = m + 1 := ⟨fuel - 1, by omega⟩
    have hne : a ≠ b := by omega
    simp only [collectTo, if_neg hne, rd_of_range frt (by omega : 0 ≤ a) (by omega),
      Option.some_bind, hup a (by omega) (by omega)]
    rw [ih (a + 1) m (by omega) (by omega) (by omega), Option.map_some',
      ival_succ a (d + 1)]
    rfl

/-! ## The occupied ring of the second-chance variant -/

/-- A page fault of the second-chance variant keeps the invariant and the
shape of the occupied ring. -/
theorem fifo2c_fault_ring {S : ssystem} {k : Int} (h : Inv true S k) (hr : Ring2c S k)
    {va : Nat} (hl : 0 ≤ (va : Int) / S.pagsz ∧ (va : Int) / S.pagsz < S.numpags)
    (hnp : (get S.pgt ((va : Int) / S.pagsz)).present = 0) :
    ∃ S1 k1, handle_page_fault Fifo2c.policy S va = some S1 ∧ Inv true S1 k1 ∧
      Ring2c S1 k1 := by
  have hcfg := h.cfg
  have hz := (page_eq_div va hcfg.pagsz_pos hcfg.pagsz_int).2.2
  have hpage := (page_offset_of_legal hcfg.pagsz_pos hcfg.pagsz_int hcfg.numpags_int hl).1
  have h1 : Inv true { S with numpagefaults := S.numpagefaults + 1 } k :=
    h.congr rfl rfl rfl rfl rfl rfl rfl
  have hr1 : Ring2c { S with numpagefaults := S.numpagefaults + 1 } k :=
    hr.same_links rfl rfl (fun _ _ _ => rfl)
  have hk0 := h.mapped.k_nonneg
  unfold handle_page_fault
  simp only [if_neg hz, hpage]
  by_cases hk : k < S.numframes
  · obtain ⟨el, S2, hlf, hrd, hnx, hS2, hmid, c1, c2, c3, c4, c5⟩ := pop_free_frame h1 hk
    obtain ⟨p1, p2, p3⟩ := pop_links hS2
    have hfree : S.listfree = S.numframes - 1 := (h.free.some_free hk).1
    simp only at hlf hrd hS2 p1 p2 p3
    rw [if_pos hlf, hrd, Option.some_bind, hS2, Option.some_bind, hnx]
    obtain ⟨S3, hocc, hinv, -⟩ :=
      fifo_occupy_sound S2 k _ hmid hl.1 (by rw [c2]; exact hl.2) (by rw [c4]; exact hnp)
    obtain ⟨q1, q2, q3, q4⟩ := fifo_occupy_links hocc
    have hr2 : Ring2c S2 k :=
      hr.same_links p2 p1 (fun j _ hj1 => by rw [p3 j (by omega)])
    have hocc2 := hmid.occ
    unfold Occ at hocc2
    simp only [if_true] at hocc2
    obtain ⟨o1, o2, -⟩ := hocc2
    refine ⟨S3, k + 1, hocc, hinv, ?_⟩
    by_cases hlo : S2.listoccupied = -1
    · have hkz : k = 0 := by
        by_contra hc
        have := (o2 (by omega)).1
        omega
      have hn := q3 hlo
      refine ⟨fun f hf0 hf1 => by omega, fun _ => ?_, fun _ _ => by rw [q1]; omega⟩
      rw [hn, hkz]
      simp
    · have hkp : 0 < k := by
        by_contra hc
        exact hlo (o1 (by omega))
      have hlast : S2.listoccupied = k - 1 := hr2.filling hkp (by rw [p2]; exact hk)
      have hn := q4 hlo
      refine ⟨fun f hf0 hf1 => ?_, fun _ => ?_, fun _ _ => by rw [q1]; omega⟩
      · rw [hn, hlast]
        by_cases hf : f = k - 1
        · rw [if_pos hf]
          omega
        · rw [if_neg hf, if_neg (by omega), hr2.up f hf0 (by omega)]
      · rw [hn, hlast, if_neg (by omega), if_pos (by omega), hr2.back hkp]
  · have hkn : k = S.numframes := le_antisymm h.mapped.k_le (not_lt.1 hk)
    have hlf : S.listfree = -1 := h.free.none_free (by omega)
    have hnn : ¬ (S.listfree ≠ -1) := fun hc => hc hlf
    rw [if_neg hnn]
    subst hkn
    obtain ⟨v, S2, S3, hch, hrp, hinv, -, -, -, d3, -⟩ :=
      fifo2c_evict_sound _ _ h1 hl.1 hl.2 hnp
    have hfirst := fifo2c_choose_first _ h1
    have hch2 : Fifo2c.choose_page_to_be_replaced
        { S with numpagefaults := S.numpagefaults + 1 } = some (v, S2) := hch
    unfold Fifo2c.choose_page_to_be_replaced at hch2
    rw [hfirst, Option.map_some'] at hch2
    simp only [Option.some.injEq, Prod.mk.injEq] at hch2
    obtain ⟨-, hS2⟩ := hch2
    subst hS2
    obtain ⟨q1, q2, q3⟩ := fifo2c_replace_links hrp
    refine ⟨S3, S.numframes, ?_, hinv, ?_⟩
    · show (Fifo2c.choose_page_to_be_replaced _).bind _ = _
      rw [hch, Option.some_bind]
      exact hrp
    · refine ⟨fun f hf0 hf1 => ?_, fun hk => ?_, fun _ hk1 => ?_⟩
      · rw [q3]
        exact hr1.up f hf0 hf1
      · rw [q3]
        exact hr1.back hk
      · rw [q2] at hk1
        exact absurd hk1 (lt_irrefl _)

/-- A reference of the second-chance variant keeps the invariant and the
shape of the occupied ring. -/
theorem fifo2c_step_ring {S S1 : ssystem} {k : Int} (h : Inv true S k) (hr : Ring2c S k)
    {va : Nat} {op : Char} {a : Nat} (hva : va < 4294967296)
    (hstep : sim_mmu Fifo2c.policy S va op = some (a, S1)) :
    ∃ k1, Inv true S1 k1 ∧ Ring2c S1 k1 := by
  have hcfg := h.cfg
  have hz := (page_eq_div va hcfg.pagsz_pos hcfg.pagsz_int).2.2
  by_cases hl : 0 ≤ (va : Int) / S.pagsz ∧ (va : Int) / S.pagsz < S.numpags
  · obtain ⟨hpage, hoff⟩ :=
      page_offset_of_legal hcfg.pagsz_pos hcfg.pagsz_int hcfg.numpags_int hl
    have hleg : ¬ ((va : Int) / S.pagsz < 0 ∨ (va : Int) / S.pagsz ≥ S.numpags) := by omega
    have hrd : rd S.pgt ((va : Int) / S.pagsz) = some (get S.pgt ((va : Int) / S.pagsz)) :=
      rd_of_range _ hl.1 (by rw [hcfg.pgt_len]; exact hl.2)
    have hmid : ∃ T k1,
        (if (get S.pgt ((va : Int) / S.pagsz)).present = 0
          then handle_page_fault Fifo2c.policy S va else some S) = some T ∧
        Inv true T k1 ∧ Ring2c T k1 ∧ T.numpags = S.numpags := by
      by_cases hp : (get S.pgt ((va : Int) / S.pagsz)).present = 0
      · rw [if_pos hp]
        obtain ⟨T, k1, e1, e2, e3⟩ := fifo2c_fault_ring h hr hl hp
        obtain ⟨T2, k2, f1, -, -, -, f5, -⟩ := handle_page_fault_spec fifo2c_sound h hl hp
        rw [e1] at f1
        simp only [Option.some.injEq] at f1
        exact ⟨T, k1, e1, e2, e3, by rw [f1]; exact f5⟩
      · rw [if_neg hp]
        exact ⟨S, k, rfl, h, hr, rfl⟩
    obtain ⟨T, k1, e1, e2, e3, e4⟩ := hmid
    obtain ⟨S2, r1, r2, -⟩ :=
      fifo_reference_sound T k1 ((va : Int) / S.pagsz) op e2 hl.1 (by rw [e4]; exact hl.2)
    obtain ⟨l1, l2, l3⟩ := fifo_reference_links r1
    have hrd1 : rd T.pgt ((va : Int) / S.pagsz) = some (get T.pgt ((va : Int) / S.pagsz)) :=
      rd_of_range _ hl.1 (by rw [e2.cfg.pgt_len, e4]; exact hl.2)
    have r1b : Fifo2c.policy.reference_page T ((va : Int) / S.pagsz) op = some S2 := r1
    unfold sim_mmu at hstep
    simp only [if_neg hz, hpage, hoff, if_neg hleg, hrd, Option.some_bind, e1, hrd1, r1b,
      Option.map_some', Option.some.injEq, Prod.mk.injEq] at hstep
    rw [← hstep.2]
    exact ⟨k1, r2, e3.same_links l3 l2 (fun j _ _ => by rw [l1])⟩
  · have hill : toInt (va / toUnsigned S.pagsz) < 0 ∨
        toInt (va / toUnsigned S.pagsz) ≥ S.numpags := by
      by_contra hc
      exact hl ((page_legal_iff hcfg.pagsz_pos hcfg.pagsz_int hcfg.numpags_int hva).1 hc)
    unfold sim_mmu at hstep
    rw [if_neg hz] at hstep
    simp only [hill, if_true, Option.some.injEq, Prod.mk.injEq] at hstep
    rw [← hstep.2]
    exact ⟨k, h.congr rfl rfl rfl rfl rfl rfl rfl, hr.same_links rfl rfl (fun _ _ _ => rfl)⟩

/-- Every reachable state of the second-chance variant satisfies the invariant
and has its bound frames linked in ascending order. -/
theorem reachable_ring2c {S : ssystem} (hr : Reachable Fifo2c.policy S) :
    ∃ k, Inv true S k ∧ Ring2c S k := by
  induction hr with
  | init hc hi =>
    exact ⟨0, init_inv true hc hi, fun f hf0 hf1 => by omega, fun hk => by omega,
      fun hk => by omega⟩
  | @step S S1 va op a _ hva hstep ih =>
    obtain ⟨k, hk, hring⟩ := ih
    exact fifo2c_step_ring hk hring hva hstep


/-- The frames with a page, in a state with `k` frames bound. -/
theorem boundFrames_iff {ring : Bool} {S : ssystem} {k : Int} (h : Inv ring S k) (f : Int) :
    f ∈ boundFrames S ↔ 0 ≤ f ∧ f < k := by
  have hfl := h.cfg.frt_len
  have hk := h.mapped.k_le
  constructor
  · rintro ⟨e, hrd, hne⟩
    obtain ⟨f0, f1, fe⟩ := rd_some hrd
    subst fe
    refine ⟨f0, ?_⟩
    by_contra hc
    exact hne (h.mapped.unbound f (by omega) (by omega))
  · rintro ⟨f0, f1⟩
    refine ⟨_, rd_of_range _ f0 (by omega), ?_⟩
    have := (h.mapped.bound f f0 f1).1
    omega

/-- The occupied ring of a state of the second-chance variant with `k` frames
bound: the walk from `listoccupied` comes back to it and passes the frames
`0 .. k - 1` once each. -/
theorem occupied_ring_frames {S : ssystem} {k : Int} (h : Inv true S k) (hr : Ring2c S k) :
    ∃ occ, ringOf S.frt S.listoccupied = some occ ∧ occ.Nodup ∧
      ∀ f, f ∈ occ ↔ 0 ≤ f ∧ f < k := by
  have hfl := h.cfg.frt_len
  have hk0 := h.mapped.k_nonneg
  have hkn := h.mapped.k_le
  have hocc := h.occ
  unfold Occ at hocc
  simp only [if_true] at hocc
  obtain ⟨o1, o2, -⟩ := hocc
  unfold ringOf
  by_cases hk : k = 0
  · rw [if_pos (o1 hk)]
    exact ⟨[], rfl, List.nodup_nil, fun f => by simp only [List.not_mem_nil, false_iff]; omega⟩
  · obtain ⟨l0, l1⟩ := o2 (by omega)
    rw [if_neg (by omega), rd_of_range S.frt l0 (by omega), Option.some_bind]
    by_cases hlast : S.listoccupied = k - 1
    · have hnx : (get S.frt S.listoccupied).next = 0 := by
        rw [hlast]
        exact hr.back (by omega)
      rw [hnx, collectTo_asc S.frt S.listoccupied S.listoccupied.toNat 0 S.frt.length
        (le_refl _) (by omega) (by omega) (by omega)
        (fun i hi0 hi1 => hr.up i hi0 (by omega))]
      refine ⟨_, rfl, nodup_ival _ _, fun f => ?_⟩
      rw [mem_ival]
      constructor <;> intro hf <;> omega
    · have hnx : (get S.frt S.listoccupied).next = S.listoccupied + 1 :=
        hr.up _ l0 (by omega)
      rw [hnx, collectTo_wrap S.frt k S.listoccupied (k - 2 - S.listoccupied).toNat
        (S.listoccupied + 1) S.frt.length l0 (by omega) (by omega) (by omega) (by omega)
        hr.up (hr.back (by omega))]
      refine ⟨_, rfl, ?_, fun f => ?_⟩
      · rw [List.nodup_append]
        refine ⟨nodup_ival _ _, nodup_ival _ _, fun x hx hy => ?_⟩
        rw [mem_ival] at hx hy
        omega
      · rw [List.mem_append, mem_ival, mem_ival]
        constructor
        · rintro (hf | hf) <;> omega
        · intro hf
          by_cases hc : f ≤ S.listoccupied
          · exact Or.inr (by omega)
          · exact Or.inl (by omega)

/-- The free ring of a state with `k` frames bound: the walk from `listfree`
comes back to it and passes the frames `k .. numframes - 1`. -/
theorem free_ring_frames {ring : Bool} {S : ssystem} {k : Int} (h : Inv ring S k) :
    ∃ free, ringOf S.frt S.listfree = some free ∧
      ∀ f, f ∈ free ↔ k ≤ f ∧ f < S.numframes := by
  have hfl := h.cfg.frt_len
  have hk0 := h.mapped.k_nonneg
  have hkn := h.mapped.k_le
  unfold ringOf
  by_cases hk : k < S.numframes
  · obtain ⟨f1, f2, f3⟩ := h.free.some_free hk
    rw [if_neg (by omega), rd_of_range S.frt (by omega) (by omega), Option.some_bind, f1, f2,
      collectTo_asc S.frt (S.numframes - 1) (S.numframes - 1 - k).toNat k S.frt.length
        hk0 (by omega) (by omega) (by omega) (fun i hi0 hi1 => f3 i hi0 hi1)]
    refine ⟨_, rfl, fun f => ?_⟩
    rw [mem_ival]
    constructor <;> intro hf <;> omega
  · rw [if_pos (h.free.none_free (by omega))]
    exact ⟨[], rfl, fun f => by simp only [List.not_mem_nil, false_iff]; omega⟩

theorem fifo2c_run_pair :
    sim_run Fifo2c.policy start142 [(0, 'R'), (1, 'R')] = some ([0, 1], fifoFull) := by
  decide

theorem reachable_pair_2c : Reachable Fifo2c.policy fifoFull :=
  sim_run_reachable Fifo2c.policy _ _ _ _ (reachable_start142 _) (by decide) fifo2c_run_pair

/-! ## C19: the occupied ring of the second-chance variant -/

/-- Claim C19.  In every state of the second-chance variant reachable from
`init_tables` through `sim_mmu` calls, following `next` from `listoccupied`
leads back to `listoccupied` (no frame is visited when `listoccupied = -1`):
the frames passed are pairwise different, they are exactly the frames whose
`page` is not -1, the link of each of them stays among them, and none of them
is a frame of the free ring, the frames passed following `next` from
`listfree`. -/
theorem C19_occupied_ring (S : ssystem) (hr : Reachable Fifo2c.policy S) :
    ∃ occ free, ringOf S.frt S.listoccupied = some occ ∧
      ringOf S.frt S.listfree = some free ∧
      (S.listoccupied = -1 → occ = []) ∧
      occ.Nodup ∧
      (∀ f, f ∈ occ ↔ f ∈ boundFrames S) ∧
      (∀ f, f ∈ occ → (get S.frt f).next ∈ occ) ∧
      (∀ f, f ∈ occ → f ∉ free) := by
  obtain ⟨k, hinv, hring⟩ := reachable_ring2c hr
  obtain ⟨occ, h1, h2, h3⟩ := occupied_ring_frames hinv hring
  obtain ⟨free, g1, g2⟩ := free_ring_frames hinv
  have hocc := hinv.occ
  unfold Occ at hocc
  simp only [if_true] at hocc
  refine ⟨occ, free, h1, g1, fun hlo => ?_, h2, fun f => ?_, fun f hf => ?_, fun f hf hc => ?_⟩
  · unfold ringOf at h1
    rw [if_pos hlo] at h1
    exact (Option.some.inj h1).symm
  · rw [h3, boundFrames_iff hinv]
  · rw [h3] at hf ⊢
    exact hocc.2.2 f hf.1 hf.2
  · rw [h3] at hf
    rw [g2] at hc
    omega

theorem C19_witness :
    Reachable Fifo2c.policy fifoFull ∧
    ∃ occ free, ringOf fifoFull.frt fifoFull.listoccupied = some occ ∧
      ringOf fifoFull.frt fifoFull.listfree = some free ∧
      (fifoFull.listoccupied = -1 → occ = []) ∧
      occ.Nodup ∧
      (∀ f, f ∈ occ ↔ f ∈ boundFrames fifoFull) ∧
      (∀ f, f ∈ occ → (get fifoFull.frt f).next ∈ occ) ∧
      (∀ f, f ∈ occ → f ∉ free) :=
  ⟨reachable_pair_2c, C19_occupied_ring fifoFull reachable_pair_2c⟩


/-! ## The record of the faults: the states are those of the plain functions -/

theorem map_bind_option {α β γ : Type} (x : Option α) (f : α → Option β) (g : β → γ) :
    (x.bind f).map g = x.bind fun a => (f a).map g := by
  cases x <;> rfl

/-- The state `handle_page_fault_log` gives is the one of `handle_page_fault`. -/
theorem handle_page_fault_log_state (P : Policy) (S : ssystem) (va : Nat) :
    (handle_page_fault_log P S va).map (fun x => x.1) = handle_page_fault P S va := by
  unfold handle_page_fault_log handle_page_fault
  dsimp only
  split
  · rfl
  · split
    · simp only [map_bind_option, Option.map_map, Function.comp_def, Option.map_id']
    · simp only [map_bind_option, Option.map_map, Function.comp_def, Option.map_id']

/-- The address and the state `sim_mmu_log` gives are those of `sim_mmu`. -/
theorem sim_mmu_log_state (P : Policy) (S : ssystem) (va : Nat) (op : Char) :
    (sim_mmu_log P S va op).map (fun x => (x.1, x.2.1)) = sim_mmu P S va op := by
  unfold sim_mmu_log sim_mmu
  dsimp only
  split
  · rfl
  · split
    · rfl
    · rw [map_bind_option]
      congr 1
      funext e
      rw [map_bind_option]
      split
      · rw [← handle_page_fault_log_state]
        cases handle_page_fault_log P S va with
        | none => rfl
        | some x =>
          simp only [Option.map_some', Option.some_bind, map_bind_option, Option.map_map,
            Function.comp_def]
      · simp only [Option.some_bind, map_bind_option, Option.map_map, Function.comp_def]

/-- The last state `run_log` gives is the one of `sim_run`. -/
theorem run_log_state (P : Policy) (refs : List (Nat × Char)) (S : ssystem) :
    (run_log P S refs).map (fun x => x.1) = (sim_run P S refs).map (fun x => x.2) := by
  induction refs generalizing S with
  | nil => rfl
  | cons r rs ih =>
    simp only [run_log, sim_run, map_bind_option, Option.map_map, Function.comp_def]
    rw [← sim_mmu_log_state]
    cases sim_mmu_log P S r.1 r.2 with
    | none => rfl
    | some x =>
      simp only [Option.map_some', Option.some_bind]
      exact ih x.2.1


/-! ## The pages of the frames of the occupied ring -/

/-- Function `occupy_free_frame` of the FIFO variants writes the page of the
new frame only. -/
theorem fifo_occupy_pages {S S1 : ssystem} {k page : Int}
    (h : Fifo.occupy_free_frame S k page = some S1) :
    ∀ j, (get S1.frt j).page = if j = k then page else (get S.frt j).page := by
  unfold Fifo.occupy_free_frame at h
  simp only [Option.bind_eq_some] at h
  obtain ⟨A, hA, B, hB, h⟩ := h
  obtain ⟨-, -, eA⟩ := setPg_some hA
  subst eA
  obtain ⟨k0, k1, eB⟩ := setFr_some hB
  subst eB
  dsimp only at k1 h
  split at h
  · simp only [Option.bind_eq_some, Option.some.injEq] at h
    obtain ⟨C, hC, h⟩ := h
    obtain ⟨-, -, eC⟩ := setFr_some hC
    subst eC
    subst h
    intro j
    dsimp only
    rw [page_upd_next, page_upd_page]
    by_cases hj : j = k
    · rw [if_pos ⟨hj, k0, k1⟩, if_pos hj]
    · rw [if_neg (fun hc => hj hc.1), if_neg hj]
  · simp only [Option.bind_eq_some, Option.some.injEq] at h
    obtain ⟨el, -, C, hC, D, hD, h⟩ := h
    obtain ⟨-, -, eC⟩ := setFr_some hC
    subst eC
    obtain ⟨-, -, eD⟩ := setFr_some hD
    subst eD
    subst h
    intro j
    dsimp only
    rw [page_upd_next, page_upd_next, page_upd_page]
    by_cases hj : j = k
    · rw [if_pos ⟨hj, k0, k1⟩, if_pos hj]
    · rw [if_neg (fun hc => hj hc.1), if_neg hj]

/-- Function `replace_page` of the second-chance variant writes the page of
the frame of the victim only. -/
theorem fifo2c_replace_pages {S S1 : ssystem} {v page : Int}
    (h : Fifo2c.replace_page S v page = some S1) :
    ∀ j, (get S1.frt j).page = if j = (get S.pgt v).frame then page else (get S.frt j).page := by
  unfold Fifo2c.replace_page at h
  simp only [Option.bind_eq_some, Option.some.injEq] at h
  obtain ⟨ev, hev, A, hA, B, hB, C, hC, h⟩ := h
  obtain ⟨-, -, eev⟩ := rd_some hev
  obtain ⟨Sw, hSw, -, w2, -, -⟩ := writeback_state S (ev.modified ≠ 0)
  rw [hSw] at hA
  obtain ⟨-, -, eA⟩ := setPg_some hA
  subst eA
  obtain ⟨-, -, eB⟩ := setPg_some hB
  subst eB
  obtain ⟨f0, f1, eC⟩ := setFr_some hC
  subst eC
  subst h
  dsimp only at f0 f1
  intro j
  dsimp only
  rw [page_upd_page, w2, eev]
  rw [w2] at f1
  by_cases hj : j = ev.frame
  · rw [if_pos ⟨hj, f0, f1⟩, if_pos hj]
  · rw [if_neg (fun hc => hj hc.1), if_neg hj]

theorem ival_one (a : Int) : ival a 1 = [a] := by
  rw [ival_succ, ival_zero]

theorem ival_snoc (a : Int) (n : Nat) : ival a (n + 1) = ival a n ++ [a + (n : Int)] := by
  induction n generalizing a with
  | zero => simp only [ival_succ, ival_zero, List.nil_append, Nat.cast_zero, add_zero]
  | succ n ih =>
    rw [ival_succ a (n + 1), ih (a + 1), ival_succ a n, List.cons_append]
    congr 3
    push_cast
    ring

theorem pagesOf_append (S : ssystem) (l1 l2 : List Int) :
    pagesOf S (l1 ++ l2) = pagesOf S l1 ++ pagesOf S l2 := by
  unfold pagesOf
  rw [List.map_append]

theorem pagesOf_congr {S S1 : ssystem} (fs : List Int)
    (h : ∀ f, f ∈ fs → (get S1.frt f).page = (get S.frt f).page) :
    pagesOf S1 fs = pagesOf S fs := by
  unfold pagesOf
  exact List.map_congr_left h

/-- While frames are free the occupied ring is `0, ..., k - 1`. -/
theorem ringFrames_filling (k : Int) : ringFrames (k - 1) k = ival 0 k.toNat := by
  unfold ringFrames
  have e1 : (k - 1 - (k - 1)).toNat = 0 := by omega
  have e2 : k - 1 + 1 = k := by omega
  rw [e1, e2, ival_zero, List.nil_append]

/-- The ring after the oldest frame has become the last one. -/
theorem ringFrames_rotate (last k : Int) (h0 : 0 ≤ last) (h1 : last < k) (g : Int)
    (hg : g = if last = k - 1 then 0 else last + 1) :
    ∃ rest, ringFrames last k = g :: rest ∧ ringFrames g k = rest ++ [g] ∧ g ∉ rest := by
  by_cases hl : last = k - 1
  · rw [if_pos hl] at hg
    subst hg
    subst hl
    refine ⟨ival 1 (k - 1).toNat, ?_, ?_, ?_⟩
    · rw [ringFrames_filling]
      have e : k.toNat = (k - 1).toNat + 1 := by omega
      rw [e, ival_succ]
      rfl
    · unfold ringFrames
      have e1 : (k - 1 - 0).toNat = (k - 1).toNat := by rw [sub_zero]
      have e2 : ((0 : Int) + 1).toNat = 1 := by decide
      rw [e1, e2, ival_one]
      rfl
    · rw [mem_ival]
      omega
  · rw [if_neg hl] at hg
    subst hg
    refine ⟨ival (last + 2) (k - 2 - last).toNat ++ ival 0 (last + 1).toNat, ?_, ?_, ?_⟩
    · unfold ringFrames
      have e : (k - 1 - last).toNat = (k - 2 - last).toNat + 1 := by omega
      have e2 : last + 1 + 1 = last + 2 := by omega
      rw [e, ival_succ, e2, List.cons_append]
    · unfold ringFrames
      have e1 : (k - 1 - (last + 1)).toNat = (k - 2 - last).toNat := by
        congr 1
        omega
      have e2 : (last + 1 + 1).toNat = (last + 1).toNat + 1 := by omega
      have e3 : last + 1 + 1 = last + 2 := by omega
      have e4 : (0 : Int) + ((last + 1).toNat : Int) = last + 1 := by omega
      rw [e1, e2, ival_snoc, e3, e4, List.append_assoc]
    · rw [List.mem_append, mem_ival, mem_ival]
      omega

/-- The occupied ring of a state of the second-chance variant with `k` frames
bound, as a list of frames. -/
theorem ringOf_eq {S : ssystem} {k : Int} (h : Inv true S k) (hr : Ring2c S k) :
    ringOf S.frt S.listoccupied = some (ringFrames S.listoccupied k) := by
  have hfl := h.cfg.frt_len
  have hk0 := h.mapped.k_nonneg
  have hkn := h.mapped.k_le
  have hocc := h.occ
  unfold Occ at hocc
  simp only [if_true] at hocc
  obtain ⟨o1, o2, -⟩ := hocc
  unfold ringOf
  by_cases hk : k = 0
  · rw [if_pos (o1 hk), o1 hk, hk]
    rfl
  · obtain ⟨l0, l1⟩ := o2 (by omega)
    rw [if_neg (by omega), rd_of_range S.frt l0 (by omega), Option.some_bind]
    by_cases hlast : S.listoccupied = k - 1
    · have hnx : (get S.frt S.listoccupied).next = 0 := by
        rw [hlast]
        exact hr.back (by omega)
      rw [hnx, collectTo_asc S.frt S.listoccupied S.listoccupied.toNat 0 S.frt.length
        (le_refl _) (by omega) (by omega) (by omega)
        (fun i hi0 hi1 => hr.up i hi0 (by omega))]
      have e : (k - 1).toNat + 1 = k.toNat := by omega
      rw [hlast, ringFrames_filling, e]
    · have hnx : (get S.frt S.listoccupied).next = S.listoccupied + 1 :=
        hr.up _ l0 (by omega)
      rw [hnx, collectTo_wrap S.frt k S.listoccupied (k - 2 - S.listoccupied).toNat
        (S.listoccupied + 1) S.frt.length l0 (by omega) (by omega) (by omega) (by omega)
        hr.up (hr.back (by omega))]
      unfold ringFrames
      have e1 : (k - 1 - S.listoccupied).toNat = (k - 2 - S.listoccupied).toNat + 1 := by
        omega
      have e2 : (S.listoccupied + 1).toNat = S.listoccupied.toNat + 1 := by omega
      rw [e1, e2]


/-! ## The queue of the second-chance variant -/

/-- A page fault of the second-chance variant puts the new page at the end of
the queue of the pages in the ring, and the page it evicts, if any, is the
first of the queue. -/
theorem fifo2c_fault_queue {S : ssystem} {k : Int} (h : Inv true S k) (hr : Ring2c S k)
    {va : Nat} (hl : 0 ≤ (va : Int) / S.pagsz ∧ (va : Int) / S.pagsz < S.numpags)
    (hnp : (get S.pgt ((va : Int) / S.pagsz)).present = 0) :
    ∃ S1 k1 ev, handle_page_fault_log Fifo2c.policy S va =
        some (S1, (va : Int) / S.pagsz, ev) ∧
      Inv true S1 k1 ∧ Ring2c S1 k1 ∧ S1.numpags = S.numpags ∧
      pagesOf S (ringFrames S.listoccupied k) ++ [(va : Int) / S.pagsz] =
        ev.toList ++ pagesOf S1 (ringFrames S1.listoccupied k1) := by
  have hcfg := h.cfg
  have hz := (page_eq_div va hcfg.pagsz_pos hcfg.pagsz_int).2.2
  have hpage := (page_offset_of_legal hcfg.pagsz_pos hcfg.pagsz_int hcfg.numpags_int hl).1
  have h1 : Inv true { S with numpagefaults := S.numpagefaults + 1 } k :=
    h.congr rfl rfl rfl rfl rfl rfl rfl
  have hr1 : Ring2c { S with numpagefaults := S.numpagefaults + 1 } k :=
    hr.same_links rfl rfl (fun _ _ _ => rfl)
  have hk0 := h.mapped.k_nonneg
  have hocc1 := h.occ
  unfold Occ at hocc1
  simp only [if_true] at hocc1
  obtain ⟨s1, s2, s3⟩ := hocc1
  unfold handle_page_fault_log
  simp only [if_neg hz, hpage]
  by_cases hk : k < S.numframes
  · obtain ⟨el, S2, hlf, hrd, hnx, hS2, hmid, c1, c2, c3, c4, c5⟩ := pop_free_frame h1 hk
    obtain ⟨p1, p2, p3⟩ := pop_links hS2
    have hfree : S.listfree = S.numframes - 1 := (h.free.some_free hk).1
    simp only at hlf hrd hS2 p1 p2 p3
    rw [if_pos hlf, hrd, Option.some_bind, hS2, Option.some_bind, hnx]
    obtain ⟨S3, hocc, hinv, -, -, d2, -⟩ :=
      fifo_occupy_sound S2 k _ hmid hl.1 (by rw [c2]; exact hl.2) (by rw [c4]; exact hnp)
    obtain ⟨q1, q2, q3, q4⟩ := fifo_occupy_links hocc
    have hpg := fifo_occupy_pages hocc
    have hr2 : Ring2c S2 k :=
      hr.same_links p2 p1 (fun j _ hj1 => by rw [p3 j (by omega)])
    have hocc2 := hmid.occ
    unfold Occ at hocc2
    simp only [if_true] at hocc2
    obtain ⟨o1, o2, -⟩ := hocc2
    have hocc3 : Fifo2c.policy.occupy_free_frame S2 k ((va : Int) / S.pagsz) = some S3 := hocc
    rw [hocc3, Option.map_some']
    have hlast : S.listoccupied = k - 1 := by
      by_cases hkz : k = 0
      · rw [s1 hkz, hkz]
        rfl
      · exact hr.filling (by omega) hk
    have hring3 : Ring2c S3 (k + 1) := by
      by_cases hlo : S2.listoccupied = -1
      · have hkz : k = 0 := by
          by_contra hc
          have := (o2 (by omega)).1
          omega
        have hn := q3 hlo
        refine ⟨fun f hf0 hf1 => by omega, fun _ => ?_, fun _ _ => by rw [q1]; omega⟩
        rw [hn, hkz]
        simp
      · have hkp : 0 < k := by
          by_contra hc
          exact hlo (o1 (by omega))
        have hlast2 : S2.listoccupied = k - 1 := hr2.filling hkp (by rw [p2]; exact hk)
        have hn := q4 hlo
        refine ⟨fun f hf0 hf1 => ?_, fun _ => ?_, fun _ _ => by rw [q1]; omega⟩
        · rw [hn, hlast2]
          by_cases hf : f = k - 1
          · rw [if_pos hf]
            omega
          · rw [if_neg hf, if_neg (by omega), hr2.up f hf0 (by omega)]
        · rw [hn, hlast2, if_neg (by omega), if_pos (by omega), hr2.back hkp]
    refine ⟨S3, k + 1, none, rfl, hinv, hring3, by rw [d2, c2], ?_⟩
    have e1 : ringFrames k (k + 1) = ival 0 (k + 1).toNat := by
      have := ringFrames_filling (k + 1)
      rwa [add_sub_cancel_right] at this
    have e2 : (k + 1).toNat = k.toNat + 1 := by omega
    have e3 : (0 : Int) + (k.toNat : Int) = k := by omega
    rw [hlast, ringFrames_filling, q1, e1, e2, ival_snoc, e3, pagesOf_append]
    have e4 : pagesOf S3 (ival 0 k.toNat) = pagesOf S (ival 0 k.toNat) := by
      apply pagesOf_congr
      intro f hf
      rw [mem_ival] at hf
      rw [hpg, if_neg (by omega), p3 f (by omega)]
    have e5 : pagesOf S3 [k] = [(va : Int) / S.pagsz] := by
      unfold pagesOf
      rw [List.map_cons, List.map_nil, hpg, if_pos rfl]
    rw [e4, e5]
    rfl
  · have hkn : k = S.numframes := le_antisymm h.mapped.k_le (not_lt.1 hk)
    have hlf : S.listfree = -1 := h.free.none_free (by omega)
    have hnn : ¬ (S.listfree ≠ -1) := fun hc => hc hlf
    rw [if_neg hnn]
    subst hkn
    have hn := hcfg.numframes_pos
    obtain ⟨l0, l1⟩ := s2 hn
    obtain ⟨g0, g1⟩ := s3 _ l0 l1
    obtain ⟨-, -, -, hback⟩ := h.mapped.bound _ g0 g1
    obtain ⟨v, S2, S3, hch, hrp, hinv, -, -, d2, d3, -⟩ :=
      fifo2c_evict_sound _ _ h1 hl.1 hl.2 hnp
    have hfirst := fifo2c_choose_first _ h1
    have hch2 : Fifo2c.choose_page_to_be_replaced
        { S with numpagefaults := S.numpagefaults + 1 } = some (v, S2) := hch
    unfold Fifo2c.choose_page_to_be_replaced at hch2
    rw [hfirst, Option.map_some'] at hch2
    simp only [Option.some.injEq, Prod.mk.injEq] at hch2
    obtain ⟨hv, hS2⟩ := hch2
    subst hS2
    subst hv
    obtain ⟨q1, q2, q3⟩ := fifo2c_replace_links hrp
    have hpg := fifo2c_replace_pages hrp
    dsimp only at q1 q2 q3 hpg
    rw [hback] at q1 hpg
    have hch3 : Fifo2c.policy.choose_page_to_be_replaced
        { S with numpagefaults := S.numpagefaults + 1 } =
        some ((get S.frt (get S.frt S.listoccupied).next).page,
          { S with numpagefaults := S.numpagefaults + 1 }) := hch
    have hrp3 : Fifo2c.policy.replace_page { S with numpagefaults := S.numpagefaults + 1 }
        (get S.frt (get S.frt S.listoccupied).next).page ((va : Int) / S.pagsz) =
        some S3 := hrp
    rw [hch3, Option.some_bind]
    dsimp only
    rw [hrp3, Option.map_some']
    have hring3 : Ring2c S3 S.numframes := by
      refine ⟨fun f hf0 hf1 => ?_, fun hk => ?_, fun _ hk1 => ?_⟩
      · rw [q3]
        exact hr.up f hf0 hf1
      · rw [q3]
        exact hr.back hk
      · rw [q2] at hk1
        exact absurd hk1 (lt_irrefl _)
    refine ⟨S3, S.numframes, some _, rfl, hinv, hring3, d2, ?_⟩
    have hg : (get S.frt S.listoccupied).next =
        if S.listoccupied = S.numframes - 1 then 0 else S.listoccupied + 1 := by
      by_cases hc : S.listoccupied = S.numframes - 1
      · rw [if_pos hc, hc]
        exact hr.back hn
      · rw [if_neg hc]
        exact hr.up _ l0 (by omega)
    obtain ⟨rest, r1, r2, r3⟩ := ringFrames_rotate _ _ l0 l1 _ hg
    rw [r1, q1, r2, pagesOf_append]
    have e4 : pagesOf S3 rest = pagesOf S rest := by
      apply pagesOf_congr
      intro f hf
      have hne : f ≠ (get S.frt S.listoccupied).next := fun hc => r3 (by rw [← hc]; exact hf)
      rw [hpg, if_neg hne]
    have e5 : pagesOf S3 [(get S.frt S.listoccupied).next] = [(va : Int) / S.pagsz] := by
      unfold pagesOf
      rw [List.map_cons, List.map_nil, hpg, if_pos rfl]
    rw [e4, e5]
    unfold pagesOf
    rw [List.map_cons]
    rfl


/-- A reference of the second-chance variant returns; the page it installs,
if any, goes to the end of the queue and the page it evicts, if any, is the
first of the queue. -/
theorem fifo2c_step_queue {S : ssystem} {k : Int} (h : Inv true S k) (hr : Ring2c S k)
    (va : Nat) (op : Char) (hva : va < 4294967296) :
    ∃ a S1 k1 ins ev, sim_mmu_log Fifo2c.policy S va op = some (a, S1, ins, ev) ∧
      Inv true S1 k1 ∧ Ring2c S1 k1 ∧
      pagesOf S (ringFrames S.listoccupied k) ++ ins =
        ev ++ pagesOf S1 (ringFrames S1.listoccupied k1) := by
  have hcfg := h.cfg
  have hz := (page_eq_div va hcfg.pagsz_pos hcfg.pagsz_int).2.2
  by_cases hl : 0 ≤ (va : Int) / S.pagsz ∧ (va : Int) / S.pagsz < S.numpags
  · obtain ⟨hpage, hoff⟩ :=
      page_offset_of_legal hcfg.pagsz_pos hcfg.pagsz_int hcfg.numpags_int hl
    have hleg : ¬ ((va : Int) / S.pagsz < 0 ∨ (va : Int) / S.pagsz ≥ S.numpags) := by omega
    have hrd : rd S.pgt ((va : Int) / S.pagsz) = some (get S.pgt ((va : Int) / S.pagsz)) :=
      rd_of_range _ hl.1 (by rw [hcfg.pgt_len]; exact hl.2)
    have hmid : ∃ T k1 ins ev,
        (if (get S.pgt ((va : Int) / S.pagsz)).present = 0
          then (handle_page_fault_log Fifo2c.policy S va).map
            fun x => (x.1, [x.2.1], x.2.2.toList)
          else some (S, [], [])) = some (T, ins, ev) ∧
        Inv true T k1 ∧ Ring2c T k1 ∧ T.numpags = S.numpags ∧
        pagesOf S (ringFrames S.listoccupied k) ++ ins =
          ev ++ pagesOf T (ringFrames T.listoccupied k1) := by
      by_cases hp : (get S.pgt ((va : Int) / S.pagsz)).present = 0
      · rw [if_pos hp]
        obtain ⟨T, k1, ev, e1, e2, e3, e4, e5⟩ := fifo2c_fault_queue h hr hl hp
        rw [e1, Option.map_some']
        exact ⟨T, k1, _, _, rfl, e2, e3, e4, e5⟩
      · rw [if_neg hp]
        exact ⟨S, k, [], [], rfl, h, hr, rfl, by rw [List.append_nil, List.nil_append]⟩
    obtain ⟨T, k1, ins, ev, e1, e2, e3, e4, e5⟩ := hmid
    obtain ⟨S2, r1, r2, -⟩ :=
      fifo_reference_sound T k1 ((va : Int) / S.pagsz) op e2 hl.1 (by rw [e4]; exact hl.2)
    obtain ⟨l1, l2, l3⟩ := fifo_reference_links r1
    have hrd1 : rd T.pgt ((va : Int) / S.pagsz) = some (get T.pgt ((va : Int) / S.pagsz)) :=
      rd_of_range _ hl.1 (by rw [e2.cfg.pgt_len, e4]; exact hl.2)
    have r1b : Fifo2c.policy.reference_page T ((va : Int) / S.pagsz) op = some S2 := r1
    unfold sim_mmu_log
    simp only [if_neg hz, hpage, hoff, if_neg hleg, hrd, Option.some_bind, e1, hrd1, r1b,
      Option.map_some']
    refine ⟨_, S2, k1, ins, ev, rfl, r2, e3.same_links l3 l2 (fun j _ _ => by rw [l1]), ?_⟩
    rw [e5, l2]
    congr 1
    exact (pagesOf_congr _ (fun f _ => by rw [l1])).symm
  · have hill : toInt (va / toUnsigned S.pagsz) < 0 ∨
        toInt (va / toUnsigned S.pagsz) ≥ S.numpags := by
      by_contra hc
      exact hl ((page_legal_iff hcfg.pagsz_pos hcfg.pagsz_int hcfg.numpags_int hva).1 hc)
    unfold sim_mmu_log
    rw [if_neg hz]
    simp only [hill, if_true]
    exact ⟨_, _, k, [], [], rfl, h.congr rfl rfl rfl rfl rfl rfl rfl,
      hr.same_links rfl rfl (fun _ _ _ => rfl), by rw [List.append_nil, List.nil_append]; rfl⟩

/-- A run of the second-chance variant returns, and the queue of the pages in
the ring followed by the pages installed is the pages evicted followed by the
queue left. -/
theorem fifo2c_run_queue (refs : List (Nat × Char)) (S : ssystem) (k : Int)
    (h : Inv true S k) (hr : Ring2c S k) (hva : ∀ r ∈ refs, r.1 < 4294967296) :
    ∃ S1 k1 ins ev, run_log Fifo2c.policy S refs = some (S1, ins, ev) ∧
      Inv true S1 k1 ∧ Ring2c S1 k1 ∧
      pagesOf S (ringFrames S.listoccupied k) ++ ins =
        ev ++ pagesOf S1 (ringFrames S1.listoccupied k1) := by
  induction refs generalizing S k with
  | nil =>
    exact ⟨S, k, [], [], rfl, h, hr, by rw [List.append_nil, List.nil_append]⟩
  | cons r rs ih =>
    obtain ⟨a, T, kT, ins1, ev1, e1, e2, e3, e4⟩ :=
      fifo2c_step_queue h hr r.1 r.2 (hva r (List.mem_cons_self _ _))
    obtain ⟨S1, k1, ins2, ev2, f1, f2, f3, f4⟩ :=
      ih T kT e2 e3 (fun x hx => hva x (List.mem_cons_of_mem _ hx))
    refine ⟨S1, k1, ins1 ++ ins2, ev1 ++ ev2, ?_, f2, f3, ?_⟩
    · simp only [run_log, e1, Option.some_bind, f1, Option.map_some']
    · rw [← List.append_assoc, e4, List.append_assoc, f4, List.append_assoc]

/-- A run of the second-chance variant with two frames: the reads of the pages
0, 1, 2, 3, 0 fault each, and the pages 0, 1, 2 are evicted in this order. -/
theorem fifo2c_run_log_five :
    (run_log Fifo2c.policy start142 [(0, 'R'), (1, 'R'), (2, 'R'), (3, 'R'), (0, 'R')]).map
      (fun x => (x.2.1, x.2.2)) = some ([0, 1, 2, 3, 0], [0, 1, 2]) := by
  decide

/-! ## C21: the second-chance variant evicts in the order of installation -/

/-- Claim C21.  In every state of the second-chance variant reachable from
`init_tables` through `sim_mmu` calls every page entry has `referenced = 0`.
When no frame is free, `choose_page_to_be_replaced` called by
`handle_page_fault` (on the state with the fault counted) returns the page of
the frame `frt[listoccupied].next` after one probe and leaves the state as it
was.  Every run of references from the state returns, and the pages of the
occupied ring read from `frt[listoccupied].next` to `listoccupied`, followed
by the pages the faults install, are the pages the faults evict followed by
the pages of the ring left: the pages are evicted in the order of their
installation. -/
theorem C21_strict_fifo (S : ssystem) (hr : Reachable Fifo2c.policy S)
    (refs : List (Nat × Char)) (hva : ∀ r ∈ refs, r.1 < 4294967296) :
    (∀ p e, rd S.pgt p = some e → e.referenced = 0) ∧
    (S.listfree = -1 → ∀ c,
      Fifo2c.choose_probes { S with numpagefaults := c } =
        some ((get S.frt (get S.frt S.listoccupied).next).page,
          { S with numpagefaults := c }, 1) ∧
      Fifo2c.choose_page_to_be_replaced { S with numpagefaults := c } =
        some ((get S.frt (get S.frt S.listoccupied).next).page,
          { S with numpagefaults := c })) ∧
    ∃ addrs S1 installed evicted occ occ1,
      sim_run Fifo2c.policy S refs = some (addrs, S1) ∧
      run_log Fifo2c.policy S refs = some (S1, installed, evicted) ∧
      ringOf S.frt S.listoccupied = some occ ∧
      ringOf S1.frt S1.listoccupied = some occ1 ∧
      pagesOf S occ ++ installed = evicted ++ pagesOf S1 occ1 := by
  obtain ⟨k, hinv, hring⟩ := reachable_ring2c hr
  refine ⟨fun p e hrd => ?_, fun hfree c => ?_, ?_⟩
  · obtain ⟨p0, p1, pe⟩ := rd_some hrd
    rw [← pe]
    exact hinv.mapped.refd p p0 (by rw [← hinv.cfg.pgt_len]; exact p1)
  · have hk : k = S.numframes := by
      by_contra hc
      have hlt : k < S.numframes := lt_of_le_of_ne hinv.mapped.k_le hc
      have := (hinv.free.some_free hlt).1
      have := hinv.cfg.numframes_pos
      omega
    subst hk
    have hc : Inv true { S with numpagefaults := c } S.numframes :=
      hinv.congr rfl rfl rfl rfl rfl rfl rfl
    have hfirst := fifo2c_choose_first _ hc
    refine ⟨hfirst, ?_⟩
    unfold Fifo2c.choose_page_to_be_replaced
    rw [hfirst, Option.map_some']
  · obtain ⟨S1, k1, ins, ev, e1, e2, e3, e4⟩ := fifo2c_run_queue refs S k hinv hring hva
    have hst := run_log_state Fifo2c.policy refs S
    rw [e1, Option.map_some'] at hst
    cases hrun : sim_run Fifo2c.policy S refs with
    | none => rw [hrun] at hst; simp at hst
    | some x =>
      rw [hrun, Option.map_some', Option.some.injEq] at hst
      have hst2 : S1 = x.2 := hst
      refine ⟨x.1, S1, ins, ev, _, _, ?_, e1, ringOf_eq hinv hring, ringOf_eq e2 e3, e4⟩
      rw [hst2]

theorem C21_witness :
    Reachable Fifo2c.policy fifoFull ∧
    (∀ r ∈ [(2, 'R'), (1, 'W'), (3, 'R')], r.1 < 4294967296) ∧
    (∀ p e, rd fifoFull.pgt p = some e → e.referenced = 0) ∧
    (fifoFull.listfree = -1 → ∀ c,
      Fifo2c.choose_probes { fifoFull with numpagefaults := c } =
        some ((get fifoFull.frt (get fifoFull.frt fifoFull.listoccupied).next).page,
          { fifoFull with numpagefaults := c }, 1) ∧
      Fifo2c.choose_page_to_be_replaced { fifoFull with numpagefaults := c } =
        some ((get fifoFull.frt (get fifoFull.frt fifoFull.listoccupied).next).page,
          { fifoFull with numpagefaults := c })) ∧
    ∃ addrs S1 installed evicted occ occ1,
      sim_run Fifo2c.policy fifoFull [(2, 'R'), (1, 'W'), (3, 'R')] = some (addrs, S1) ∧
      run_log Fifo2c.policy fifoFull [(2, 'R'), (1, 'W'), (3, 'R')] =
        some (S1, installed, evicted) ∧
      ringOf fifoFull.frt fifoFull.listoccupied = some occ ∧
      ringOf S1.frt S1.listoccupied = some occ1 ∧
      pagesOf fifoFull occ ++ installed = evicted ++ pagesOf S1 occ1 :=
  ⟨reachable_pair_2c, by decide,
    C21_strict_fifo fifoFull reachable_pair_2c [(2, 'R'), (1, 'W'), (3, 'R')] (by decide)⟩


/-! ## C18: the fallback of the second-chance walk -/

end SimPaging
